import Mathlib

/-!
Verification of the dependency-graph analysis engine of this repository.

The engine appears in four places in the source, with small variations:

* `analyzeGraph` (handler `analyze_graph`): three-color DFS cycle detection
  over the prerequisite-to-dependent adjacency, Kahn's algorithm, and forward
  level propagation over the topological order;
* `createGraph` (handler `create_graph`): validation (duplicate ids, unknown
  references), DFS cycle detection over the dependent-to-prerequisite map,
  Kahn's algorithm, and memoized recursive level computation;
* `updateGraph` (handler `update_graph`): validation (unknown references
  only), DFS cycle detection over the dependent-to-prerequisite adjacency,
  Kahn's algorithm with a completeness check, and BFS level propagation;
* `getGraphDetails` (handler `get_graph_details`): a variant that silently
  skips dependency edges with undeclared endpoints.

All TypeScript `Map`/`Set` state is modelled by ordered association lists,
matching the ECMAScript guarantee that `Map` and `Set` iterate in insertion
order; numbers that can go negative (in-degrees after a decrement) are
modelled by `Int`, non-negative level values by `Nat`.  Loops without a
structural termination measure (DFS recursion, Kahn's `while` queue, BFS)
are modelled with an explicit fuel parameter; each top-level entry point
passes fuel large enough that it is never exhausted, which is proved where a
claim depends on the loop running to completion.
-/

/-- Task identifiers are opaque strings in the source. -/
abbrev TaskId := String

/-- A dependency edge row: `task_id` is the dependent, `depends_on_task_id`
the prerequisite, exactly as in the `dependencies` table and handler code. -/
structure Dep where
  task_id : TaskId
  depends_on_task_id : TaskId
deriving DecidableEq, Repr

/-- Lookup in a JS `Map` modelled as an ordered association list with unique
keys (`m.get(k)`, `undefined` becoming `none`). -/
def jsGet {α : Type} : List (TaskId × α) → TaskId → Option α
  | [], _ => none
  | p :: m, k => if p.1 = k then some p.2 else jsGet m k

/-- Update of a JS `Map` (`m.set(k, v)`): replaces the value in place if the
key is present (keeping its position), otherwise appends the new key, as JS
`Map` insertion-order semantics prescribe. -/
def jsSet {α : Type} : List (TaskId × α) → TaskId → α → List (TaskId × α)
  | [], k, v => [(k, v)]
  | p :: m, k, v => if p.1 = k then (k, v) :: m else p :: jsSet m k v

/-- Insertion into a JS `Set` modelled as a duplicate-free ordered list. -/
def jsInsert (s : List TaskId) (x : TaskId) : List TaskId :=
  if x ∈ s then s else s ++ [x]

/-- The contents of a JS `Set` built by inserting the elements of a list in
order (iteration yields first occurrences, in order). -/
def jsUnique (l : List TaskId) : List TaskId :=
  l.foldl (fun acc x => jsInsert acc x) []

/-- JS `Array.prototype.indexOf`: index of the first occurrence, `-1` when
absent. -/
def jsIndexOf (l : List TaskId) (x : TaskId) : Int :=
  if x ∈ l then (l.indexOf x : Int) else -1

theorem jsGet_jsSet {α : Type} (m : List (TaskId × α)) (k k' : TaskId) (v : α) :
    jsGet (jsSet m k v) k' = if k = k' then some v else jsGet m k' := by
  induction m with
  | nil => simp [jsSet, jsGet]
  | cons p m ih =>
    simp only [jsSet]
    by_cases hp : p.1 = k
    · simp only [if_pos hp]
      by_cases h : k = k'
      · subst h; simp [jsGet]
      · have hpk : ¬ p.1 = k' := by rw [hp]; exact h
        simp [jsGet, h, hpk]
    · simp only [if_neg hp]
      by_cases hpk : p.1 = k'
      · have h : ¬ k = k' := fun he => hp (he ▸ hpk)
        simp [jsGet, hpk, h]
      · simp [jsGet, hpk, ih]

theorem jsGet_jsSet_self {α : Type} (m : List (TaskId × α)) (k : TaskId) (v : α) :
    jsGet (jsSet m k v) k = some v := by
  simp [jsGet_jsSet]

theorem jsGet_jsSet_ne {α : Type} (m : List (TaskId × α)) {k k' : TaskId} (v : α)
    (h : k ≠ k') : jsGet (jsSet m k v) k' = jsGet m k' := by
  simp [jsGet_jsSet, h]

/-- Keys of an association list. -/
def jsKeys {α : Type} (m : List (TaskId × α)) : List TaskId :=
  m.map (fun p => p.1)

theorem jsKeys_jsSet_mem {α : Type} (m : List (TaskId × α)) (k : TaskId) (v : α)
    (h : k ∈ jsKeys m) : jsKeys (jsSet m k v) = jsKeys m := by
  induction m with
  | nil => simp [jsKeys] at h
  | cons p m ih =>
    by_cases hp : p.1 = k
    · simp [jsSet, hp, jsKeys]
    · have hm : k ∈ jsKeys m := by
        simp only [jsKeys, List.map_cons, List.mem_cons] at h
        rcases h with h | h
        · exact absurd h.symm hp
        · exact h
      simp only [jsSet, if_neg hp, jsKeys, List.map_cons]
      have hk := ih hm
      simp only [jsKeys] at hk
      rw [hk]

theorem jsGet_eq_none {α : Type} (m : List (TaskId × α)) (k : TaskId) :
    jsGet m k = none ↔ k ∉ jsKeys m := by
  induction m with
  | nil => simp [jsGet, jsKeys]
  | cons p m ih =>
    by_cases hp : p.1 = k
    · simp [jsGet, jsKeys, hp]
    · simp only [jsGet, if_neg hp, jsKeys, List.map_cons, List.mem_cons]
      rw [ih]
      simp only [jsKeys]
      constructor
      · intro h hmem
        rcases hmem with h1 | h1
        · exact hp h1.symm
        · exact h h1
      · intro h h1
        exact h (Or.inr h1)

theorem jsGet_isSome_of_mem {α : Type} (m : List (TaskId × α)) (k : TaskId)
    (h : k ∈ jsKeys m) : ∃ v, jsGet m k = some v := by
  cases hv : jsGet m k with
  | none => exact absurd h ((jsGet_eq_none m k).1 hv)
  | some v => exact ⟨v, rfl⟩

theorem mem_jsInsert (s : List TaskId) (x y : TaskId) :
    y ∈ jsInsert s x ↔ y ∈ s ∨ y = x := by
  unfold jsInsert
  by_cases h : x ∈ s
  · simp only [if_pos h]
    constructor
    · exact Or.inl
    · rintro (hy | rfl)
      · exact hy
      · exact h
  · simp [if_neg h]

theorem jsInsert_nodup (s : List TaskId) (x : TaskId) (h : s.Nodup) :
    (jsInsert s x).Nodup := by
  unfold jsInsert
  by_cases hx : x ∈ s
  · simpa [hx]
  · simp only [if_neg hx]
    rw [List.nodup_append]
    refine ⟨h, List.nodup_singleton x, ?_⟩
    intro a ha hax
    simp only [List.mem_singleton] at hax
    exact hx (hax ▸ ha)

theorem mem_jsUnique (l : List TaskId) (x : TaskId) : x ∈ jsUnique l ↔ x ∈ l := by
  unfold jsUnique
  suffices h : ∀ acc : List TaskId,
      x ∈ l.foldl (fun acc x => jsInsert acc x) acc ↔ x ∈ acc ∨ x ∈ l by
    simpa using h []
  induction l with
  | nil => intro acc; simp
  | cons a l ih =>
    intro acc
    simp only [List.foldl_cons, ih, mem_jsInsert, List.mem_cons]
    tauto

theorem jsUnique_nodup (l : List TaskId) : (jsUnique l).Nodup := by
  unfold jsUnique
  suffices h : ∀ acc : List TaskId, acc.Nodup →
      (l.foldl (fun acc x => jsInsert acc x) acc).Nodup by
    exact h [] (by simp)
  induction l with
  | nil => intro acc hacc; simpa using hacc
  | cons a l ih =>
    intro acc hacc
    exact ih _ (jsInsert_nodup acc a hacc)

theorem jsUnique_eq_self (l : List TaskId) (h : l.Nodup) : jsUnique l = l := by
  unfold jsUnique
  suffices hs : ∀ l' acc : List TaskId, l'.Nodup → (∀ x ∈ l', x ∉ acc) →
      l'.foldl (fun acc x => jsInsert acc x) acc = acc ++ l' by
    simpa using hs l [] h (by simp)
  intro l'
  induction l' with
  | nil => intro acc _ _; simp
  | cons a t ih =>
    intro acc hnd hdis
    simp only [List.foldl_cons]
    have ha : a ∉ acc := hdis a (by simp)
    have hstep : jsInsert acc a = acc ++ [a] := by simp [jsInsert, ha]
    rw [hstep]
    have hnd2 : t.Nodup := (List.nodup_cons.1 hnd).2
    have hna : a ∉ t := (List.nodup_cons.1 hnd).1
    have hdis2 : ∀ x ∈ t, x ∉ acc ++ [a] := by
      intro x hx
      simp only [List.mem_append, List.mem_singleton]
      push_neg
      exact ⟨hdis x (by simp [hx]), fun he => hna (he ▸ hx)⟩
    rw [ih (acc ++ [a]) hnd2 hdis2]
    simp

/-- DFS node colors used by `analyzeGraph` (`'white' | 'gray' | 'black'`). -/
inductive Color
  | white
  | gray
  | black
deriving DecidableEq, Repr

/-- The analysis tuple produced by every entry point (`GraphAnalysis` in the
schema, minus the `graph_id` pass-through): a null `topological_order` is
`none`, the `task_levels` record is an ordered association list. -/
structure GraphAnalysis where
  has_cycles : Bool
  cycles : List (List TaskId)
  topological_order : Option (List TaskId)
  task_levels : List (TaskId × Nat)
deriving DecidableEq, Repr

/-- Adjacency list of `analyzeGraph` (prerequisite to list of dependents):
initialise every task with `[]`, then push `dep.task_id` onto the entry of
`dep.depends_on_task_id` for each dependency row, in row order. -/
def buildAdjacency (tasks : List TaskId) (deps : List Dep) : List (TaskId × List TaskId) :=
  let init := tasks.foldl (fun m t => jsSet m t []) []
  deps.foldl
    (fun m d =>
      jsSet m d.depends_on_task_id ((jsGet m d.depends_on_task_id).getD [] ++ [d.task_id]))
    init

/-- Mutable state of `analyzeGraph`'s DFS: the color map, the accumulated
cycle list, and the shared `currentPath` stack. -/
structure DfsState where
  color : List (TaskId × Color)
  cycles : List (List TaskId)
  currentPath : List TaskId
deriving Repr

mutual

/-- One call of `dfsForCycles(node)`: mark gray, push on the path, walk the
neighbors, pop, mark black.  `fuel` bounds the recursion depth; each entry
point passes more fuel than there are white nodes, so it is never exhausted
(proved below where it matters). -/
def dfsVisit (adj : List (TaskId × List TaskId)) (fuel : Nat) (s : DfsState)
    (node : TaskId) : DfsState :=
  match fuel with
  | 0 => s
  | fuel' + 1 =>
    let s1 : DfsState := { color := jsSet s.color node Color.gray,
                           cycles := s.cycles,
                           currentPath := s.currentPath ++ [node] }
    let s2 := dfsNeighbors adj fuel' s1 ((jsGet adj node).getD [])
    { color := jsSet s2.color node Color.black,
      cycles := s2.cycles,
      currentPath := s2.currentPath.dropLast }
termination_by (fuel, 0)

/-- The `for (const neighbor of neighbors)` loop of `dfsForCycles`: a gray
neighbor records the cycle `currentPath.slice(currentPath.indexOf(neighbor))`
closed with the neighbor itself (a gray node is always on the path, so
`indexOf` is its first index); a white neighbor is visited recursively; any
other color (black, or a node absent from the color map) is skipped. -/
def dfsNeighbors (adj : List (TaskId × List TaskId)) (fuel : Nat) (s : DfsState)
    (ns : List TaskId) : DfsState :=
  match ns with
  | [] => s
  | n :: rest =>
    if jsGet s.color n = some Color.gray then
      let cycle := s.currentPath.drop (s.currentPath.indexOf n) ++ [n]
      dfsNeighbors adj fuel { s with cycles := s.cycles ++ [cycle] } rest
    else if jsGet s.color n = some Color.white then
      dfsNeighbors adj fuel (dfsVisit adj fuel s n) rest
    else
      dfsNeighbors adj fuel s rest
termination_by (fuel, ns.length + 1)

end

/-- The cycle-detection phase of `analyzeGraph`: colors initialised to white
for every task id, then `dfsForCycles` launched from every still-white root
in declared task order. -/
def analyzeDfs (tasks : List TaskId) (deps : List Dep) : DfsState :=
  let adj := buildAdjacency tasks deps
  let allTaskIds := jsUnique tasks
  let color0 := allTaskIds.foldl (fun m t => jsSet m t Color.white) []
  allTaskIds.foldl
    (fun s t =>
      if jsGet s.color t = some Color.white then
        dfsVisit adj (allTaskIds.length + 1) s t
      else s)
    { color := color0, cycles := [], currentPath := [] }

/-- In-degree map of `analyzeGraph`: every task id starts at `0`, then each
dependency row increments the entry of its dependent. -/
def inDegreeInit (tasks : List TaskId) (deps : List Dep) : List (TaskId × Int) :=
  let base := (jsUnique tasks).foldl (fun m t => jsSet m t (0 : Int)) []
  deps.foldl (fun m d => jsSet m d.task_id ((jsGet m d.task_id).getD 0 + 1)) base

/-- Body of one dequeue of the Kahn `while` loop, shared verbatim by
`analyzeGraph`, `calculateTopologicalOrder` and `topologicalSort`: decrement
the in-degree of every recorded dependent of the dequeued node and enqueue
each one exactly when its decremented in-degree is `0`. -/
def kahnStep (degQueue : List (TaskId × Int) × List TaskId) (neighbors : List TaskId) :
    List (TaskId × Int) × List TaskId :=
  neighbors.foldl
    (fun acc n =>
      let d := (jsGet acc.1 n).getD 0 - 1
      (jsSet acc.1 n d, if d = 0 then acc.2 ++ [n] else acc.2))
    degQueue

/-- The Kahn `while (queue.length > 0)` loop.  The loop dequeues one node per
iteration and every node enters the queue at most once, so any fuel larger
than the node count makes the fueled loop agree with the unbounded one. -/
def kahnLoop (adj : List (TaskId × List TaskId)) (fuel : Nat)
    (deg : List (TaskId × Int)) (queue order : List TaskId) : List TaskId :=
  match fuel, queue with
  | 0, _ => order
  | _ + 1, [] => order
  | fuel' + 1, q :: qs =>
    let r := kahnStep (deg, qs) ((jsGet adj q).getD [])
    kahnLoop adj fuel' r.1 r.2 (order ++ [q])

/-- Level propagation of `analyzeGraph`: walk the topological order, and for
each node push `level + 1` onto every recorded dependent, keeping the
maximum. -/
def propagateLevels (adj : List (TaskId × List TaskId))
    (levels : List (TaskId × Nat)) (order : List TaskId) : List (TaskId × Nat) :=
  order.foldl
    (fun L t =>
      let currentLevel := (jsGet L t).getD 0
      ((jsGet adj t).getD []).foldl
        (fun L' n => jsSet L' n (max ((jsGet L' n).getD 0) (currentLevel + 1)))
        L)
    levels

/-- The pure core of the `analyzeGraph` handler (src analyze_graph lines
50-182), taking the task rows' ids in fetch order and the dependency rows in
fetch order: DFS cycle detection, then (only when no cycle was recorded)
Kahn's algorithm and forward level propagation. -/
def analyzeGraph (tasks : List TaskId) (deps : List Dep) : GraphAnalysis :=
  let adj := buildAdjacency tasks deps
  let allTaskIds := jsUnique tasks
  let dfs := analyzeDfs tasks deps
  if dfs.cycles.length > 0 then
    { has_cycles := true, cycles := dfs.cycles,
      topological_order := none, task_levels := [] }
  else
    let inDeg := inDegreeInit tasks deps
    let queue := allTaskIds.filter (fun t => jsGet inDeg t = some 0)
    let order := kahnLoop adj (allTaskIds.length + 1) inDeg queue []
    let levels0 := allTaskIds.foldl (fun m t => jsSet m t (0 : Nat)) []
    let levels := propagateLevels adj levels0 order
    { has_cycles := false, cycles := dfs.cycles,
      topological_order := some order, task_levels := levels }

/-- Validation failures of the createGraph/updateGraph handlers, by kind:
`duplicateTaskId` models the `'Duplicate task_id found in input'` throw,
`unknownTaskReference ref` the throws naming a dependency reference `ref`
that is not a declared task. -/
inductive AnalysisError
  | duplicateTaskId
  | unknownTaskReference (ref : TaskId)
deriving DecidableEq, Repr

/-- Mutable state of the `visited`/`recursionStack` DFS used by createGraph,
updateGraph and getGraphDetails (the cycle path is passed as an argument). -/
structure SetDfsState where
  visited : List TaskId
  recStack : List TaskId
  cycles : List (List TaskId)
deriving Repr

/-- One call of the `dfs(node, path)` used by updateGraph's `detectCycles`
and (verbatim) by getGraphDetails' `detectCycles`: mark visited and
in-progress, push onto a copied path, then for each neighbor either recurse
(unvisited) or record `path.slice(path.indexOf(neighbor))` closed with the
neighbor (neighbor on the recursion stack; the `-1` guard of the source is
kept), finally drop the node from the recursion stack. -/
def dfsSet (adj : List (TaskId × List TaskId)) (fuel : Nat) (s : SetDfsState)
    (node : TaskId) (path : List TaskId) : SetDfsState :=
  match fuel with
  | 0 => s
  | fuel' + 1 =>
    let s1 : SetDfsState := { visited := jsInsert s.visited node,
                              recStack := jsInsert s.recStack node,
                              cycles := s.cycles }
    let p := path ++ [node]
    let s2 := ((jsGet adj node).getD []).foldl
      (fun st n =>
        if n ∉ st.visited then dfsSet adj fuel' st n p
        else if n ∈ st.recStack then
          let i := jsIndexOf p n
          if i ≠ -1 then { st with cycles := st.cycles ++ [p.drop i.toNat ++ [n]] }
          else st
        else st)
      s1
    { s2 with recStack := s2.recStack.erase node }

/-- One call of the `dfs(task, path)` used by createGraph's `detectCycles`:
the in-progress and visited checks are performed on entry of the callee
instead of at the neighbor loop, the path copy already containing the
caller. -/
def dfsEntry (adj : List (TaskId × List TaskId)) (fuel : Nat) (s : SetDfsState)
    (task : TaskId) (path : List TaskId) : SetDfsState :=
  match fuel with
  | 0 => s
  | fuel' + 1 =>
    if task ∈ s.recStack then
      { s with cycles := s.cycles ++ [path.drop (path.indexOf task) ++ [task]] }
    else if task ∈ s.visited then s
    else
      let s1 : SetDfsState := { visited := jsInsert s.visited task,
                                recStack := jsInsert s.recStack task,
                                cycles := s.cycles }
      let s2 := ((jsGet adj task).getD []).foldl
        (fun st dep => dfsEntry adj fuel' st dep (path ++ [task]))
        s1
      { s2 with recStack := s2.recStack.erase task }

/-- Total number of neighbor entries of an adjacency map, used to size DFS
fuel. -/
def adjSize (adj : List (TaskId × List TaskId)) : Nat :=
  (adj.map (fun p => p.2.length)).foldl (· + ·) 0

/-- Fuel that dominates the number of distinct nodes any of the DFS variants
can ever visit (declared tasks plus every id occurring in the adjacency). -/
def dfsFuel (roots : List TaskId) (adj : List (TaskId × List TaskId)) : Nat :=
  roots.length + adj.length + adjSize adj + 1

/-- The `dependsOnMap` built by createGraph: each input task's id mapped to
its dependency list, in input order. -/
def dependsOnMapOf (tasks : List (TaskId × List TaskId)) : List (TaskId × List TaskId) :=
  tasks.foldl (fun m t => jsSet m t.1 t.2) []

/-- createGraph's `detectCycles(tasks, dependencies)`: entry-checking DFS
from every unvisited task, in task order, walking dependent to
prerequisite. -/
def detectCyclesCreate (tasks : List TaskId) (dmap : List (TaskId × List TaskId)) :
    Bool × List (List TaskId) :=
  let st := tasks.foldl
    (fun s t => if t ∉ s.visited then dfsEntry dmap (dfsFuel tasks dmap) s t [] else s)
    { visited := [], recStack := [], cycles := [] }
  (st.cycles.length > 0, st.cycles)

/-- The `dependentsMap` of createGraph's `calculateTopologicalOrder`:
reverse of the dependent-to-prerequisite map, entries created on demand. -/
def buildDependentsMap (tasks : List TaskId) (dmap : List (TaskId × List TaskId)) :
    List (TaskId × List TaskId) :=
  let init := tasks.foldl (fun m t => jsSet m t []) []
  dmap.foldl
    (fun m p =>
      p.2.foldl
        (fun m' dep =>
          let m2 := if dep ∈ jsKeys m' then m' else jsSet m' dep []
          jsSet m2 dep ((jsGet m2 dep).getD [] ++ [p.1]))
        m)
    init

/-- createGraph's `calculateTopologicalOrder`: re-runs cycle detection and
returns `null` when a cycle is found, otherwise Kahn's algorithm over the
dependents map with in-degree = length of each task's dependency list. -/
def calculateTopologicalOrder (tasks : List TaskId) (dmap : List (TaskId × List TaskId)) :
    Option (List TaskId) :=
  if (detectCyclesCreate tasks dmap).1 then none
  else
    let dependentsMap := buildDependentsMap tasks dmap
    let inDeg := tasks.foldl
      (fun m t => jsSet m t (((jsGet dmap t).getD []).length : Int)) []
    let queue := inDeg.foldl (fun q p => if p.2 = 0 then q ++ [p.1] else q) []
    some (kahnLoop dependentsMap (tasks.length + 1) inDeg queue [])

/-- Memoized level recursion of createGraph (`calculateLevel`): a cached
level is returned as is; a task on the current recursion path returns `0`;
otherwise the task's level is `0` for no dependencies and `1 + max` of the
recursively computed dependency levels, cached before the task leaves the
path. -/
def calculateLevel (dmap : List (TaskId × List TaskId)) (fuel : Nat)
    (st : (List (TaskId × Nat)) × List TaskId) (task : TaskId) :
    ((List (TaskId × Nat)) × List TaskId) × Nat :=
  match fuel with
  | 0 => (st, 0)
  | fuel' + 1 =>
    match jsGet st.1 task with
    | some v => (st, v)
    | none =>
      if task ∈ st.2 then (st, 0)
      else
        let deps := (jsGet dmap task).getD []
        let start : (((List (TaskId × Nat)) × List TaskId) × List Nat) :=
          ((st.1, jsInsert st.2 task), [])
        let r := deps.foldl
          (fun acc dep =>
            let c := calculateLevel dmap fuel' acc.1 dep
            (c.1, acc.2 ++ [c.2]))
          start
        let value := if deps.length = 0 then 0 else (r.2.foldl max 0) + 1
        ((jsSet r.1.1 task value, (r.1.2).erase task), value)

/-- createGraph's `calculateTaskLevels`: run the memoized recursion over all
tasks in declared order and return the accumulated level record. -/
def calculateTaskLevels2 (tasks : List TaskId) (dmap : List (TaskId × List TaskId)) :
    List (TaskId × Nat) :=
  (tasks.foldl
    (fun st t => (calculateLevel dmap (dfsFuel tasks dmap) st t).1)
    ([], [])).1

/-- First dependency reference of a task list that is not itself a declared
task id, scanning tasks and their dependency lists in order (createGraph's
validation loop). -/
def firstUnknownRef (tasks : List (TaskId × List TaskId)) (ids : List TaskId) :
    Option TaskId :=
  tasks.findSome? (fun t => t.2.find? (fun d => !(ids.contains d)))

/-- The pure analysis core of the `createGraph` handler: duplicate-id check,
unknown-reference check, then cycle detection, topological order and
memoized levels over the dependent-to-prerequisite map.  Database writes are
outside the engine and not modelled. -/
def createGraphResult (tasks : List (TaskId × List TaskId)) :
    Except AnalysisError GraphAnalysis :=
  let taskIds := tasks.map (fun t => t.1)
  if taskIds.length ≠ (jsUnique taskIds).length then
    .error .duplicateTaskId
  else
    match firstUnknownRef tasks taskIds with
    | some d => .error (.unknownTaskReference d)
    | none =>
      let dmap := dependsOnMapOf tasks
      let c := detectCyclesCreate taskIds dmap
      .ok { has_cycles := c.1, cycles := c.2,
            topological_order := calculateTopologicalOrder taskIds dmap,
            task_levels := calculateTaskLevels2 taskIds dmap }

/-- The flattened dependency rows of an updateGraph input (`allDependencies`),
in task-major order. -/
def allDependenciesOf (tasks : List (TaskId × List TaskId)) : List Dep :=
  tasks.flatMap (fun t => t.2.map (fun d => { task_id := t.1, depends_on_task_id := d }))

/-- updateGraph's `detectCycles(taskIds, dependencies)`: builds the dependent
to prerequisite adjacency from the rows and runs the neighbor-checking DFS
from every unvisited task in order. -/
def detectCyclesUpdate (taskIds : List TaskId) (deps : List Dep) : List (List TaskId) :=
  let graph :=
    let init := taskIds.foldl (fun m t => jsSet m t []) []
    deps.foldl
      (fun m d => jsSet m d.task_id ((jsGet m d.task_id).getD [] ++ [d.depends_on_task_id]))
      init
  (taskIds.foldl
    (fun s t => if t ∉ s.visited then dfsSet graph (dfsFuel taskIds graph) s t [] else s)
    { visited := [], recStack := [], cycles := [] }).cycles

/-- In-degree map shared by updateGraph's `topologicalSort` (and, composed
with `jsUnique`, by analyzeGraph): every listed id starts at `0`, each
dependency row increments its dependent. -/
def inDegreeFrom (ids : List TaskId) (deps : List Dep) : List (TaskId × Int) :=
  let base := ids.foldl (fun m t => jsSet m t (0 : Int)) []
  deps.foldl (fun m d => jsSet m d.task_id ((jsGet m d.task_id).getD 0 + 1)) base

/-- updateGraph's `topologicalSort`: Kahn's algorithm over the prerequisite
to dependent adjacency, returning the order only when it contains as many
entries as there are task ids and `null` otherwise. -/
def topologicalSortUpdate (taskIds : List TaskId) (deps : List Dep) :
    Option (List TaskId) :=
  let graph := buildAdjacency taskIds deps
  let inDeg := inDegreeFrom taskIds deps
  let queue := inDeg.foldl (fun q p => if p.2 = 0 then q ++ [p.1] else q) []
  let result := kahnLoop graph (taskIds.length + deps.length + 1) inDeg queue []
  if result.length = taskIds.length then some result else none

/-- The BFS `while (queue.length > 0)` loop of updateGraph's
`calculateTaskLevels`: each dequeued node pushes `level + 1` onto every
dependent, and a dependent enters the queue once unvisited with all of its
prerequisites visited. -/
def bfsLoop (graph : List (TaskId × List TaskId)) (deps : List Dep) (fuel : Nat)
    (levels : List (TaskId × Nat)) (visited queue : List TaskId) :
    List (TaskId × Nat) :=
  match fuel, queue with
  | 0, _ => levels
  | _ + 1, [] => levels
  | fuel' + 1, current :: qs =>
    let currentLevel := (jsGet levels current).getD 0
    let r := ((jsGet graph current).getD []).foldl
      (fun (acc : (List (TaskId × Nat)) × List TaskId × List TaskId) dependent =>
        let L := jsSet acc.1 dependent
          (max ((jsGet acc.1 dependent).getD 0) (currentLevel + 1))
        if dependent ∉ acc.2.1 ∧
            ∀ d ∈ deps.filter (fun d => d.task_id = dependent),
              d.depends_on_task_id ∈ acc.2.1 then
          (L, acc.2.1 ++ [dependent], acc.2.2 ++ [dependent])
        else
          (L, acc.2.1, acc.2.2))
      (levels, visited, qs)
    bfsLoop graph deps fuel' r.1 r.2.1 r.2.2

/-- updateGraph's `calculateTaskLevels`: all levels start at `0`, roots are
the tasks that appear in no dependency row as dependent, and levels
propagate by BFS. -/
def calculateTaskLevelsUpdate (taskIds : List TaskId) (deps : List Dep) :
    List (TaskId × Nat) :=
  let graph := buildAdjacency taskIds deps
  let levels0 := taskIds.foldl (fun m t => jsSet m t (0 : Nat)) []
  let roots := taskIds.filter (fun t => ¬ deps.any (fun d => d.task_id = t))
  bfsLoop graph deps (taskIds.length + 1) levels0 roots roots

/-- The pure analysis core of the `updateGraph` handler on a replacement
task list: unknown-reference validation (there is no duplicate-id check on
this path), then cycle detection, length-checked topological sort and BFS
levels over the flattened dependency rows. -/
def updateGraphResult (tasks : List (TaskId × List TaskId)) :
    Except AnalysisError GraphAnalysis :=
  let taskIds := tasks.map (fun t => t.1)
  let allDeps := allDependenciesOf tasks
  match allDeps.find? (fun d => !(taskIds.contains d.depends_on_task_id)) with
  | some d => .error (.unknownTaskReference d.depends_on_task_id)
  | none =>
    let cycles := detectCyclesUpdate taskIds allDeps
    .ok { has_cycles := cycles.length > 0, cycles := cycles,
          topological_order := topologicalSortUpdate taskIds allDeps,
          task_levels := calculateTaskLevelsUpdate taskIds allDeps }

/-- Adjacency list and in-degree map of getGraphDetails' `analyzeGraph`:
every declared task gets an empty entry and degree `0`, and a dependency row
contributes only when both of its endpoints are declared (`adjList.has(from)
&& inDegree.has(to)`); otherwise it is skipped without any error. -/
def ggBuild (taskIds : List TaskId) (deps : List Dep) :
    (List (TaskId × List TaskId)) × (List (TaskId × Int)) :=
  let adj0 := taskIds.foldl (fun m t => jsSet m t []) []
  let deg0 := taskIds.foldl (fun m t => jsSet m t (0 : Int)) []
  deps.foldl
    (fun (p : (List (TaskId × List TaskId)) × (List (TaskId × Int))) d =>
      if d.depends_on_task_id ∈ jsKeys p.1 ∧ d.task_id ∈ jsKeys p.2 then
        (jsSet p.1 d.depends_on_task_id
           ((jsGet p.1 d.depends_on_task_id).getD [] ++ [d.task_id]),
         jsSet p.2 d.task_id ((jsGet p.2 d.task_id).getD 0 + 1))
      else p)
    (adj0, deg0)

/-- The combined Kahn/level loop of getGraphDetails'
`calculateTopologicalOrderAndLevels`: each dequeued node decrements its
dependents' cloned in-degrees, pushes `level + 1` onto them, and enqueues
the ones reaching zero. -/
def ggLoop (adj : List (TaskId × List TaskId)) (fuel : Nat)
    (deg : List (TaskId × Int)) (levels : List (TaskId × Nat))
    (queue order : List TaskId) : List TaskId × List (TaskId × Nat) :=
  match fuel, queue with
  | 0, _ => (order, levels)
  | _ + 1, [] => (order, levels)
  | fuel' + 1, current :: qs =>
    let r := ((jsGet adj current).getD []).foldl
      (fun (acc : (List (TaskId × Int)) × (List (TaskId × Nat)) × List TaskId) neighbor =>
        let nd := (jsGet acc.1 neighbor).getD 0 - 1
        let dg := jsSet acc.1 neighbor nd
        let cur := (jsGet acc.2.1 current).getD 0
        let L := jsSet acc.2.1 neighbor (max ((jsGet acc.2.1 neighbor).getD 0) (cur + 1))
        (dg, L, if nd = 0 then acc.2.2 ++ [neighbor] else acc.2.2))
      (deg, levels, qs)
    ggLoop adj fuel' r.1 r.2.1 r.2.2 (order ++ [current])

/-- The pure core of getGraphDetails' `analyzeGraph(tasks, dependencies)`:
guarded adjacency construction, the neighbor-checking DFS over the keys of
the adjacency list, and (without cycles) the combined Kahn/level pass seeded
with the zero-degree entries at level `0`. -/
def ggAnalyzeGraph (taskIds : List TaskId) (deps : List Dep) : GraphAnalysis :=
  let b := ggBuild taskIds deps
  let adj := b.1
  let st := (jsKeys adj).foldl
    (fun s t => if t ∉ s.visited then dfsSet adj (dfsFuel (jsKeys adj) adj) s t [] else s)
    { visited := [], recStack := [], cycles := [] }
  if st.cycles.length > 0 then
    { has_cycles := true, cycles := st.cycles,
      topological_order := none, task_levels := [] }
  else
    let seeds := b.2.foldl
      (fun (acc : List TaskId × List (TaskId × Nat)) p =>
        if p.2 = 0 then (acc.1 ++ [p.1], jsSet acc.2 p.1 0) else acc)
      ([], [])
    let ol := ggLoop adj (taskIds.length + 1) b.2 seeds.2 seeds.1 []
    { has_cycles := false, cycles := st.cycles,
      topological_order := some ol.1, task_levels := ol.2 }

theorem jsKeys_jsSet {α : Type} (m : List (TaskId × α)) (k : TaskId) (v : α) :
    jsKeys (jsSet m k v) = jsInsert (jsKeys m) k := by
  induction m with
  | nil => simp [jsSet, jsKeys, jsInsert]
  | cons p m ih =>
    by_cases hp : p.1 = k
    · simp [jsSet, hp, jsKeys, jsInsert]
    · have hne : ¬ k = p.1 := fun h => hp h.symm
      simp only [jsSet, if_neg hp, jsKeys, List.map_cons]
      have ih2 := ih
      simp only [jsKeys] at ih2
      rw [ih2]
      unfold jsInsert
      by_cases hk : k ∈ List.map (fun p => p.1) m
      · simp [jsKeys, hk, hne]
      · simp [jsKeys, hk, hne]

theorem mem_foldl_jsInsert (l acc : List TaskId) (x : TaskId) :
    x ∈ l.foldl (fun a y => jsInsert a y) acc ↔ x ∈ acc ∨ x ∈ l := by
  induction l generalizing acc with
  | nil => simp
  | cons a l ih =>
    simp only [List.foldl_cons, ih, mem_jsInsert, List.mem_cons]
    tauto

theorem jsGet_foldl_set_const {α : Type} (ids : List TaskId) (v : α)
    (m0 : List (TaskId × α)) (k : TaskId) :
    jsGet (ids.foldl (fun m t => jsSet m t v) m0) k =
      if k ∈ ids then some v else jsGet m0 k := by
  induction ids generalizing m0 with
  | nil => simp
  | cons a ids ih =>
    simp only [List.foldl_cons, ih, jsGet_jsSet, List.mem_cons]
    by_cases ha : k ∈ ids
    · simp [ha]
    · by_cases hk : a = k
      · simp [ha, hk]
      · have : ¬ k = a := fun h => hk h.symm
        simp [ha, hk, this]

theorem jsKeys_foldl_set_const {α : Type} (ids : List TaskId) (v : α)
    (m0 : List (TaskId × α)) :
    jsKeys (ids.foldl (fun m t => jsSet m t v) m0) =
      ids.foldl (fun a y => jsInsert a y) (jsKeys m0) := by
  induction ids generalizing m0 with
  | nil => simp
  | cons a ids ih =>
    simp only [List.foldl_cons, ih, jsKeys_jsSet]

theorem jsKeys_init_eq_jsUnique {α : Type} (ids : List TaskId) (v : α) :
    jsKeys (ids.foldl (fun m t => jsSet m t v) []) = jsUnique ids := by
  rw [jsKeys_foldl_set_const]
  rfl

/-- The guard of getGraphDetails' edge loop tests exactly that both
endpoints of the row are declared task ids, so the guarded build equals the
build over the pre-filtered row list. -/
theorem ggBuild_filter (taskIds : List TaskId) (deps : List Dep) :
    ggBuild taskIds deps =
      ggBuild taskIds
        (deps.filter (fun d =>
          decide (d.task_id ∈ taskIds) && decide (d.depends_on_task_id ∈ taskIds))) := by
  unfold ggBuild
  dsimp only
  generalize hadj : taskIds.foldl (fun m t => jsSet m t ([] : List TaskId)) [] = adj0
  generalize hdeg : taskIds.foldl (fun m t => jsSet m t (0 : Int)) [] = deg0
  have hka : jsKeys adj0 = jsUnique taskIds := by rw [← hadj]; exact jsKeys_init_eq_jsUnique _ _
  have hkd : jsKeys deg0 = jsUnique taskIds := by rw [← hdeg]; exact jsKeys_init_eq_jsUnique _ _
  clear hadj hdeg
  induction deps generalizing adj0 deg0 with
  | nil => simp
  | cons d deps ih =>
    by_cases hmem : d.task_id ∈ taskIds ∧ d.depends_on_task_id ∈ taskIds
    · have hguard : d.depends_on_task_id ∈ jsKeys adj0 ∧ d.task_id ∈ jsKeys deg0 := by
        rw [hka, hkd, mem_jsUnique, mem_jsUnique]
        exact ⟨hmem.2, hmem.1⟩
      have hb : (decide (d.task_id ∈ taskIds) && decide (d.depends_on_task_id ∈ taskIds)) = true := by
        simp [hmem.1, hmem.2]
      simp only [List.filter_cons, hb, if_true, List.foldl_cons, if_pos hguard]
      exact ih _ _
        (by rw [jsKeys_jsSet_mem _ _ _ hguard.1]; exact hka)
        (by rw [jsKeys_jsSet_mem _ _ _ hguard.2]; exact hkd)
    · have hguard : ¬ (d.depends_on_task_id ∈ jsKeys adj0 ∧ d.task_id ∈ jsKeys deg0) := by
        rw [hka, hkd, mem_jsUnique, mem_jsUnique]
        intro h
        exact hmem ⟨h.2, h.1⟩
      have hb : (decide (d.task_id ∈ taskIds) && decide (d.depends_on_task_id ∈ taskIds)) = false := by
        rcases not_and_or.1 hmem with h | h <;> simp [h]
      simp only [List.filter_cons, hb, Bool.false_eq_true, if_false, List.foldl_cons,
        if_neg hguard]
      exact ih _ _ hka hkd

/-- C10.  In getGraphDetails' analysis, a dependency row with an undeclared
endpoint is silently skipped while building the adjacency list and
in-degrees: the whole analysis equals the analysis of the pre-filtered row
list, and (the function being total, with no validation phase) no
UnknownTaskReference failure exists on this path. -/
theorem gg_analysis_skips_unknown_edges (taskIds : List TaskId) (deps : List Dep) :
    ggAnalyzeGraph taskIds deps =
      ggAnalyzeGraph taskIds
        (deps.filter (fun d =>
          decide (d.task_id ∈ taskIds) && decide (d.depends_on_task_id ∈ taskIds))) := by
  unfold ggAnalyzeGraph
  rw [← ggBuild_filter]

/-- C9.  The analysis is a function of the ordered task list and ordered
edge list alone.  The embedding reproduces the ECMAScript guarantee that
`Map`/`Set` iteration follows insertion order (ordered association lists),
so two invocations of `analyzeGraph` on identical input agree on every
component of the result. -/
theorem analyze_deterministic (tasks : List TaskId) (deps : List Dep)
    (r1 r2 : GraphAnalysis) (h1 : r1 = analyzeGraph tasks deps)
    (h2 : r2 = analyzeGraph tasks deps) :
    r1.has_cycles = r2.has_cycles ∧ r1.cycles = r2.cycles ∧
      r1.topological_order = r2.topological_order ∧
      r1.task_levels = r2.task_levels := by
  subst h1
  subst h2
  exact ⟨rfl, rfl, rfl, rfl⟩

/-- Witness for C9 at a concrete input. -/
theorem analyze_deterministic_witness :
    (analyzeGraph ["task1", "task2"] [⟨"task2", "task1"⟩]).has_cycles =
        (analyzeGraph ["task1", "task2"] [⟨"task2", "task1"⟩]).has_cycles ∧
      (analyzeGraph ["task1", "task2"] [⟨"task2", "task1"⟩]).cycles =
        (analyzeGraph ["task1", "task2"] [⟨"task2", "task1"⟩]).cycles ∧
      (analyzeGraph ["task1", "task2"] [⟨"task2", "task1"⟩]).topological_order =
        (analyzeGraph ["task1", "task2"] [⟨"task2", "task1"⟩]).topological_order ∧
      (analyzeGraph ["task1", "task2"] [⟨"task2", "task1"⟩]).task_levels =
        (analyzeGraph ["task1", "task2"] [⟨"task2", "task1"⟩]).task_levels :=
  analyze_deterministic ["task1", "task2"] [⟨"task2", "task1"⟩] _ _ rfl rfl

theorem toFinset_card_eq_length_iff (l : List TaskId) :
    l.toFinset.card = l.length ↔ l.Nodup := by
  have h := Multiset.toFinset_card_eq_card_iff_nodup (m := (l : Multiset TaskId))
  simpa using h

theorem jsUnique_length_eq (l : List TaskId) :
    (jsUnique l).length = l.toFinset.card := by
  have h1 : (jsUnique l).toFinset = l.toFinset := by
    ext x
    simp [List.mem_toFinset, mem_jsUnique]
  rw [← List.toFinset_card_of_nodup (jsUnique_nodup l), h1]

theorem length_eq_jsUnique_iff (l : List TaskId) :
    l.length = (jsUnique l).length ↔ l.Nodup := by
  rw [jsUnique_length_eq, eq_comm, toFinset_card_eq_length_iff]

/-- C6 (amended).  createGraph's validation fails with the duplicate-id
condition exactly when some task id repeats (the duplicate check runs first,
so this holds for every input, and the `Except` shape shows the failure
carries no analysis result); updateGraph's validation, by contrast, has no
duplicate check at all and can never produce that failure. -/
theorem validation_duplicate_check :
    (∀ tasks : List (TaskId × List TaskId),
        createGraphResult tasks = .error .duplicateTaskId ↔
          ¬ (tasks.map (fun t => t.1)).Nodup) ∧
      (∀ tasks : List (TaskId × List TaskId),
        updateGraphResult tasks ≠ .error .duplicateTaskId) := by
  constructor
  · intro tasks
    unfold createGraphResult
    dsimp only
    by_cases h : (tasks.map (fun t => t.1)).length =
        (jsUnique (tasks.map (fun t => t.1))).length
    · have hnd : (tasks.map (fun t => t.1)).Nodup := (length_eq_jsUnique_iff _).1 h
      rw [if_neg (not_not_intro h)]
      cases hfr : firstUnknownRef tasks (tasks.map (fun t => t.1)) with
      | some d => simp [hfr, hnd]
      | none => simp [hfr, hnd]
    · have hnd : ¬ (tasks.map (fun t => t.1)).Nodup := fun hn =>
        h ((length_eq_jsUnique_iff _).2 hn)
      rw [if_pos h]
      simp [hnd]
  · intro tasks
    unfold updateGraphResult
    dsimp only
    cases hfr : (allDependenciesOf tasks).find?
        (fun d => !((tasks.map (fun t => t.1)).contains d.depends_on_task_id)) with
    | some d => simp
    | none => simp

/-- Counterexample for C6: updateGraph accepts a task list with a duplicated
identifier and returns an analysis instead of failing. -/
theorem validation_duplicate_cex :
    ¬ (([("dup", []), ("dup", [])] : List (TaskId × List TaskId)).map
        (fun t => t.1)).Nodup ∧
      ∃ a, updateGraphResult [("dup", []), ("dup", [])] = .ok a := by
  exact ⟨by decide, ⟨_, rfl⟩⟩

theorem firstUnknownRef_eq_none_iff (tasks : List (TaskId × List TaskId))
    (ids : List TaskId) :
    firstUnknownRef tasks ids = none ↔ ∀ t ∈ tasks, ∀ d ∈ t.2, d ∈ ids := by
  unfold firstUnknownRef
  rw [List.findSome?_eq_none_iff]
  constructor
  · intro h t ht d hd
    have h1 := h t ht
    rw [List.find?_eq_none] at h1
    have h2 := h1 d hd
    simpa using h2
  · intro h t ht
    rw [List.find?_eq_none]
    intro d hd
    simpa using h t ht d hd

theorem findUnknownDep_eq_none_iff (deps : List Dep) (ids : List TaskId) :
    deps.find? (fun d => !(ids.contains d.depends_on_task_id)) = none ↔
      ∀ d ∈ deps, d.depends_on_task_id ∈ ids := by
  rw [List.find?_eq_none]
  constructor
  · intro h d hd
    have h2 := h d hd
    simpa using h2
  · intro h d hd
    simpa using h d hd

/-- C7 (amended).  The unknown-reference condition is raised exactly when a
dependency entry names an id that is not a declared task (for this input
shape the dependent side is a declared task by construction, so only the
prerequisite side can be unknown).  For createGraph this holds on inputs
with duplicate-free ids, because the duplicate check runs first; for
updateGraph it holds for every input.  In both cases the failure is the
result of the validation phase that precedes every algorithmic stage, and
the `Except` error carries no analysis result. -/
theorem validation_unknown_ref_check :
    (∀ tasks : List (TaskId × List TaskId),
        (tasks.map (fun t => t.1)).Nodup →
        ((∃ r, createGraphResult tasks = .error (.unknownTaskReference r)) ↔
          ∃ t ∈ tasks, ∃ d ∈ t.2, d ∉ tasks.map (fun t => t.1))) ∧
      (∀ tasks : List (TaskId × List TaskId),
        (∃ r, updateGraphResult tasks = .error (.unknownTaskReference r)) ↔
          ∃ d ∈ allDependenciesOf tasks,
            d.depends_on_task_id ∉ tasks.map (fun t => t.1)) := by
  constructor
  · intro tasks hnd
    unfold createGraphResult
    dsimp only
    rw [if_neg (not_not_intro ((length_eq_jsUnique_iff _).2 hnd))]
    cases hfr : firstUnknownRef tasks (tasks.map (fun t => t.1)) with
    | some d =>
      simp only [hfr]
      constructor
      · intro _
        by_contra hno
        push_neg at hno
        have : firstUnknownRef tasks (tasks.map (fun t => t.1)) = none :=
          (firstUnknownRef_eq_none_iff _ _).2 hno
        rw [hfr] at this
        exact Option.noConfusion this
      · intro _
        exact ⟨d, rfl⟩
    | none =>
      simp only [hfr]
      constructor
      · rintro ⟨r, hr⟩
        exact Except.noConfusion hr
      · rintro ⟨t, ht, dd, hdd, hout⟩
        have h1 := (firstUnknownRef_eq_none_iff _ _).1 hfr t ht dd hdd
        exact absurd h1 hout
  · intro tasks
    unfold updateGraphResult
    dsimp only
    cases hfr : (allDependenciesOf tasks).find?
        (fun d => !((tasks.map (fun t => t.1)).contains d.depends_on_task_id)) with
    | some d =>
      simp only [hfr]
      constructor
      · intro _
        by_contra hno
        push_neg at hno
        have h1 : (allDependenciesOf tasks).find?
            (fun d => !((tasks.map (fun t => t.1)).contains d.depends_on_task_id)) = none :=
          (findUnknownDep_eq_none_iff _ _).2 hno
        rw [hfr] at h1
        exact Option.noConfusion h1
      · intro _
        exact ⟨d.depends_on_task_id, rfl⟩
    | none =>
      simp only [hfr]
      constructor
      · rintro ⟨r, hr⟩
        exact Except.noConfusion hr
      · rintro ⟨dd, hdd, hout⟩
        exact absurd ((findUnknownDep_eq_none_iff _ _).1 hfr dd hdd) hout

/-- Counterexample for C7: an input with both a duplicated id and an unknown
dependency reference fails with the duplicate-id condition instead of the
unknown-reference condition, because createGraph checks duplicates first. -/
theorem validation_unknown_ref_cex :
    (∃ t ∈ ([("a", ["zzz"]), ("a", [])] : List (TaskId × List TaskId)),
        ∃ d ∈ t.2, d ∉ ([("a", ["zzz"]), ("a", [])] :
          List (TaskId × List TaskId)).map (fun t => t.1)) ∧
      createGraphResult [("a", ["zzz"]), ("a", [])] = .error .duplicateTaskId := by
  exact ⟨by decide, rfl⟩

/-- Witness for C7 applied at scenario F: a dangling reference fails with
the unknown-reference condition. -/
theorem validation_unknown_ref_witness :
    ∃ r, createGraphResult [("valid", ["nonexistent"])] =
      .error (.unknownTaskReference r) :=
  (validation_unknown_ref_check.1 [("valid", ["nonexistent"])] (by decide)).2
    (by decide)

/-- One forward dependency step of an edge list: `stepRel E a b` holds when
some row records that `b` depends on `a` (prerequisite to dependent). -/
def stepRel (E : List Dep) (a b : TaskId) : Prop :=
  ∃ e ∈ E, e.depends_on_task_id = a ∧ e.task_id = b

/-- A dependency cycle of an edge list: a nonempty chain of forward steps
from some node back to itself. -/
def HasCycle (E : List Dep) : Prop :=
  ∃ v l, List.Chain (stepRel E) v (l ++ [v])

/-- One step along an adjacency map: `b` occurs among the recorded
neighbors of `a`. -/
def adjStep (adj : List (TaskId × List TaskId)) (a b : TaskId) : Prop :=
  b ∈ (jsGet adj a).getD []

/-- A cycle of an adjacency map. -/
def HasCycleAdj (adj : List (TaskId × List TaskId)) : Prop :=
  ∃ v l, List.Chain (adjStep adj) v (l ++ [v])

theorem chain_rank_lt {R : TaskId → TaskId → Prop} {f : TaskId → Nat}
    (hf : ∀ a b, R a b → f a < f b) :
    ∀ (v : TaskId) (l : List TaskId), List.Chain R v l → ∀ x ∈ l, f v < f x := by
  intro v l
  induction l generalizing v with
  | nil => intro _ x hx; cases hx
  | cons b l ih =>
    intro hc x hx
    rcases List.chain_cons.1 hc with ⟨hvb, hc'⟩
    rcases List.mem_cons.1 hx with rfl | hx'
    · exact hf _ _ hvb
    · exact lt_trans (hf _ _ hvb) (ih b hc' x hx')

/-- A rank function that strictly increases along every forward step rules
out dependency cycles. -/
theorem no_cycle_of_rank (E : List Dep) (f : TaskId → Nat)
    (hf : ∀ a b, stepRel E a b → f a < f b) : ¬ HasCycle E := by
  rintro ⟨v, l, hc⟩
  have h := chain_rank_lt hf v (l ++ [v]) hc v (by simp)
  exact lt_irrefl _ h

/-- Reversing a cycle turns a cycle for a relation into one for the flipped
relation, so the two traversal directions agree on cycle existence. -/
theorem hasCycle_flip {R S : TaskId → TaskId → Prop}
    (h : ∀ a b, R a b → S b a) (v : TaskId) (l : List TaskId)
    (hc : List.Chain R v (l ++ [v])) :
    ∃ w m, List.Chain S w (m ++ [w]) := by
  have hc' : List.Chain' R (v :: (l ++ [v])) := hc
  have h1 : List.Chain' (flip R) (v :: (l ++ [v])).reverse := by
    rw [List.chain'_reverse]
    exact hc'
  have h2 : List.Chain' S (v :: (l ++ [v])).reverse :=
    h1.imp (fun a b hab => h b a hab)
  have h3 : (v :: (l ++ [v])).reverse = v :: (l.reverse ++ [v]) := by simp
  rw [h3] at h2
  exact ⟨v, l.reverse, h2⟩

theorem not_nodup_split (c : List TaskId) (h : ¬ c.Nodup) :
    ∃ a c1 c2 c3, c = c1 ++ a :: c2 ++ a :: c3 := by
  induction c with
  | nil => exact absurd List.nodup_nil h
  | cons x xs ih =>
    by_cases hx : x ∈ xs
    · rcases List.append_of_mem hx with ⟨s, t, rfl⟩
      exact ⟨x, [], s, t, by simp⟩
    · have hxs : ¬ xs.Nodup := by
        intro hn
        exact h (List.nodup_cons.2 ⟨hx, hn⟩)
      rcases ih hxs with ⟨a, c1, c2, c3, rfl⟩
      exact ⟨a, x :: c1, c2, c3, by simp⟩

theorem exists_long_chain (R : TaskId → TaskId → Prop) (S : List TaskId)
    (hS : S ≠ []) (hpred : ∀ x ∈ S, ∃ y ∈ S, R y x) :
    ∀ n, ∃ c : List TaskId, c.length = n + 1 ∧ (∀ x ∈ c, x ∈ S) ∧ List.Chain' R c := by
  intro n
  induction n with
  | zero =>
    rcases List.exists_mem_of_ne_nil S hS with ⟨x, hx⟩
    exact ⟨[x], by simp, by simpa using hx, List.chain'_singleton x⟩
  | succ n ih =>
    rcases ih with ⟨c, hlen, hmem, hch⟩
    rcases hc : c with _ | ⟨hd, tl⟩
    · rw [hc] at hlen; simp at hlen
    · have hhd : hd ∈ S := hmem hd (by rw [hc]; simp)
      rcases hpred hd hhd with ⟨y, hyS, hR⟩
      refine ⟨y :: c, by simp [hlen], ?_, ?_⟩
      · intro x hx
        rcases List.mem_cons.1 hx with rfl | hx'
        · exact hyS
        · exact hmem x hx'
      · rw [hc]
        rw [List.chain'_cons']
        refine ⟨?_, by rw [← hc]; exact hch⟩
        intro z hz
        simp only [List.head?_cons, Option.mem_def, Option.some.injEq] at hz
        subst hz
        exact hR

/-- In a finite set in which every element has a predecessor inside the
set, some element lies on a cycle (build a chain longer than the set and
extract the loop between two occurrences of a repeated element). -/
theorem exists_cycle_of_pred (R : TaskId → TaskId → Prop) (S : List TaskId)
    (hS : S ≠ []) (hpred : ∀ x ∈ S, ∃ y ∈ S, R y x) :
    ∃ v l, List.Chain R v (l ++ [v]) := by
  rcases exists_long_chain R S hS hpred S.length with ⟨c, hlen, hmem, hch⟩
  have hnd : ¬ c.Nodup := by
    intro hn
    have h1 : c.toFinset.card = c.length := List.toFinset_card_of_nodup hn
    have h2 : c.toFinset ⊆ S.toFinset := by
      intro x hx
      rw [List.mem_toFinset] at hx ⊢
      exact hmem x hx
    have h3 : c.toFinset.card ≤ S.toFinset.card := Finset.card_le_card h2
    have h4 : S.toFinset.card ≤ S.length := List.toFinset_card_le S
    omega
  rcases not_nodup_split c hnd with ⟨a, c1, c2, c3, rfl⟩
  have h5 : List.Chain' R ((a :: c2) ++ (a :: c3)) := by
    have hre : c1 ++ a :: c2 ++ a :: c3 = c1 ++ ((a :: c2) ++ (a :: c3)) := by simp
    rw [hre] at hch
    exact hch.right_of_append
  have h6 : ((a :: c2) ++ (a :: c3) : List TaskId) = (a :: (c2 ++ [a])) ++ c3 := by
    simp
  rw [h6] at h5
  exact ⟨a, c2, h5.left_of_append⟩

/-- Neighbors contributed by an edge list under a key/value projection pair:
the values of the rows whose key projection is `k`, in row order. -/
def edgeTargets (key val : Dep → TaskId) (E : List Dep) (k : TaskId) : List TaskId :=
  (E.filter (fun e => decide (key e = k))).map val

/-- Dependents of a prerequisite, in row order (the adjacency rows built by
analyzeGraph, topologicalSort and the BFS levels). -/
def dependentsOf (E : List Dep) (k : TaskId) : List TaskId :=
  edgeTargets (fun d => d.depends_on_task_id) (fun d => d.task_id) E k

/-- Prerequisites of a dependent, in row order (the adjacency rows built by
updateGraph's detectCycles). -/
def prereqsOf (E : List Dep) (k : TaskId) : List TaskId :=
  edgeTargets (fun d => d.task_id) (fun d => d.depends_on_task_id) E k

/-- Number of rows naming `k` as dependent (its in-degree). -/
def degreeOf (E : List Dep) (k : TaskId) : Nat :=
  (E.filter (fun e => decide (e.task_id = k))).length

theorem adjFold_get (key val : Dep → TaskId) (E : List Dep)
    (m0 : List (TaskId × List TaskId))
    (hval : ∀ e ∈ E, key e ∈ jsKeys m0) (k : TaskId) :
    jsGet (E.foldl
        (fun m d => jsSet m (key d) ((jsGet m (key d)).getD [] ++ [val d])) m0) k =
      (jsGet m0 k).map (fun l => l ++ edgeTargets key val E k) := by
  induction E generalizing m0 with
  | nil =>
    cases h : jsGet m0 k <;> simp [edgeTargets, h]
  | cons e E ih =>
    have hkey : key e ∈ jsKeys m0 := hval e (by simp)
    rcases jsGet_isSome_of_mem m0 (key e) hkey with ⟨l0, hl0⟩
    have hkeys : jsKeys (jsSet m0 (key e) ((jsGet m0 (key e)).getD [] ++ [val e])) =
        jsKeys m0 := jsKeys_jsSet_mem _ _ _ hkey
    simp only [List.foldl_cons]
    rw [ih _ (fun e' he' => by rw [hkeys]; exact hval e' (by simp [he']))]
    by_cases hk : key e = k
    · subst hk
      rw [jsGet_jsSet_self, hl0]
      simp [edgeTargets, List.filter_cons, hl0, List.append_assoc]
    · rw [jsGet_jsSet_ne _ _ hk]
      have hfil : (List.filter (fun e' => decide (key e' = k)) (e :: E)) =
          List.filter (fun e' => decide (key e' = k)) E := by
        simp [List.filter_cons, hk]
      cases h : jsGet m0 k <;> simp [edgeTargets, h, hfil]

theorem degFold_get (key : Dep → TaskId) (E : List Dep)
    (m0 : List (TaskId × Int))
    (hval : ∀ e ∈ E, key e ∈ jsKeys m0) (k : TaskId) :
    jsGet (E.foldl
        (fun m d => jsSet m (key d) ((jsGet m (key d)).getD 0 + 1)) m0) k =
      (jsGet m0 k).map
        (fun v => v + ((E.filter (fun e => decide (key e = k))).length : Int)) := by
  induction E generalizing m0 with
  | nil =>
    cases h : jsGet m0 k <;> simp [h]
  | cons e E ih =>
    have hkey : key e ∈ jsKeys m0 := hval e (by simp)
    rcases jsGet_isSome_of_mem m0 (key e) hkey with ⟨v0, hv0⟩
    have hkeys : jsKeys (jsSet m0 (key e) ((jsGet m0 (key e)).getD 0 + 1)) =
        jsKeys m0 := jsKeys_jsSet_mem _ _ _ hkey
    simp only [List.foldl_cons]
    rw [ih _ (fun e' he' => by rw [hkeys]; exact hval e' (by simp [he']))]
    by_cases hk : key e = k
    · subst hk
      rw [jsGet_jsSet_self, hv0]
      rw [List.filter_cons_of_pos (by simp)]
      simp only [Option.getD_some, Option.map_some, Option.map_some', Option.some.injEq,
        List.length_cons]
      push_cast
      ring
    · rw [jsGet_jsSet_ne _ _ hk]
      have hfil : (List.filter (fun e' => decide (key e' = k)) (e :: E)) =
          List.filter (fun e' => decide (key e' = k)) E := by
        simp [List.filter_cons, hk]
      cases h : jsGet m0 k <;> simp [h, hfil]

/-- Characterization of analyzeGraph's adjacency list on inputs whose
prerequisites are declared tasks. -/
theorem buildAdjacency_get (tasks : List TaskId) (E : List Dep)
    (hval : ∀ e ∈ E, e.depends_on_task_id ∈ tasks) (k : TaskId) :
    jsGet (buildAdjacency tasks E) k =
      if k ∈ tasks then some (dependentsOf E k) else none := by
  unfold buildAdjacency
  dsimp only
  rw [adjFold_get (fun d => d.depends_on_task_id) (fun d => d.task_id) E _
    (fun e he => by
      rw [jsKeys_init_eq_jsUnique, mem_jsUnique]
      exact hval e he)]
  rw [jsGet_foldl_set_const]
  by_cases hk : k ∈ tasks <;> simp [hk, dependentsOf, jsGet]

/-- Characterization of the dependent-to-prerequisite adjacency built by
updateGraph's detectCycles, on inputs whose dependents are declared tasks. -/
theorem buildGraphBack_get (tasks : List TaskId) (E : List Dep)
    (hval : ∀ e ∈ E, e.task_id ∈ tasks) (k : TaskId) :
    jsGet (E.foldl
        (fun m d => jsSet m d.task_id ((jsGet m d.task_id).getD [] ++ [d.depends_on_task_id]))
        (tasks.foldl (fun m t => jsSet m t []) [])) k =
      if k ∈ tasks then some (prereqsOf E k) else none := by
  rw [adjFold_get (fun d => d.task_id) (fun d => d.depends_on_task_id) E _
    (fun e he => by
      rw [jsKeys_init_eq_jsUnique, mem_jsUnique]
      exact hval e he)]
  rw [jsGet_foldl_set_const]
  by_cases hk : k ∈ tasks <;> simp [hk, prereqsOf, jsGet]

/-- Characterization of the in-degree maps on inputs whose dependents are
declared tasks. -/
theorem inDegreeFrom_get (ids : List TaskId) (E : List Dep)
    (hval : ∀ e ∈ E, e.task_id ∈ ids) (k : TaskId) :
    jsGet (inDegreeFrom ids E) k =
      if k ∈ ids then some (degreeOf E k : Int) else none := by
  unfold inDegreeFrom
  dsimp only
  rw [degFold_get (fun d => d.task_id) E _
    (fun e he => by
      rw [jsKeys_init_eq_jsUnique, mem_jsUnique]
      exact hval e he)]
  rw [jsGet_foldl_set_const]
  by_cases hk : k ∈ ids <;> simp [hk, degreeOf, jsGet]

/-- Number of dependency rows of dependent `k` whose prerequisite has not
yet been emitted into `order`: the value Kahn's algorithm keeps in the
in-degree map. -/
def remaining (E : List Dep) (order : List TaskId) (k : TaskId) : Nat :=
  (E.filter (fun e => decide (e.task_id = k) && !(decide (e.depends_on_task_id ∈ order)))).length

theorem remaining_nil (E : List Dep) (k : TaskId) :
    remaining E [] k = degreeOf E k := by
  simp [remaining, degreeOf]

theorem count_dependentsOf (E : List Dep) (q k : TaskId) :
    (dependentsOf E q).count k =
      (E.filter (fun e => decide (e.task_id = k) && decide (e.depends_on_task_id = q))).length := by
  unfold dependentsOf edgeTargets
  rw [List.count_eq_countP, List.countP_map, ← List.countP_eq_length_filter,
    List.countP_filter]
  congr 1

theorem remaining_append (E : List Dep) (order : List TaskId) (q k : TaskId)
    (hq : q ∉ order) :
    remaining E (order ++ [q]) k + (dependentsOf E q).count k =
      remaining E order k := by
  rw [count_dependentsOf]
  unfold remaining
  rw [← List.countP_eq_length_filter, ← List.countP_eq_length_filter,
    ← List.countP_eq_length_filter]
  induction E with
  | nil => simp
  | cons e E ih =>
    by_cases hk : e.task_id = k
    · by_cases hdep : e.depends_on_task_id ∈ order
      · have h2 : ¬ e.depends_on_task_id = q := fun he => hq (he ▸ hdep)
        rw [List.countP_cons_of_neg _ _ (by simp [hdep]),
          List.countP_cons_of_neg _ _ (by simp [h2]),
          List.countP_cons_of_neg _ _ (by simp [hdep])]
        exact ih
      · by_cases hdq : e.depends_on_task_id = q
        · rw [List.countP_cons_of_neg _ _ (by simp [hdq]),
            List.countP_cons_of_pos _ _ (by simp [hk, hdq]),
            List.countP_cons_of_pos _ _ (by simp [hk, hdep])]
          omega
        · rw [List.countP_cons_of_pos _ _ (by simp [hk, hdep, hdq]),
            List.countP_cons_of_neg _ _ (by simp [hdq]),
            List.countP_cons_of_pos _ _ (by simp [hk, hdep])]
          omega
    · rw [List.countP_cons_of_neg _ _ (by simp [hk]),
        List.countP_cons_of_neg _ _ (by simp [hk]),
        List.countP_cons_of_neg _ _ (by simp [hk])]
      exact ih

theorem count_le_remaining (E : List Dep) (order : List TaskId) (q k : TaskId)
    (hq : q ∉ order) :
    (dependentsOf E q).count k ≤ remaining E order k := by
  have h := remaining_append E order q k hq
  omega

theorem remaining_eq_zero_iff (E : List Dep) (order : List TaskId) (k : TaskId) :
    remaining E order k = 0 ↔
      ∀ e ∈ E, e.task_id = k → e.depends_on_task_id ∈ order := by
  unfold remaining
  rw [List.length_eq_zero, List.filter_eq_nil_iff]
  constructor
  · intro h e he hk
    have h2 := h e he
    simp only [decide_eq_true hk, Bool.true_and, Bool.not_eq_true', decide_eq_false_iff_not,
      not_not] at h2
    exact h2
  · intro h e he
    by_cases hk : e.task_id = k
    · have := h e he hk
      simp [hk, this]
    · simp [hk]

theorem kahnStep_spec (ns : List TaskId) :
    ∀ (deg : List (TaskId × Int)) (queue : List TaskId),
    (∀ n ∈ ns, ∃ v : Int, jsGet deg n = some v ∧ (ns.count n : Int) ≤ v) →
    (∀ k, jsGet (kahnStep (deg, queue) ns).1 k =
        (jsGet deg k).map (fun v => v - (ns.count k : Int))) ∧
    ∃ newly : List TaskId,
      (kahnStep (deg, queue) ns).2 = queue ++ newly ∧ newly.Nodup ∧
      (∀ n, n ∈ newly ↔ n ∈ ns ∧ 0 < ns.count n ∧
        jsGet deg n = some (ns.count n : Int)) := by
  induction ns with
  | nil =>
    intro deg queue _
    refine ⟨?_, [], by simp [kahnStep], by simp, by simp⟩
    intro k
    cases h : jsGet deg k <;> simp [kahnStep, h]
  | cons n0 rest ih =>
    intro deg queue hyp
    rcases hyp n0 (by simp) with ⟨v0, hv0, hge0⟩
    have hcnt0 : ((n0 :: rest).count n0 : Int) = (rest.count n0 : Int) + 1 := by
      rw [List.count_cons_self]; push_cast; ring
    have hv0ge1 : 1 ≤ v0 := by
      rw [hcnt0] at hge0
      have : (0 : Int) ≤ (rest.count n0 : Int) := Int.ofNat_nonneg _
      omega
    have hstep : kahnStep (deg, queue) (n0 :: rest) =
        kahnStep (jsSet deg n0 (v0 - 1),
          if v0 - 1 = 0 then queue ++ [n0] else queue) rest := by
      unfold kahnStep
      simp [hv0]
    have hyp2 : ∀ n ∈ rest, ∃ v : Int, jsGet (jsSet deg n0 (v0 - 1)) n = some v ∧
        (rest.count n : Int) ≤ v := by
      intro n hn
      by_cases hne : n0 = n
      · subst hne
        refine ⟨v0 - 1, jsGet_jsSet_self _ _ _, ?_⟩
        rw [hcnt0] at hge0
        omega
      · rcases hyp n (by simp [hn]) with ⟨v, hv, hgev⟩
        refine ⟨v, by rw [jsGet_jsSet_ne _ _ hne]; exact hv, ?_⟩
        have hc : (n0 :: rest).count n = rest.count n := by
          rw [List.count_cons_of_ne (fun h => hne h.symm)]
        rw [hc] at hgev
        exact hgev
    rcases ih (jsSet deg n0 (v0 - 1))
        (if v0 - 1 = 0 then queue ++ [n0] else queue) hyp2 with
      ⟨hget, newly, hq, hnd, hmem⟩
    constructor
    · intro k
      rw [hstep, hget k]
      by_cases hk : n0 = k
      · subst hk
        rw [jsGet_jsSet_self, hv0, hcnt0]
        simp only [Option.map_some', Option.some.injEq]
        ring
      · rw [jsGet_jsSet_ne _ _ hk]
        have hc : (n0 :: rest).count k = rest.count k :=
          List.count_cons_of_ne (fun h => hk h.symm) _
        rw [hc]
    · refine ⟨(if v0 - 1 = 0 then [n0] else []) ++ newly, ?_, ?_, ?_⟩
      · rw [hstep, hq]
        by_cases hz : v0 - 1 = 0 <;> simp [hz]
      · rw [List.nodup_append]
        refine ⟨?_, hnd, ?_⟩
        · by_cases hz : v0 - 1 = 0 <;> simp [hz]
        · intro a ha hanew
          by_cases hz : v0 - 1 = 0
          · rw [if_pos hz] at ha
            simp only [List.mem_singleton] at ha
            subst ha
            rcases (hmem a).1 hanew with ⟨hr, hcpos, hgeta⟩
            rw [jsGet_jsSet_self] at hgeta
            have : v0 - 1 = (rest.count a : Int) := by
              injection hgeta
            omega
          · rw [if_neg hz] at ha
            simp at ha
      · intro n
        rw [List.mem_append, hmem n]
        by_cases hne : n0 = n
        · subst hne
          rw [jsGet_jsSet_self]
          constructor
          · rintro (h1 | ⟨h2, h3, h4⟩)
            · have hz : v0 - 1 = 0 := by
                by_cases hz : v0 - 1 = 0
                · exact hz
                · rw [if_neg hz] at h1; simp at h1
              refine ⟨by simp, by rw [List.count_cons_self]; omega, ?_⟩
              rw [hv0, hcnt0]
              have : v0 = 1 := by omega
              rw [this]
              norm_num
              omega
            · have h4e : v0 - 1 = (rest.count n0 : Int) := by injection h4
              refine ⟨by simp, by rw [List.count_cons_self]; omega, ?_⟩
              rw [hv0, hcnt0]
              congr 1
              omega
          · rintro ⟨_, hcpos, hget0⟩
            have hveq : v0 = ((n0 :: rest).count n0 : Int) := by
              rw [hv0] at hget0
              injection hget0
            rw [hcnt0] at hveq
            by_cases hr : rest.count n0 = 0
            · left
              have hz : v0 - 1 = 0 := by
                rw [hr] at hveq
                omega
              rw [if_pos hz]
              simp
            · right
              refine ⟨List.count_pos_iff.1 (Nat.pos_of_ne_zero hr),
                Nat.pos_of_ne_zero hr, ?_⟩
              congr 1
              omega
        · have hc : (n0 :: rest).count n = rest.count n :=
            List.count_cons_of_ne (fun h => hne h.symm) _
          rw [jsGet_jsSet_ne _ _ hne, hc]
          constructor
          · rintro (h1 | h2)
            · by_cases hz : v0 - 1 = 0
              · rw [if_pos hz] at h1
                simp only [List.mem_singleton] at h1
                exact absurd h1.symm hne
              · rw [if_neg hz] at h1
                simp at h1
            · exact ⟨by simp [h2.1], h2.2.1, h2.2.2⟩
          · rintro ⟨h1, h2, h3⟩
            right
            rcases List.mem_cons.1 h1 with h1 | h1
            · exact absurd h1.symm hne
            · exact ⟨h1, h2, h3⟩

theorem indexOf_lt_of_mem_take (l : List TaskId) (a : TaskId) (i : Nat)
    (h : a ∈ l.take i) : l.indexOf a < i := by
  induction l generalizing i with
  | nil => simp at h
  | cons x xs ih =>
    cases i with
    | zero => simp at h
    | succ i =>
      rw [List.take_succ_cons] at h
      by_cases hax : x = a
      · subst hax
        rw [List.indexOf_cons_self]
        omega
      · rcases List.mem_cons.1 h with h1 | h1
        · exact absurd h1.symm hax
        · rw [List.indexOf_cons_ne _ hax]
          have := ih i h1
          omega

/-- Invariant of the shared Kahn loop, relative to a duplicate-free node
list `V` and the dependency rows `E`: the in-degree map holds exactly the
number of rows whose prerequisite has not been emitted, emitted and queued
nodes are distinct members of `V`, a node's remaining count is zero exactly
when it has been emitted or queued, and every emitted node appears after all
of its prerequisites. -/
structure KahnInv (V : List TaskId) (E : List Dep) (deg : List (TaskId × Int))
    (queue order : List TaskId) : Prop where
  deg_get : ∀ k, jsGet deg k = if k ∈ V then some (remaining E order k : Int) else none
  nodup : (order ++ queue).Nodup
  subV : ∀ k ∈ order ++ queue, k ∈ V
  zero_iff : ∀ k ∈ V, (remaining E order k = 0 ↔ k ∈ order ++ queue)
  sorted : ∀ e ∈ E, e.task_id ∈ order →
    e.depends_on_task_id ∈ order.take (order.indexOf e.task_id)

theorem kahnInv_step (V : List TaskId) (E : List Dep)
    (adj : List (TaskId × List TaskId))
    (hE : ∀ e ∈ E, e.task_id ∈ V ∧ e.depends_on_task_id ∈ V)
    (hadj : ∀ k, jsGet adj k = if k ∈ V then some (dependentsOf E k) else none)
    (deg : List (TaskId × Int)) (qs order : List TaskId) (q : TaskId)
    (inv : KahnInv V E deg (q :: qs) order) :
    KahnInv V E (kahnStep (deg, qs) ((jsGet adj q).getD [])).1
      (kahnStep (deg, qs) ((jsGet adj q).getD [])).2 (order ++ [q]) := by
  have hqV : q ∈ V := inv.subV q (by simp)
  have hqord : q ∉ order := by
    have h := inv.nodup
    rw [List.nodup_append] at h
    intro hmem
    exact h.2.2 hmem (by simp)
  have hrem_q : remaining E order q = 0 := (inv.zero_iff q hqV).2 (by simp)
  have hns : (jsGet adj q).getD [] = dependentsOf E q := by
    rw [hadj q, if_pos hqV]
    rfl
  rw [hns]
  set ns := dependentsOf E q with hnsdef
  have hcount : ∀ k, ns.count k ≤ remaining E order k :=
    fun k => count_le_remaining E order q k hqord
  have hremnew : ∀ k, remaining E (order ++ [q]) k = remaining E order k - ns.count k := by
    intro k
    have h := remaining_append E order q k hqord
    rw [← hnsdef] at h
    omega
  have hmemV : ∀ n ∈ ns, n ∈ V := by
    intro n hn
    rw [hnsdef] at hn
    unfold dependentsOf edgeTargets at hn
    rcases List.mem_map.1 hn with ⟨e, he, rfl⟩
    exact (hE e (List.mem_of_mem_filter he)).1
  have hyp : ∀ n ∈ ns, ∃ v : Int, jsGet deg n = some v ∧ (ns.count n : Int) ≤ v := by
    intro n hn
    refine ⟨(remaining E order n : Int), ?_, ?_⟩
    · rw [inv.deg_get n, if_pos (hmemV n hn)]
    · exact_mod_cast hcount n
  rcases kahnStep_spec ns deg qs hyp with ⟨hget, newly, hq, hndnew, hmemnew⟩
  have hnotin : ∀ n ∈ newly, n ∉ order ++ q :: qs := by
    intro n hn hmem
    rcases (hmemnew n).1 hn with ⟨hn1, hn2, hn3⟩
    have hnV : n ∈ V := hmemV n hn1
    have h0 : remaining E order n = 0 := (inv.zero_iff n hnV).2 hmem
    rw [inv.deg_get n, if_pos hnV] at hn3
    have : (remaining E order n : Int) = (ns.count n : Int) := by
      injection hn3
    omega
  have hrearr : order ++ q :: qs = (order ++ [q]) ++ qs := by simp
  constructor
  · intro k
    rw [hget k, inv.deg_get k]
    by_cases hk : k ∈ V
    · rw [if_pos hk, if_pos hk]
      simp only [Option.map_some', Option.some.injEq]
      rw [hremnew k]
      have := hcount k
      push_cast
      omega
    · rw [if_neg hk, if_neg hk]
      rfl
  · rw [hq]
    have h1 : ((order ++ [q]) ++ (qs ++ newly)) = ((order ++ q :: qs) ++ newly) := by
      simp
    rw [h1, List.nodup_append]
    exact ⟨inv.nodup, hndnew, fun a ha hanew => hnotin a hanew ha⟩
  · intro k hk
    rw [hq] at hk
    rcases List.mem_append.1 hk with hk | hk
    · rcases List.mem_append.1 hk with hk | hk
      · exact inv.subV k (by simp [hk])
      · simp only [List.mem_singleton] at hk
        exact hk ▸ hqV
    · rcases List.mem_append.1 hk with hk | hk
      · exact inv.subV k (by simp [hk])
      · exact hmemV k ((hmemnew k).1 hk).1
  · intro k hkV
    rw [hq, hremnew k]
    constructor
    · intro h0
      by_cases hold : remaining E order k = 0
      · have hk : k ∈ order ++ q :: qs := (inv.zero_iff k hkV).1 hold
        rcases List.mem_append.1 hk with hk | hk
        · exact List.mem_append.2 (Or.inl (List.mem_append.2 (Or.inl (by simp [hk]))))
        · rcases List.mem_cons.1 hk with rfl | hk
          · exact List.mem_append.2 (Or.inl (List.mem_append.2 (Or.inr (by simp))))
          · exact List.mem_append.2 (Or.inr (List.mem_append.2 (Or.inl hk)))
      · have hcnt : ns.count k = remaining E order k := by
          have := hcount k
          omega
        have hkns : k ∈ ns := by
          rw [← List.count_pos_iff]
          omega
        have : k ∈ newly := (hmemnew k).2 ⟨hkns, by omega, by
          rw [inv.deg_get k, if_pos hkV, hcnt]⟩
        exact List.mem_append.2 (Or.inr (List.mem_append.2 (Or.inr this)))
    · intro hk
      rcases List.mem_append.1 hk with hk | hk
      · rcases List.mem_append.1 hk with hk | hk
        · have h0 : remaining E order k = 0 :=
            (inv.zero_iff k hkV).2 (by simp [hk])
          omega
        · simp only [List.mem_singleton] at hk
          subst hk
          omega
      · rcases List.mem_append.1 hk with hk | hk
        · have h0 : remaining E order k = 0 :=
            (inv.zero_iff k hkV).2 (by simp [hk])
          omega
        · rcases (hmemnew k).1 hk with ⟨_, _, hk3⟩
          rw [inv.deg_get k, if_pos hkV] at hk3
          have : (remaining E order k : Int) = (ns.count k : Int) := by
            injection hk3
          omega
  · intro e he htask
    rcases List.mem_append.1 htask with ht | ht
    · have hidx : (order ++ [q]).indexOf e.task_id = order.indexOf e.task_id :=
        List.indexOf_append_of_mem ht
      rw [hidx, List.take_append_of_le_length
        (le_of_lt (List.indexOf_lt_length.2 ht))]
      exact inv.sorted e he ht
    · simp only [List.mem_singleton] at ht
      have hidx : (order ++ [q]).indexOf e.task_id = order.length := by
        rw [ht, List.indexOf_append_of_not_mem hqord]
        simp
      rw [hidx, List.take_left]
      have h := (remaining_eq_zero_iff E order q).1 hrem_q
      exact h e he ht

theorem nodup_subset_length (l V : List TaskId) (hnd : l.Nodup)
    (hsub : ∀ x ∈ l, x ∈ V) : l.length ≤ V.length := by
  have h1 : l.length = l.toFinset.card := (List.toFinset_card_of_nodup hnd).symm
  have h2 : l.toFinset ⊆ V.toFinset := by
    intro x hx
    rw [List.mem_toFinset] at hx ⊢
    exact hsub x hx
  have h3 := Finset.card_le_card h2
  have h4 := List.toFinset_card_le V
  omega

theorem kahnLoop_inv (V : List TaskId) (E : List Dep)
    (adj : List (TaskId × List TaskId))
    (hE : ∀ e ∈ E, e.task_id ∈ V ∧ e.depends_on_task_id ∈ V)
    (hadj : ∀ k, jsGet adj k = if k ∈ V then some (dependentsOf E k) else none) :
    ∀ (fuel : Nat) (deg : List (TaskId × Int)) (queue order : List TaskId),
      KahnInv V E deg queue order → V.length - order.length ≤ fuel →
      ∃ degf, KahnInv V E degf [] (kahnLoop adj fuel deg queue order) := by
  intro fuel
  induction fuel with
  | zero =>
    intro deg queue order inv hfuel
    cases queue with
    | nil => exact ⟨deg, by simpa [kahnLoop] using inv⟩
    | cons q qs =>
      exfalso
      have hlen := nodup_subset_length (order ++ q :: qs) V inv.nodup inv.subV
      simp only [List.length_append, List.length_cons] at hlen
      omega
  | succ fuel ih =>
    intro deg queue order inv hfuel
    cases queue with
    | nil => exact ⟨deg, by simpa [kahnLoop] using inv⟩
    | cons q qs =>
      have hstep := kahnInv_step V E adj hE hadj deg qs order q inv
      have hlen := nodup_subset_length (order ++ q :: qs) V inv.nodup inv.subV
      simp only [List.length_append, List.length_cons] at hlen
      have hres : kahnLoop adj (fuel + 1) deg (q :: qs) order =
          kahnLoop adj fuel (kahnStep (deg, qs) ((jsGet adj q).getD [])).1
            (kahnStep (deg, qs) ((jsGet adj q).getD [])).2 (order ++ [q]) := by
        simp [kahnLoop]
      rw [hres]
      exact ih _ _ _ hstep (by simp only [List.length_append, List.length_cons]; omega)

/-- The assembled facts about the shared Kahn loop run from its initial
state: the emitted order is duplicate-free, contains only nodes of `V`,
places every emitted dependent strictly after all of its prerequisites, and
on acyclic rows contains every node of `V`. -/
theorem kahn_main (V : List TaskId) (E : List Dep)
    (adj : List (TaskId × List TaskId)) (deg0 : List (TaskId × Int))
    (queue0 : List TaskId) (hV : V.Nodup)
    (hE : ∀ e ∈ E, e.task_id ∈ V ∧ e.depends_on_task_id ∈ V)
    (hadj : ∀ k, jsGet adj k = if k ∈ V then some (dependentsOf E k) else none)
    (hdeg0 : ∀ k, jsGet deg0 k = if k ∈ V then some ((degreeOf E k : Int)) else none)
    (hqueue0 : queue0 = V.filter (fun t => decide (degreeOf E t = 0)))
    (fuel : Nat) (hfuel : V.length ≤ fuel) :
    (kahnLoop adj fuel deg0 queue0 []).Nodup ∧
      (∀ k ∈ kahnLoop adj fuel deg0 queue0 [], k ∈ V) ∧
      (∀ e ∈ E, e.task_id ∈ kahnLoop adj fuel deg0 queue0 [] →
        e.depends_on_task_id ∈
          (kahnLoop adj fuel deg0 queue0 []).take
            ((kahnLoop adj fuel deg0 queue0 []).indexOf e.task_id)) ∧
      (¬ HasCycle E → ∀ k ∈ V, k ∈ kahnLoop adj fuel deg0 queue0 []) := by
  have inv0 : KahnInv V E deg0 queue0 [] := by
    constructor
    · intro k
      rw [hdeg0 k]
      by_cases hk : k ∈ V <;> simp [hk, remaining_nil]
    · simp only [List.nil_append, hqueue0]
      exact hV.filter _
    · intro k hk
      simp only [List.nil_append, hqueue0] at hk
      exact List.mem_of_mem_filter hk
    · intro k hkV
      simp only [List.nil_append, hqueue0, remaining_nil, List.mem_filter]
      constructor
      · intro h0
        exact ⟨hkV, by simp [h0]⟩
      · intro h
        simpa using h.2
    · intro e _ ht
      simp at ht
  rcases kahnLoop_inv V E adj hE hadj fuel deg0 queue0 [] inv0 (by simpa using hfuel)
    with ⟨degf, invf⟩
  have hnd : (kahnLoop adj fuel deg0 queue0 []).Nodup := by
    have h := invf.nodup
    simpa using h
  have hsub : ∀ k ∈ kahnLoop adj fuel deg0 queue0 [], k ∈ V := by
    intro k hk
    exact invf.subV k (by simpa using hk)
  refine ⟨hnd, hsub, invf.sorted, ?_⟩
  intro hacyc k hkV
  by_contra hkord
  set ord := kahnLoop adj fuel deg0 queue0 [] with hord
  have hR : ∀ x ∈ V.filter (fun t => decide (t ∉ ord)),
      ∃ y ∈ V.filter (fun t => decide (t ∉ ord)), stepRel E y x := by
    intro x hx
    rcases List.mem_filter.1 hx with ⟨hxV, hxord⟩
    simp only [decide_eq_true_eq] at hxord
    have hrem : remaining E ord x ≠ 0 := by
      intro h0
      exact hxord (by simpa using (invf.zero_iff x hxV).1 h0)
    have hex : ∃ e ∈ E, e.task_id = x ∧ e.depends_on_task_id ∉ ord := by
      by_contra hno
      push_neg at hno
      exact hrem ((remaining_eq_zero_iff E ord x).2
        (fun e he hte => by
          by_contra hnd2
          exact hnd2 (hno e he hte)))
    rcases hex with ⟨e, he, hte, hde⟩
    refine ⟨e.depends_on_task_id, ?_, ⟨e, he, rfl, hte⟩⟩
    rw [List.mem_filter]
    exact ⟨(hE e he).2, by simpa using hde⟩
  have hne : V.filter (fun t => decide (t ∉ ord)) ≠ [] := by
    intro hnil
    have : k ∈ V.filter (fun t => decide (t ∉ ord)) := by
      rw [List.mem_filter]
      exact ⟨hkV, by simpa using hkord⟩
    rw [hnil] at this
    cases this
  rcases exists_cycle_of_pred (stepRel E) _ hne hR with ⟨v, l, hc⟩
  exact absurd ⟨v, l, hc⟩ hacyc

/-- Derived facts about the Kahn loop result: on acyclic rows the order has
exactly one entry per node and every prerequisite index precedes its
dependent index; on cyclic rows the order never reaches the node count. -/
theorem kahn_order_props (V : List TaskId) (E : List Dep)
    (adj : List (TaskId × List TaskId)) (deg0 : List (TaskId × Int))
    (queue0 : List TaskId) (hV : V.Nodup)
    (hE : ∀ e ∈ E, e.task_id ∈ V ∧ e.depends_on_task_id ∈ V)
    (hadj : ∀ k, jsGet adj k = if k ∈ V then some (dependentsOf E k) else none)
    (hdeg0 : ∀ k, jsGet deg0 k = if k ∈ V then some ((degreeOf E k : Int)) else none)
    (hqueue0 : queue0 = V.filter (fun t => decide (degreeOf E t = 0)))
    (fuel : Nat) (hfuel : V.length ≤ fuel) :
    (¬ HasCycle E →
      (kahnLoop adj fuel deg0 queue0 []).length = V.length ∧
      (∀ k, k ∈ kahnLoop adj fuel deg0 queue0 [] ↔ k ∈ V) ∧
      (∀ e ∈ E, (kahnLoop adj fuel deg0 queue0 []).indexOf e.depends_on_task_id <
        (kahnLoop adj fuel deg0 queue0 []).indexOf e.task_id)) ∧
    (HasCycle E → (kahnLoop adj fuel deg0 queue0 []).length ≠ V.length) := by
  rcases kahn_main V E adj deg0 queue0 hV hE hadj hdeg0 hqueue0 fuel hfuel with
    ⟨hnd, hsub, hsorted, hcomp⟩
  set ord := kahnLoop adj fuel deg0 queue0 [] with hord
  constructor
  · intro hacyc
    have hmem : ∀ k, k ∈ ord ↔ k ∈ V :=
      fun k => ⟨fun h => hsub k h, fun h => hcomp hacyc k h⟩
    refine ⟨?_, hmem, ?_⟩
    · have h1 := nodup_subset_length ord V hnd hsub
      have h2 := nodup_subset_length V ord hV (fun x hx => (hmem x).2 hx)
      omega
    · intro e he
      have htask : e.task_id ∈ ord := (hmem e.task_id).2 (hE e he).1
      have h := hsorted e he htask
      exact indexOf_lt_of_mem_take ord e.depends_on_task_id _ h
  · intro hcyc hlen
    have hall : ∀ k ∈ V, k ∈ ord := by
      intro k hkV
      by_contra hkord
      have hnd2 : (ord ++ [k]).Nodup := by
        rw [List.nodup_append]
        exact ⟨hnd, List.nodup_singleton k, fun a ha hak => by
          simp only [List.mem_singleton] at hak
          exact hkord (hak ▸ ha)⟩
      have hsub2 : ∀ x ∈ ord ++ [k], x ∈ V := by
        intro x hx
        rcases List.mem_append.1 hx with hx | hx
        · exact hsub x hx
        · simp only [List.mem_singleton] at hx
          exact hx ▸ hkV
      have := nodup_subset_length (ord ++ [k]) V hnd2 hsub2
      simp only [List.length_append, List.length_singleton] at this
      omega
    have hrank : ∀ a b, stepRel E a b → ord.indexOf a < ord.indexOf b := by
      intro a b hab
      rcases hab with ⟨e, he, hdep, htask⟩
      have hb : e.task_id ∈ ord := hall e.task_id (hE e he).1
      have h := hsorted e he hb
      rw [hdep] at h
      rw [← htask]
      exact indexOf_lt_of_mem_take ord a _ (hdep ▸ h)
    exact absurd hcyc (no_cycle_of_rank E (fun t => ord.indexOf t) hrank)

/-- Invariant of analyzeGraph's DFS state: the shared path lists exactly the
gray nodes in visit order without duplicates, consecutive path entries are
adjacency steps, and every recorded cycle is a closed adjacency chain. -/
structure DfsInv (adj : List (TaskId × List TaskId)) (s : DfsState) : Prop where
  path_gray : ∀ x, x ∈ s.currentPath ↔ jsGet s.color x = some Color.gray
  path_nodup : s.currentPath.Nodup
  path_chain : List.Chain' (adjStep adj) s.currentPath
  cycles_ok : ∀ c ∈ s.cycles, ∃ v m, c = v :: m ++ [v] ∧
    List.Chain (adjStep adj) v (m ++ [v])

/-- The slice-and-close cycle construction of all the DFS variants yields a
genuine closed adjacency chain whenever the sliced path is a chain ending in
the node whose neighbor was found in progress. -/
theorem cycle_extract (adj : List (TaskId × List TaskId)) (path : List TaskId)
    (n current : TaskId) (hch : List.Chain' (adjStep adj) path)
    (hmem : n ∈ path) (hlast : path.getLast? = some current)
    (hedge : adjStep adj current n) :
    ∃ v m, path.drop (path.indexOf n) ++ [n] = v :: m ++ [v] ∧
      List.Chain (adjStep adj) v (m ++ [v]) := by
  have hlt : path.indexOf n < path.length := List.indexOf_lt_length.2 hmem
  have hget : path.get ⟨path.indexOf n, hlt⟩ = n :=
    List.indexOf_get (l := path) (a := n) hlt
  have hget2 : path[path.indexOf n] = n := hget
  have hdrop : path.drop (path.indexOf n) =
      n :: path.drop (path.indexOf n + 1) := by
    rw [List.drop_eq_getElem_cons hlt, hget2]
  have hchd : List.Chain' (adjStep adj) (path.drop (path.indexOf n)) := by
    have hsplit : path = path.take (path.indexOf n) ++ path.drop (path.indexOf n) :=
      (List.take_append_drop _ _).symm
    rw [hsplit] at hch
    exact hch.right_of_append
  have hlastd : (path.drop (path.indexOf n)).getLast? = some current := by
    have hne : path.drop (path.indexOf n) ≠ [] := by
      rw [hdrop]; exact List.cons_ne_nil _ _
    have hsplit : path = path.take (path.indexOf n) ++ path.drop (path.indexOf n) :=
      (List.take_append_drop _ _).symm
    rw [hsplit, List.getLast?_append_of_ne_nil _ hne] at hlast
    exact hlast
  have hfull : List.Chain' (adjStep adj) (path.drop (path.indexOf n) ++ [n]) := by
    rw [List.chain'_append]
    refine ⟨hchd, List.chain'_singleton n, ?_⟩
    intro x hx y hy
    rw [hlastd] at hx
    simp only [Option.mem_def, Option.some.injEq] at hx
    simp only [List.head?_cons, Option.mem_def, Option.some.injEq] at hy
    subst hx
    subst hy
    exact hedge
  refine ⟨n, path.drop (path.indexOf n + 1), ?_, ?_⟩
  · simp [hdrop]
  · have h9 : (path.drop (path.indexOf n) ++ [n]) =
        n :: (path.drop (path.indexOf n + 1) ++ [n]) := by
      simp [hdrop]
    rw [h9] at hfull
    exact hfull

theorem dfs5_neighbors_sound (adj : List (TaskId × List TaskId)) (fuel : Nat)
    (hA : ∀ s node, DfsInv adj s → jsGet s.color node = some Color.white →
      (∀ y, s.currentPath.getLast? = some y → adjStep adj y node) →
      DfsInv adj (dfsVisit adj fuel s node) ∧
        (dfsVisit adj fuel s node).currentPath = s.currentPath) :
    ∀ (ns : List TaskId) (s : DfsState) (current : TaskId), DfsInv adj s →
      jsGet s.color current = some Color.gray →
      s.currentPath.getLast? = some current →
      (∀ n ∈ ns, adjStep adj current n) →
      DfsInv adj (dfsNeighbors adj fuel s ns) ∧
        (dfsNeighbors adj fuel s ns).currentPath = s.currentPath := by
  intro ns
  induction ns with
  | nil =>
    intro s current hinv _ _ _
    rw [dfsNeighbors]
    exact ⟨hinv, rfl⟩
  | cons n rest ih =>
    intro s current hinv hgray hlast hns
    by_cases hg : jsGet s.color n = some Color.gray
    · have hstep : dfsNeighbors adj fuel s (n :: rest) =
          dfsNeighbors adj fuel
            { s with cycles :=
                s.cycles ++ [s.currentPath.drop (s.currentPath.indexOf n) ++ [n]] }
            rest := by
        rw [dfsNeighbors]
        simp [hg]
      rw [hstep]
      have hcyc : ∃ v m,
          s.currentPath.drop (s.currentPath.indexOf n) ++ [n] = v :: m ++ [v] ∧
            List.Chain (adjStep adj) v (m ++ [v]) :=
        cycle_extract adj s.currentPath n current hinv.path_chain
          ((hinv.path_gray n).2 hg) hlast (hns n (by simp))
      have hinv2 : DfsInv adj
          { s with cycles :=
              s.cycles ++ [s.currentPath.drop (s.currentPath.indexOf n) ++ [n]] } := by
        constructor
        · exact hinv.path_gray
        · exact hinv.path_nodup
        · exact hinv.path_chain
        · intro c hc
          rcases List.mem_append.1 hc with hc | hc
          · exact hinv.cycles_ok c hc
          · simp only [List.mem_singleton] at hc
            exact hc ▸ hcyc
      exact ih _ current hinv2 hgray hlast (fun m hm => hns m (by simp [hm]))
    · by_cases hw : jsGet s.color n = some Color.white
      · have hstep : dfsNeighbors adj fuel s (n :: rest) =
            dfsNeighbors adj fuel (dfsVisit adj fuel s n) rest := by
          rw [dfsNeighbors]
          simp [hg, hw]
        rw [hstep]
        rcases hA s n hinv hw (fun y hy => by
          rw [hlast] at hy
          injection hy with hy
          exact hy ▸ hns n (by simp)) with ⟨hinv2, hpath2⟩
        have hgray2 : jsGet (dfsVisit adj fuel s n).color current = some Color.gray := by
          have hcur : current ∈ (dfsVisit adj fuel s n).currentPath := by
            rw [hpath2]
            exact List.mem_of_mem_getLast? hlast
          exact (hinv2.path_gray current).1 hcur
        rcases ih _ current hinv2 hgray2 (by rw [hpath2]; exact hlast)
          (fun m hm => hns m (by simp [hm])) with ⟨hi1, hi2⟩
        exact ⟨hi1, by rw [hi2, hpath2]⟩
      · have hstep : dfsNeighbors adj fuel s (n :: rest) =
            dfsNeighbors adj fuel s rest := by
          rw [dfsNeighbors]
          simp [hg, hw]
        rw [hstep]
        exact ih _ current hinv hgray hlast (fun m hm => hns m (by simp [hm]))

theorem dfs5_visit_sound (adj : List (TaskId × List TaskId)) : ∀ fuel : Nat,
    ∀ s node, DfsInv adj s → jsGet s.color node = some Color.white →
      (∀ y, s.currentPath.getLast? = some y → adjStep adj y node) →
      DfsInv adj (dfsVisit adj fuel s node) ∧
        (dfsVisit adj fuel s node).currentPath = s.currentPath := by
  intro fuel
  induction fuel with
  | zero =>
    intro s node hinv _ _
    rw [dfsVisit]
    exact ⟨hinv, rfl⟩
  | succ fuel ih =>
    intro s node hinv hwhite hlink
    have hnotpath : node ∉ s.currentPath := by
      intro hmem
      have := (hinv.path_gray node).1 hmem
      rw [hwhite] at this
      exact Option.noConfusion (this) (fun h => Color.noConfusion h)
    have hinv1 : DfsInv adj
        { color := jsSet s.color node Color.gray, cycles := s.cycles,
          currentPath := s.currentPath ++ [node] } := by
      constructor
      · intro x
        by_cases hx : node = x
        · subst hx
          simp [jsGet_jsSet_self]
        · rw [jsGet_jsSet_ne _ _ hx]
          simp only [List.mem_append, List.mem_singleton]
          constructor
          · rintro (h1 | h1)
            · exact (hinv.path_gray x).1 h1
            · exact absurd h1.symm hx
          · intro h1
            exact Or.inl ((hinv.path_gray x).2 h1)
      · rw [List.nodup_append]
        exact ⟨hinv.path_nodup, List.nodup_singleton node, fun a ha hax => by
          simp only [List.mem_singleton] at hax
          exact hnotpath (hax ▸ ha)⟩
      · rw [List.chain'_append]
        refine ⟨hinv.path_chain, List.chain'_singleton node, ?_⟩
        intro x hx y hy
        simp only [List.head?_cons, Option.mem_def, Option.some.injEq] at hy
        subst hy
        exact hlink x hx
      · exact hinv.cycles_ok
    have hB := dfs5_neighbors_sound adj fuel ih
    rcases hB ((jsGet adj node).getD []) _ node hinv1
      (by simp [jsGet_jsSet_self])
      (by simp [List.getLast?_concat])
      (fun n hn => hn) with ⟨hinv2, hpath2⟩
    rw [dfsVisit]
    dsimp only
    constructor
    · constructor
      · intro x
        by_cases hx : node = x
        · subst hx
          rw [jsGet_jsSet_self]
          simp only [hpath2, List.dropLast_concat]
          constructor
          · intro h
            exact absurd h hnotpath
          · intro h
            exact Option.noConfusion h (fun h2 => Color.noConfusion h2)
        · rw [jsGet_jsSet_ne _ _ hx]
          have h1 := (hinv2.path_gray x)
          rw [hpath2] at h1
          simp only [List.mem_append, List.mem_singleton] at h1
          simp only [hpath2, List.dropLast_concat]
          constructor
          · intro h2
            exact h1.1 (Or.inl h2)
          · intro h2
            rcases h1.2 h2 with h3 | h3
            · exact h3
            · exact absurd h3.symm hx
      · simp only [hpath2, List.dropLast_concat]
        exact hinv.path_nodup
      · simp only [hpath2, List.dropLast_concat]
        exact hinv.path_chain
      · exact hinv2.cycles_ok
    · simp only [hpath2, List.dropLast_concat]

/-- Shape of a well-formed reported cycle: a closed adjacency chain starting
and ending at the detecting node. -/
def CycShape (adj : List (TaskId × List TaskId)) (c : List TaskId) : Prop :=
  ∃ v m, c = v :: m ++ [v] ∧ List.Chain (adjStep adj) v (m ++ [v])

theorem analyzeDfs_inv (tasks : List TaskId) (deps : List Dep) :
    DfsInv (buildAdjacency tasks deps) (analyzeDfs tasks deps) := by
  unfold analyzeDfs
  dsimp only
  set adj := buildAdjacency tasks deps with hadj
  set V := jsUnique tasks with hV
  have hinit : DfsInv adj
      { color := V.foldl (fun m t => jsSet m t Color.white) [],
        cycles := [], currentPath := [] } := by
    constructor
    · intro x
      simp only [List.not_mem_nil, false_iff]
      rw [jsGet_foldl_set_const]
      by_cases hx : x ∈ V <;> simp [hx, jsGet]
    · exact List.nodup_nil
    · exact List.chain'_nil
    · intro c hc
      simp at hc
  have hfold : ∀ (roots : List TaskId) (s : DfsState), DfsInv adj s →
      s.currentPath = [] →
      DfsInv adj (roots.foldl
        (fun s t => if jsGet s.color t = some Color.white then
          dfsVisit adj (V.length + 1) s t else s) s) ∧
      (roots.foldl
        (fun s t => if jsGet s.color t = some Color.white then
          dfsVisit adj (V.length + 1) s t else s) s).currentPath = [] := by
    intro roots
    induction roots with
    | nil => intro s hinv hpath; exact ⟨hinv, hpath⟩
    | cons r roots ih =>
      intro s hinv hpath
      simp only [List.foldl_cons]
      by_cases hw : jsGet s.color r = some Color.white
      · rw [if_pos hw]
        rcases dfs5_visit_sound adj (V.length + 1) s r hinv hw
          (fun y hy => by rw [hpath] at hy; simp at hy) with ⟨hinv2, hpath2⟩
        exact ih _ hinv2 (by rw [hpath2, hpath])
      · rw [if_neg hw]
        exact ih s hinv hpath
  exact (hfold V _ hinit rfl).1

theorem analyzeDfs_cycles_shape (tasks : List TaskId) (deps : List Dep) :
    ∀ c ∈ (analyzeDfs tasks deps).cycles,
      CycShape (buildAdjacency tasks deps) c :=
  (analyzeDfs_inv tasks deps).cycles_ok

theorem dfsSet_sound (adj : List (TaskId × List TaskId)) : ∀ (fuel : Nat)
    (s : SetDfsState) (node : TaskId) (path : List TaskId),
    (∀ c ∈ s.cycles, CycShape adj c) →
    List.Chain' (adjStep adj) (path ++ [node]) →
    ∀ c ∈ (dfsSet adj fuel s node path).cycles, CycShape adj c := by
  intro fuel
  induction fuel with
  | zero =>
    intro s node path hs _
    rw [dfsSet]
    exact hs
  | succ fuel ih =>
    intro s node path hs hchain
    rw [dfsSet]
    dsimp only
    have hfold : ∀ (ns : List TaskId) (st : SetDfsState),
        (∀ n ∈ ns, adjStep adj node n) →
        (∀ c ∈ st.cycles, CycShape adj c) →
        ∀ c ∈ (ns.foldl
          (fun st n =>
            if n ∉ st.visited then dfsSet adj fuel st n (path ++ [node])
            else if n ∈ st.recStack then
              let i := jsIndexOf (path ++ [node]) n
              if i ≠ -1 then
                { st with cycles :=
                    st.cycles ++ [(path ++ [node]).drop i.toNat ++ [n]] }
              else st
            else st) st).cycles, CycShape adj c := by
      intro ns
      induction ns with
      | nil => intro st _ hst; exact hst
      | cons n rest ihn =>
        intro st hns hst
        simp only [List.foldl_cons]
        by_cases hv : n ∉ st.visited
        · rw [if_pos hv]
          refine ihn _ (fun m hm => hns m (by simp [hm])) ?_
          refine ih st n (path ++ [node]) hst ?_
          rw [List.chain'_append]
          refine ⟨hchain, List.chain'_singleton n, ?_⟩
          intro x hx y hy
          rw [List.getLast?_concat] at hx
          simp only [Option.mem_def, Option.some.injEq] at hx
          simp only [List.head?_cons, Option.mem_def, Option.some.injEq] at hy
          subst hx
          subst hy
          exact hns n (by simp)
        · rw [if_neg hv]
          by_cases hr : n ∈ st.recStack
          · rw [if_pos hr]
            by_cases hi : jsIndexOf (path ++ [node]) n ≠ -1
            · dsimp only
              rw [if_pos hi]
              refine ihn _ (fun m hm => hns m (by simp [hm])) ?_
              intro c hc
              rcases List.mem_append.1 hc with hc | hc
              · exact hst c hc
              · simp only [List.mem_singleton] at hc
                subst hc
                have hmem : n ∈ path ++ [node] := by
                  by_contra hno
                  exact hi (by simp [jsIndexOf, hno])
                have htoNat : (jsIndexOf (path ++ [node]) n).toNat =
                    (path ++ [node]).indexOf n := by
                  simp [jsIndexOf, hmem]
                rw [htoNat]
                exact cycle_extract adj (path ++ [node]) n node hchain hmem
                  (by rw [List.getLast?_concat]) (hns n (by simp))
            · dsimp only
              rw [if_neg hi]
              exact ihn _ (fun m hm => hns m (by simp [hm])) hst
          · rw [if_neg hr]
            exact ihn _ (fun m hm => hns m (by simp [hm])) hst
    exact hfold _ _ (fun n hn => hn) hs

theorem dfsSet_roots_sound (adj : List (TaskId × List TaskId)) (fuel : Nat) :
    ∀ (roots : List TaskId) (s0 : SetDfsState),
    (∀ c ∈ s0.cycles, CycShape adj c) →
    ∀ c ∈ (roots.foldl
        (fun s t => if t ∉ s.visited then dfsSet adj fuel s t [] else s) s0).cycles,
      CycShape adj c := by
  intro roots
  induction roots with
  | nil => intro s0 h; exact h
  | cons r roots ih =>
    intro s0 h
    simp only [List.foldl_cons]
    by_cases hv : r ∉ s0.visited
    · rw [if_pos hv]
      exact ih _ (dfsSet_sound adj fuel s0 r [] h (by simp))
    · rw [if_neg hv]
      exact ih _ h

theorem analyzeGraph_cycles_eq (tasks : List TaskId) (deps : List Dep) :
    (analyzeGraph tasks deps).cycles = (analyzeDfs tasks deps).cycles := by
  unfold analyzeGraph
  dsimp only
  by_cases h : (analyzeDfs tasks deps).cycles.length > 0 <;> simp [h]

theorem gg_cycles_shape (taskIds : List TaskId) (deps : List Dep) :
    ∀ c ∈ (ggAnalyzeGraph taskIds deps).cycles,
      CycShape ((ggBuild taskIds deps).1) c := by
  have hcyc : ∀ c ∈ ((jsKeys (ggBuild taskIds deps).1).foldl
      (fun s t => if t ∉ s.visited then
        dfsSet (ggBuild taskIds deps).1
          (dfsFuel (jsKeys (ggBuild taskIds deps).1) (ggBuild taskIds deps).1) s t []
        else s)
      { visited := [], recStack := [], cycles := [] }).cycles,
      CycShape ((ggBuild taskIds deps).1) c :=
    dfsSet_roots_sound _ _ _ _ (by intro c hc; simp at hc)
  intro c hc
  apply hcyc
  unfold ggAnalyzeGraph at hc
  dsimp only at hc
  by_cases h : ((jsKeys (ggBuild taskIds deps).1).foldl
      (fun s t => if t ∉ s.visited then
        dfsSet (ggBuild taskIds deps).1
          (dfsFuel (jsKeys (ggBuild taskIds deps).1) (ggBuild taskIds deps).1) s t []
        else s)
      { visited := [], recStack := [], cycles := [] }).cycles.length > 0
  · rw [if_pos h] at hc
    exact hc
  · rw [if_neg h] at hc
    exact hc

/-- C4.  Every cycle reported by analyzeGraph's DFS and by getGraphDetails'
DFS is a nonempty sequence whose first element equals its last: the suffix
of the DFS path from the in-progress neighbor, closed by appending that
neighbor (proved via the stronger fact that each reported cycle is a closed
adjacency chain). -/
theorem reported_cycles_closed :
    (∀ (tasks : List TaskId) (deps : List Dep),
      ∀ c ∈ (analyzeGraph tasks deps).cycles, c ≠ [] ∧ c.head? = c.getLast?) ∧
    (∀ (taskIds : List TaskId) (deps : List Dep),
      ∀ c ∈ (ggAnalyzeGraph taskIds deps).cycles, c ≠ [] ∧ c.head? = c.getLast?) := by
  have hshape : ∀ (adj : List (TaskId × List TaskId)) (c : List TaskId),
      CycShape adj c → c ≠ [] ∧ c.head? = c.getLast? := by
    rintro adj c ⟨v, m, rfl, _⟩
    refine ⟨by simp, ?_⟩
    have h1 : (v :: m ++ [v] : List TaskId) = (v :: m) ++ [v] := by simp
    rw [h1, List.getLast?_concat]
    simp
  constructor
  · intro tasks deps c hc
    rw [analyzeGraph_cycles_eq] at hc
    exact hshape _ c (analyzeDfs_cycles_shape tasks deps c hc)
  · intro taskIds deps c hc
    exact hshape _ c (gg_cycles_shape taskIds deps c hc)

theorem adjStep_buildAdjacency (tasks : List TaskId) (E : List Dep)
    (hval : ∀ e ∈ E, e.depends_on_task_id ∈ tasks) (a b : TaskId)
    (h : adjStep (buildAdjacency tasks E) a b) : stepRel E a b := by
  unfold adjStep at h
  rw [buildAdjacency_get tasks E hval] at h
  by_cases ha : a ∈ tasks
  · rw [if_pos ha] at h
    simp only [Option.getD_some] at h
    unfold dependentsOf edgeTargets at h
    rcases List.mem_map.1 h with ⟨e, he, rfl⟩
    have hf := List.mem_filter.1 he
    refine ⟨e, hf.1, ?_, rfl⟩
    simpa using hf.2
  · rw [if_neg ha] at h
    simp at h

theorem analyzeDfs_no_cycles (tasks : List TaskId) (E : List Dep)
    (hval : ∀ e ∈ E, e.depends_on_task_id ∈ tasks)
    (hacyc : ¬ HasCycle E) : (analyzeDfs tasks E).cycles = [] := by
  cases hc : (analyzeDfs tasks E).cycles with
  | nil => rfl
  | cons c cs =>
    exfalso
    have hshape := analyzeDfs_cycles_shape tasks E c (by rw [hc]; simp)
    rcases hshape with ⟨v, m, _, hchain⟩
    exact hacyc ⟨v, m, hchain.imp (fun a b hab =>
      adjStep_buildAdjacency tasks E hval a b hab)⟩

theorem degFold_keys (key : Dep → TaskId) (E : List Dep) (m0 : List (TaskId × Int))
    (hval : ∀ e ∈ E, key e ∈ jsKeys m0) :
    jsKeys (E.foldl (fun m d => jsSet m (key d) ((jsGet m (key d)).getD 0 + 1)) m0) =
      jsKeys m0 := by
  induction E generalizing m0 with
  | nil => rfl
  | cons e E ih =>
    simp only [List.foldl_cons]
    have hk : jsKeys (jsSet m0 (key e) ((jsGet m0 (key e)).getD 0 + 1)) = jsKeys m0 :=
      jsKeys_jsSet_mem _ _ _ (hval e (by simp))
    rw [ih _ (fun e' he' => by rw [hk]; exact hval e' (by simp [he'])), hk]

theorem alist_eq_map {α : Type} (m : List (TaskId × α)) (d : α)
    (hnd : (jsKeys m).Nodup) :
    m = (jsKeys m).map (fun k => (k, (jsGet m k).getD d)) := by
  induction m with
  | nil => rfl
  | cons p m ih =>
    simp only [jsKeys, List.map_cons] at hnd ⊢
    rcases List.nodup_cons.1 hnd with ⟨hp, hnd2⟩
    have hhead : jsGet (p :: m) p.1 = some p.2 := by
      simp [jsGet]
    rw [hhead]
    simp only [Option.getD_some]
    have htail : (List.map (fun p => p.1) m).map
        (fun k => (k, (jsGet (p :: m) k).getD d)) =
        (List.map (fun p => p.1) m).map (fun k => (k, (jsGet m k).getD d)) := by
      apply List.map_congr_left
      intro k hk
      have hne : ¬ p.1 = k := fun he => hp (he ▸ hk)
      simp [jsGet, hne]
    rw [htail]
    have ih2 := ih hnd2
    simp only [jsKeys] at ih2
    rw [← ih2]

theorem inDegreeFrom_entries (ids : List TaskId) (E : List Dep) (hnd : ids.Nodup)
    (hval : ∀ e ∈ E, e.task_id ∈ ids) :
    inDegreeFrom ids E = ids.map (fun t => (t, (degreeOf E t : Int))) := by
  have hkeys : jsKeys (inDegreeFrom ids E) = ids := by
    unfold inDegreeFrom
    dsimp only
    rw [degFold_keys (fun d => d.task_id) E _
      (fun e he => by
        rw [jsKeys_init_eq_jsUnique, mem_jsUnique]
        exact hval e he)]
    rw [jsKeys_init_eq_jsUnique]
    exact jsUnique_eq_self ids hnd
  have h1 := alist_eq_map (inDegreeFrom ids E) (0 : Int) (by rw [hkeys]; exact hnd)
  rw [hkeys] at h1
  rw [h1]
  apply List.map_congr_left
  intro t ht
  rw [inDegreeFrom_get ids E hval t, if_pos ht]
  rfl

theorem foldl_zero_collect (m : List (TaskId × Int)) :
    m.foldl (fun q p => if p.2 = 0 then q ++ [p.1] else q) [] =
      (m.filter (fun p => decide (p.2 = 0))).map (fun p => p.1) := by
  suffices h : ∀ acc, m.foldl (fun q p => if p.2 = 0 then q ++ [p.1] else q) acc =
      acc ++ (m.filter (fun p => decide (p.2 = 0))).map (fun p => p.1) by
    simpa using h []
  induction m with
  | nil => intro acc; simp
  | cons p m ih =>
    intro acc
    simp only [List.foldl_cons, List.filter_cons]
    by_cases hp : p.2 = 0
    · rw [if_pos hp, decide_eq_true hp]
      simp only [if_true, List.map_cons]
      rw [ih]
      simp
    · rw [if_neg hp, decide_eq_false hp]
      simp only [Bool.false_eq_true, if_false]
      exact ih acc

theorem queueUpdate_eq (ids : List TaskId) (E : List Dep) (hnd : ids.Nodup)
    (hval : ∀ e ∈ E, e.task_id ∈ ids) :
    (inDegreeFrom ids E).foldl (fun q p => if p.2 = 0 then q ++ [p.1] else q) [] =
      ids.filter (fun t => decide (degreeOf E t = 0)) := by
  rw [foldl_zero_collect, inDegreeFrom_entries ids E hnd hval, List.filter_map,
    List.map_map]
  have h1 : ∀ t, ((fun p : TaskId × Int => decide (p.2 = 0)) ∘
      (fun t => (t, (degreeOf E t : Int)))) t = decide (degreeOf E t = 0) := by
    intro t
    simp only [Function.comp_apply]
    rw [decide_eq_decide]
    exact Int.natCast_eq_zero
  rw [List.filter_congr (fun t _ => h1 t)]
  have h2 : ((fun p : TaskId × Int => p.1) ∘ (fun t => (t, (degreeOf E t : Int)))) =
      fun t => t := rfl
  rw [h2]
  simp

theorem inDegreeInit_eq (tasks : List TaskId) (E : List Dep) :
    inDegreeInit tasks E = inDegreeFrom (jsUnique tasks) E := rfl

theorem analyzeGraph_topo_props (ts : List TaskId) (E : List Dep) (hnd : ts.Nodup)
    (hval : ∀ e ∈ E, e.task_id ∈ ts ∧ e.depends_on_task_id ∈ ts)
    (hacyc : ¬ HasCycle E) :
    ∃ ord, (analyzeGraph ts E).topological_order = some ord ∧
      ord.length = ts.length ∧ ord.Nodup ∧ (∀ k, k ∈ ord ↔ k ∈ ts) ∧
      (∀ e ∈ E, ord.indexOf e.depends_on_task_id < ord.indexOf e.task_id) ∧
      (∀ e ∈ E, e.task_id ∈ ord →
        e.depends_on_task_id ∈ ord.take (ord.indexOf e.task_id)) := by
  have hju : jsUnique ts = ts := jsUnique_eq_self ts hnd
  have hcyc0 : (analyzeDfs ts E).cycles = [] :=
    analyzeDfs_no_cycles ts E (fun e he => (hval e he).2) hacyc
  have hcond : ¬ ((analyzeDfs ts E).cycles.length > 0) := by
    rw [hcyc0]
    simp
  have hadj : ∀ k, jsGet (buildAdjacency ts E) k =
      if k ∈ ts then some (dependentsOf E k) else none :=
    buildAdjacency_get ts E (fun e he => (hval e he).2)
  have hdegeq : inDegreeInit ts E = inDegreeFrom ts E := by
    rw [inDegreeInit_eq, hju]
  have hdeg0 : ∀ k, jsGet (inDegreeInit ts E) k =
      if k ∈ ts then some ((degreeOf E k : Int)) else none := by
    rw [hdegeq]
    exact inDegreeFrom_get ts E (fun e he => (hval e he).1)
  have hqueue : (jsUnique ts).filter
      (fun t => jsGet (inDegreeInit ts E) t = some 0) =
      ts.filter (fun t => decide (degreeOf E t = 0)) := by
    rw [hju]
    apply List.filter_congr
    intro t ht
    rw [decide_eq_decide]
    rw [hdeg0 t, if_pos ht]
    rw [Option.some_inj]
    exact Int.natCast_eq_zero
  have hmain := kahn_main ts E (buildAdjacency ts E) (inDegreeInit ts E)
    (ts.filter (fun t => decide (degreeOf E t = 0))) hnd hval hadj hdeg0 rfl
    ((jsUnique ts).length + 1) (by rw [hju]; omega)
  have hprops := kahn_order_props ts E (buildAdjacency ts E) (inDegreeInit ts E)
    (ts.filter (fun t => decide (degreeOf E t = 0))) hnd hval hadj hdeg0 rfl
    ((jsUnique ts).length + 1) (by rw [hju]; omega)
  rcases hmain with ⟨hm1, _, _, _⟩
  rcases hprops.1 hacyc with ⟨hlen, hmem, hidx⟩
  refine ⟨kahnLoop (buildAdjacency ts E) ((jsUnique ts).length + 1)
    (inDegreeInit ts E) (ts.filter (fun t => decide (degreeOf E t = 0))) [], ?_, ?_, ?_, ?_, ?_, ?_⟩
  · unfold analyzeGraph
    dsimp only
    rw [if_neg hcond, hqueue]
  · exact hlen
  · exact hm1
  · exact hmem
  · exact hidx
  · intro e he hte
    rcases kahn_main ts E (buildAdjacency ts E) (inDegreeInit ts E)
      (ts.filter (fun t => decide (degreeOf E t = 0))) hnd hval hadj hdeg0 rfl
      ((jsUnique ts).length + 1) (by rw [hju]; omega) with ⟨_, _, hsorted, _⟩
    exact hsorted e he hte

theorem topologicalSortUpdate_props (ids : List TaskId) (E : List Dep)
    (hnd : ids.Nodup)
    (hval : ∀ e ∈ E, e.task_id ∈ ids ∧ e.depends_on_task_id ∈ ids) :
    (¬ HasCycle E → ∃ ord, topologicalSortUpdate ids E = some ord ∧
      ord.length = ids.length ∧
      (∀ e ∈ E, ord.indexOf e.depends_on_task_id < ord.indexOf e.task_id)) ∧
    (HasCycle E → topologicalSortUpdate ids E = none) := by
  have hadj : ∀ k, jsGet (buildAdjacency ids E) k =
      if k ∈ ids then some (dependentsOf E k) else none :=
    buildAdjacency_get ids E (fun e he => (hval e he).2)
  have hdeg0 : ∀ k, jsGet (inDegreeFrom ids E) k =
      if k ∈ ids then some ((degreeOf E k : Int)) else none :=
    inDegreeFrom_get ids E (fun e he => (hval e he).1)
  have hqueue := queueUpdate_eq ids E hnd (fun e he => (hval e he).1)
  have hprops := kahn_order_props ids E (buildAdjacency ids E) (inDegreeFrom ids E)
    (ids.filter (fun t => decide (degreeOf E t = 0))) hnd hval hadj hdeg0 rfl
    (ids.length + E.length + 1) (by omega)
  constructor
  · intro hacyc
    rcases hprops.1 hacyc with ⟨hlen, hmem, hidx⟩
    refine ⟨kahnLoop (buildAdjacency ids E) (ids.length + E.length + 1)
      (inDegreeFrom ids E) (ids.filter (fun t => decide (degreeOf E t = 0))) [],
      ?_, hlen, hidx⟩
    unfold topologicalSortUpdate
    dsimp only
    rw [hqueue, if_pos hlen]
  · intro hcyc
    have hne := hprops.2 hcyc
    unfold topologicalSortUpdate
    dsimp only
    rw [hqueue, if_neg hne]

theorem ggBuild_eq (ts : List TaskId) (E : List Dep)
    (hval : ∀ e ∈ E, e.task_id ∈ ts ∧ e.depends_on_task_id ∈ ts) :
    ggBuild ts E = (buildAdjacency ts E, inDegreeFrom ts E) := by
  unfold ggBuild buildAdjacency inDegreeFrom
  dsimp only
  generalize hadj : ts.foldl (fun m t => jsSet m t ([] : List TaskId)) [] = adj0
  generalize hdeg : ts.foldl (fun m t => jsSet m t (0 : Int)) [] = deg0
  have hka : jsKeys adj0 = jsUnique ts := by
    rw [← hadj]; exact jsKeys_init_eq_jsUnique _ _
  have hkd : jsKeys deg0 = jsUnique ts := by
    rw [← hdeg]; exact jsKeys_init_eq_jsUnique _ _
  clear hadj hdeg
  induction E generalizing adj0 deg0 with
  | nil => simp
  | cons d E ih =>
    have hd := hval d (by simp)
    have hguard : d.depends_on_task_id ∈ jsKeys adj0 ∧ d.task_id ∈ jsKeys deg0 := by
      rw [hka, hkd, mem_jsUnique, mem_jsUnique]
      exact ⟨hd.2, hd.1⟩
    simp only [List.foldl_cons, if_pos hguard]
    exact ih (fun e he => hval e (by simp [he])) _ _
      (by rw [jsKeys_jsSet_mem _ _ _ hguard.1]; exact hka)
      (by rw [jsKeys_jsSet_mem _ _ _ hguard.2]; exact hkd)

theorem ggSeeds_fst (deg : List (TaskId × Int)) :
    (deg.foldl (fun (acc : List TaskId × List (TaskId × Nat)) p =>
      if p.2 = 0 then (acc.1 ++ [p.1], jsSet acc.2 p.1 0) else acc) ([], [])).1 =
      (deg.filter (fun p => decide (p.2 = 0))).map (fun p => p.1) := by
  suffices h : ∀ (acc : List TaskId × List (TaskId × Nat)),
      (deg.foldl (fun acc p =>
        if p.2 = 0 then (acc.1 ++ [p.1], jsSet acc.2 p.1 0) else acc) acc).1 =
      acc.1 ++ (deg.filter (fun p => decide (p.2 = 0))).map (fun p => p.1) by
    simpa using h ([], [])
  induction deg with
  | nil => intro acc; simp
  | cons p m ih =>
    intro acc
    simp only [List.foldl_cons, List.filter_cons]
    by_cases hp : p.2 = 0
    · rw [if_pos hp, decide_eq_true hp]
      simp only [if_true, List.map_cons]
      rw [ih]
      simp
    · rw [if_neg hp, decide_eq_false hp]
      simp only [Bool.false_eq_true, if_false]
      exact ih acc

theorem ggLoop_fst (adj : List (TaskId × List TaskId)) :
    ∀ (fuel : Nat) (deg : List (TaskId × Int)) (levels : List (TaskId × Nat))
      (queue order : List TaskId),
    (ggLoop adj fuel deg levels queue order).1 = kahnLoop adj fuel deg queue order := by
  have hfold : ∀ (current : TaskId) (ns : List TaskId) (dg : List (TaskId × Int))
      (L : List (TaskId × Nat)) (q : List TaskId),
      ((ns.foldl (fun (acc : (List (TaskId × Int)) × (List (TaskId × Nat)) × List TaskId) neighbor =>
        (jsSet acc.1 neighbor ((jsGet acc.1 neighbor).getD 0 - 1),
         jsSet acc.2.1 neighbor
           (max ((jsGet acc.2.1 neighbor).getD 0) ((jsGet acc.2.1 current).getD 0 + 1)),
         if (jsGet acc.1 neighbor).getD 0 - 1 = 0 then acc.2.2 ++ [neighbor] else acc.2.2))
        (dg, L, q)).1,
       (ns.foldl (fun (acc : (List (TaskId × Int)) × (List (TaskId × Nat)) × List TaskId) neighbor =>
        (jsSet acc.1 neighbor ((jsGet acc.1 neighbor).getD 0 - 1),
         jsSet acc.2.1 neighbor
           (max ((jsGet acc.2.1 neighbor).getD 0) ((jsGet acc.2.1 current).getD 0 + 1)),
         if (jsGet acc.1 neighbor).getD 0 - 1 = 0 then acc.2.2 ++ [neighbor] else acc.2.2))
        (dg, L, q)).2.2) = kahnStep (dg, q) ns := by
    intro current ns
    induction ns with
    | nil => intro dg L q; rfl
    | cons n rest ihn =>
      intro dg L q
      simp only [List.foldl_cons]
      rw [show kahnStep (dg, q) (n :: rest) =
        kahnStep (jsSet dg n ((jsGet dg n).getD 0 - 1),
          if (jsGet dg n).getD 0 - 1 = 0 then q ++ [n] else q) rest from by
          unfold kahnStep
          simp]
      exact ihn _ _ _
  intro fuel
  induction fuel with
  | zero =>
    intro deg levels queue order
    rfl
  | succ fuel ih =>
    intro deg levels queue order
    cases queue with
    | nil => rfl
    | cons current qs =>
      rw [ggLoop, kahnLoop]
      dsimp only
      rw [ih]
      have h := hfold current ((jsGet adj current).getD []) deg levels qs
      have h1 := congrArg Prod.fst h
      have h2 := congrArg Prod.snd h
      dsimp only at h1 h2
      rw [h1, h2]

theorem gg_no_cycles (ts : List TaskId) (E : List Dep)
    (hval : ∀ e ∈ E, e.task_id ∈ ts ∧ e.depends_on_task_id ∈ ts)
    (hacyc : ¬ HasCycle E) :
    ((jsKeys (ggBuild ts E).1).foldl
      (fun s t => if t ∉ s.visited then
        dfsSet (ggBuild ts E).1
          (dfsFuel (jsKeys (ggBuild ts E).1) (ggBuild ts E).1) s t []
        else s)
      { visited := [], recStack := [], cycles := [] }).cycles = [] := by
  cases hc : ((jsKeys (ggBuild ts E).1).foldl
      (fun s t => if t ∉ s.visited then
        dfsSet (ggBuild ts E).1
          (dfsFuel (jsKeys (ggBuild ts E).1) (ggBuild ts E).1) s t []
        else s)
      { visited := [], recStack := [], cycles := [] }).cycles with
  | nil => rfl
  | cons c cs =>
    exfalso
    have hshape := dfsSet_roots_sound ((ggBuild ts E).1)
      (dfsFuel (jsKeys (ggBuild ts E).1) (ggBuild ts E).1)
      (jsKeys (ggBuild ts E).1)
      { visited := [], recStack := [], cycles := [] }
      (by intro c hc2; simp at hc2) c (by rw [hc]; simp)
    rcases hshape with ⟨v, m, _, hchain⟩
    have hb := ggBuild_eq ts E hval
    have hadjeq : (ggBuild ts E).1 = buildAdjacency ts E := by rw [hb]
    rw [hadjeq] at hchain
    exact hacyc ⟨v, m, hchain.imp (fun a b hab =>
      adjStep_buildAdjacency ts E (fun e he => (hval e he).2) a b hab)⟩

theorem gg_topo_props (ts : List TaskId) (E : List Dep) (hnd : ts.Nodup)
    (hval : ∀ e ∈ E, e.task_id ∈ ts ∧ e.depends_on_task_id ∈ ts)
    (hacyc : ¬ HasCycle E) :
    ∃ ord, (ggAnalyzeGraph ts E).topological_order = some ord ∧
      ord.length = ts.length ∧
      (∀ e ∈ E, ord.indexOf e.depends_on_task_id < ord.indexOf e.task_id) := by
  have hb := ggBuild_eq ts E hval
  have hadjeq : (ggBuild ts E).1 = buildAdjacency ts E := by rw [hb]
  have hdegeq : (ggBuild ts E).2 = inDegreeFrom ts E := by rw [hb]
  have hcycles := gg_no_cycles ts E hval hacyc
  have hcond : ¬ (((jsKeys (ggBuild ts E).1).foldl
      (fun s t => if t ∉ s.visited then
        dfsSet (ggBuild ts E).1
          (dfsFuel (jsKeys (ggBuild ts E).1) (ggBuild ts E).1) s t []
        else s)
      { visited := [], recStack := [], cycles := [] }).cycles.length > 0) := by
    rw [hcycles]
    simp
  have hadj : ∀ k, jsGet (buildAdjacency ts E) k =
      if k ∈ ts then some (dependentsOf E k) else none :=
    buildAdjacency_get ts E (fun e he => (hval e he).2)
  have hdeg0 : ∀ k, jsGet (inDegreeFrom ts E) k =
      if k ∈ ts then some ((degreeOf E k : Int)) else none :=
    inDegreeFrom_get ts E (fun e he => (hval e he).1)
  have hseed : ((ggBuild ts E).2.foldl
      (fun (acc : List TaskId × List (TaskId × Nat)) p =>
        if p.2 = 0 then (acc.1 ++ [p.1], jsSet acc.2 p.1 0) else acc) ([], [])).1 =
      ts.filter (fun t => decide (degreeOf E t = 0)) := by
    rw [ggSeeds_fst, hdegeq, ← foldl_zero_collect,
      queueUpdate_eq ts E hnd (fun e he => (hval e he).1)]
  have hprops := kahn_order_props ts E (buildAdjacency ts E) (inDegreeFrom ts E)
    (ts.filter (fun t => decide (degreeOf E t = 0))) hnd hval hadj hdeg0 rfl
    (ts.length + 1) (by omega)
  rcases hprops.1 hacyc with ⟨hlen, _, hidx⟩
  refine ⟨kahnLoop (buildAdjacency ts E) (ts.length + 1) (inDegreeFrom ts E)
    (ts.filter (fun t => decide (degreeOf E t = 0))) [], ?_, hlen, hidx⟩
  unfold ggAnalyzeGraph
  dsimp only
  rw [if_neg hcond]
  dsimp only
  rw [ggLoop_fst, hseed, hadjeq, hdegeq]

theorem allDependenciesOf_task_mem (tasks : List (TaskId × List TaskId)) :
    ∀ d ∈ allDependenciesOf tasks, d.task_id ∈ tasks.map (fun t => t.1) := by
  intro d hd
  unfold allDependenciesOf at hd
  rcases List.mem_flatMap.1 hd with ⟨t, ht, hd2⟩
  rcases List.mem_map.1 hd2 with ⟨x, _, rfl⟩
  exact List.mem_map.2 ⟨t, ht, rfl⟩

theorem adjStep_graphBack (ids : List TaskId) (E : List Dep)
    (hval : ∀ e ∈ E, e.task_id ∈ ids) (a b : TaskId)
    (h : adjStep (E.foldl
      (fun m d => jsSet m d.task_id ((jsGet m d.task_id).getD [] ++ [d.depends_on_task_id]))
      (ids.foldl (fun m t => jsSet m t []) [])) a b) : stepRel E b a := by
  unfold adjStep at h
  rw [buildGraphBack_get ids E hval] at h
  by_cases ha : a ∈ ids
  · rw [if_pos ha] at h
    simp only [Option.getD_some] at h
    unfold prereqsOf edgeTargets at h
    rcases List.mem_map.1 h with ⟨e, he, rfl⟩
    have hf := List.mem_filter.1 he
    refine ⟨e, hf.1, rfl, ?_⟩
    simpa using hf.2
  · rw [if_neg ha] at h
    simp at h

theorem hasCycle_of_detectCyclesUpdate (ids : List TaskId) (E : List Dep)
    (hval : ∀ e ∈ E, e.task_id ∈ ids)
    (hne : detectCyclesUpdate ids E ≠ []) : HasCycle E := by
  unfold detectCyclesUpdate at hne
  dsimp only at hne
  cases hc : (ids.foldl
      (fun s t => if t ∉ s.visited then
        dfsSet (E.foldl
          (fun m d => jsSet m d.task_id ((jsGet m d.task_id).getD [] ++ [d.depends_on_task_id]))
          (ids.foldl (fun m t => jsSet m t []) []))
          (dfsFuel ids (E.foldl
            (fun m d => jsSet m d.task_id ((jsGet m d.task_id).getD [] ++ [d.depends_on_task_id]))
            (ids.foldl (fun m t => jsSet m t []) []))) s t []
        else s)
      { visited := [], recStack := [], cycles := [] }).cycles with
  | nil => exact absurd hc hne
  | cons c cs =>
    have hshape := dfsSet_roots_sound _ _ ids
      { visited := [], recStack := [], cycles := [] }
      (by intro x hx; simp at hx) c (by rw [hc]; simp)
    rcases hshape with ⟨v, m, _, hchain⟩
    rcases hasCycle_flip (fun a b hab => adjStep_graphBack ids E hval a b hab)
      v m hchain with ⟨w, mm, hc2⟩
    exact ⟨w, mm, hc2⟩

/-- C1 (amended).  analyzeGraph satisfies the stated equivalence: the
has-cycles flag is true exactly when the topological order is null and the
level record is empty.  For createGraph and updateGraph only half survives:
a true has-cycles flag forces a null topological order, but both handlers
still compute and return a (generally nonempty) task_levels record on
cyclic input. -/
theorem analysis_presence :
    (∀ (tasks : List TaskId) (deps : List Dep),
      (analyzeGraph tasks deps).has_cycles = true ↔
        ((analyzeGraph tasks deps).topological_order = none ∧
          (analyzeGraph tasks deps).task_levels = [])) ∧
    (∀ (tasks : List (TaskId × List TaskId)) (a : GraphAnalysis),
      createGraphResult tasks = .ok a → a.has_cycles = true →
        a.topological_order = none) ∧
    (∀ (tasks : List (TaskId × List TaskId)) (a : GraphAnalysis),
      (tasks.map (fun t => t.1)).Nodup → updateGraphResult tasks = .ok a →
        a.has_cycles = true → a.topological_order = none) := by
  refine ⟨?_, ?_, ?_⟩
  · intro tasks deps
    unfold analyzeGraph
    dsimp only
    by_cases h : (analyzeDfs tasks deps).cycles.length > 0
    · rw [if_pos h]
      simp
    · rw [if_neg h]
      simp
  · intro tasks a hok hcyc
    unfold createGraphResult at hok
    dsimp only at hok
    by_cases hdup : (tasks.map (fun t => t.1)).length ≠
        (jsUnique (tasks.map (fun t => t.1))).length
    · rw [if_pos hdup] at hok
      exact Except.noConfusion hok
    · rw [if_neg hdup] at hok
      cases hfr : firstUnknownRef tasks (tasks.map (fun t => t.1)) with
      | some d =>
        rw [hfr] at hok
        exact Except.noConfusion hok
      | none =>
        rw [hfr] at hok
        dsimp only at hok
        injection hok with hok
        subst hok
        simp only at hcyc
        unfold calculateTopologicalOrder
        rw [if_pos hcyc]
  · intro tasks a hnd hok hcyc
    unfold updateGraphResult at hok
    dsimp only at hok
    cases hfr : (allDependenciesOf tasks).find?
        (fun d => !((tasks.map (fun t => t.1)).contains d.depends_on_task_id)) with
    | some d =>
      rw [hfr] at hok
      exact Except.noConfusion hok
    | none =>
      rw [hfr] at hok
      injection hok with hok
      subst hok
      simp only [decide_eq_true_eq] at hcyc
      have hcne : detectCyclesUpdate (tasks.map (fun t => t.1))
          (allDependenciesOf tasks) ≠ [] := by
        intro h0
        rw [h0] at hcyc
        simp at hcyc
      have hvalid : ∀ e ∈ allDependenciesOf tasks,
          e.task_id ∈ tasks.map (fun t => t.1) ∧
          e.depends_on_task_id ∈ tasks.map (fun t => t.1) := by
        intro e he
        refine ⟨allDependenciesOf_task_mem tasks e he, ?_⟩
        have h1 := (findUnknownDep_eq_none_iff _ _).1 hfr e he
        exact h1
      have hcycE := hasCycle_of_detectCyclesUpdate _ _
        (fun e he => (hvalid e he).1) hcne
      exact (topologicalSortUpdate_props _ _ hnd hvalid).2 hcycE

theorem analysis_presence_cex :
    ∃ a, createGraphResult [("a", ["a"])] = .ok a ∧
      a.has_cycles = true ∧ a.task_levels ≠ [] :=
  ⟨_, rfl, rfl, by decide⟩

theorem analysis_presence_witness :
    ∃ a, createGraphResult [("a", ["a"])] = .ok a ∧
      a.topological_order = none :=
  ⟨_, rfl, analysis_presence.2.1 [("a", ["a"])] _ rfl rfl⟩

/-- C2.  For every acyclic input (duplicate-free task list with all edge
endpoints declared), both Kahn variants (analyzeGraph of part_005 and the
getGraphDetails engine) return a topological order in which every
prerequisite's index is strictly below its dependent's index. -/
theorem topo_order_respects_deps (ts : List TaskId) (E : List Dep)
    (hnd : ts.Nodup)
    (hval : ∀ e ∈ E, e.task_id ∈ ts ∧ e.depends_on_task_id ∈ ts)
    (hacyc : ¬ HasCycle E) :
    (∃ ord, (analyzeGraph ts E).topological_order = some ord ∧
      ∀ e ∈ E, ord.indexOf e.depends_on_task_id < ord.indexOf e.task_id) ∧
    (∃ ord, (ggAnalyzeGraph ts E).topological_order = some ord ∧
      ∀ e ∈ E, ord.indexOf e.depends_on_task_id < ord.indexOf e.task_id) := by
  constructor
  · rcases analyzeGraph_topo_props ts E hnd hval hacyc with
      ⟨ord, hsome, _, _, _, hidx, _⟩
    exact ⟨ord, hsome, hidx⟩
  · rcases gg_topo_props ts E hnd hval hacyc with ⟨ord, hsome, _, hidx⟩
    exact ⟨ord, hsome, hidx⟩

theorem topo_order_respects_deps_witness :
    (∃ ord, (analyzeGraph ["a", "b"] [⟨"b", "a"⟩]).topological_order = some ord ∧
      ∀ e ∈ ([⟨"b", "a"⟩] : List Dep),
        ord.indexOf e.depends_on_task_id < ord.indexOf e.task_id) ∧
    (∃ ord, (ggAnalyzeGraph ["a", "b"] [⟨"b", "a"⟩]).topological_order = some ord ∧
      ∀ e ∈ ([⟨"b", "a"⟩] : List Dep),
        ord.indexOf e.depends_on_task_id < ord.indexOf e.task_id) :=
  topo_order_respects_deps ["a", "b"] [⟨"b", "a"⟩] (by decide) (by decide)
    (no_cycle_of_rank _ (fun s => (["a", "b"] : List TaskId).indexOf s) (by
      rintro a b ⟨e, he, hdep, htask⟩
      subst hdep
      subst htask
      rcases List.mem_cons.1 he with rfl | he2
      · decide
      · simp at he2))

/-- C5.  For every acyclic input (duplicate-free task list with all edge
endpoints declared), Kahn's algorithm in analyzeGraph (part_005) and
topologicalSort in updateGraph (part_003) both return an order whose length
equals the number of input tasks. -/
theorem topo_order_complete (ts : List TaskId) (E : List Dep)
    (hnd : ts.Nodup)
    (hval : ∀ e ∈ E, e.task_id ∈ ts ∧ e.depends_on_task_id ∈ ts)
    (hacyc : ¬ HasCycle E) :
    (∃ ord, (analyzeGraph ts E).topological_order = some ord ∧
      ord.length = ts.length) ∧
    (∃ ord, topologicalSortUpdate ts E = some ord ∧
      ord.length = ts.length) := by
  constructor
  · rcases analyzeGraph_topo_props ts E hnd hval hacyc with
      ⟨ord, hsome, hlen, _⟩
    exact ⟨ord, hsome, hlen⟩
  · rcases (topologicalSortUpdate_props ts E hnd hval).1 hacyc with
      ⟨ord, hsome, hlen, _⟩
    exact ⟨ord, hsome, hlen⟩

theorem topo_order_complete_witness :
    (∃ ord, (analyzeGraph ["a", "b"] [⟨"a", "b"⟩]).topological_order = some ord ∧
      ord.length = (["a", "b"] : List TaskId).length) ∧
    (∃ ord, topologicalSortUpdate ["a", "b"] [⟨"a", "b"⟩] = some ord ∧
      ord.length = (["a", "b"] : List TaskId).length) :=
  topo_order_complete ["a", "b"] [⟨"a", "b"⟩] (by decide) (by decide)
    (no_cycle_of_rank _ (fun s => (["b", "a"] : List TaskId).indexOf s) (by
      rintro a b ⟨e, he, hdep, htask⟩
      subst hdep
      subst htask
      rcases List.mem_cons.1 he with rfl | he2
      · decide
      · simp at he2))

/-- Maximum of a list of naturals, written as the `reduce(max, 0)` fold the
handlers use. -/
def listMax (l : List Nat) : Nat := l.foldl max 0

theorem foldl_max_init (l : List Nat) (a : Nat) :
    l.foldl max a = max a (listMax l) := by
  induction l generalizing a with
  | nil => simp [listMax]
  | cons x l ih =>
    show List.foldl max (max a x) l = max a (listMax (x :: l))
    rw [ih]
    show max (max a x) (listMax l) = max a (List.foldl max (max 0 x) l)
    rw [ih, Nat.zero_max, Nat.max_assoc]

theorem listMax_cons (x : Nat) (l : List Nat) :
    listMax (x :: l) = max x (listMax l) := by
  show List.foldl max (max 0 x) l = _
  rw [foldl_max_init, Nat.zero_max]

theorem listMax_map_succ (f : TaskId → Nat) (l : List TaskId) (h : l ≠ []) :
    listMax (l.map (fun p => f p + 1)) = 1 + listMax (l.map f) := by
  induction l with
  | nil => exact absurd rfl h
  | cons x l ih =>
    cases l with
    | nil =>
      simp only [List.map_cons, List.map_nil]
      simp [listMax]
      omega
    | cons y t =>
      have hr : listMax (List.map f (x :: y :: t)) =
          max (f x) (listMax (List.map f (y :: t))) := by
        rw [List.map_cons, listMax_cons]
      rw [List.map_cons, listMax_cons, ih (by simp), hr]
      omega

theorem listMax_filter_extend (f : TaskId → Nat) (q : TaskId) (done : List TaskId)
    (hq : q ∉ done) (l : List TaskId) :
    listMax ((l.filter (fun p => decide (p ∈ done ++ [q]))).map f) =
      if q ∈ l then
        max (listMax ((l.filter (fun p => decide (p ∈ done))).map f)) (f q)
      else listMax ((l.filter (fun p => decide (p ∈ done))).map f) := by
  induction l with
  | nil => simp
  | cons x l ih =>
    by_cases hxq : x = q
    · subst hxq
      rw [List.filter_cons_of_pos (by simp), List.filter_cons_of_neg (by simp [hq])]
      rw [List.map_cons, listMax_cons, ih]
      by_cases hql : x ∈ l
      · rw [if_pos hql, if_pos (by simp)]
        omega
      · rw [if_neg hql, if_pos (by simp)]
        omega
    · by_cases hxd : x ∈ done
      · rw [List.filter_cons_of_pos (by simp [hxd]),
          List.filter_cons_of_pos (by simp [hxd])]
        rw [List.map_cons, listMax_cons, List.map_cons, listMax_cons, ih]
        by_cases hql : q ∈ l
        · rw [if_pos hql, if_pos (List.mem_cons_of_mem _ hql)]
          omega
        · have hqxl : q ∉ x :: l := by
            intro hc
            rcases List.mem_cons.1 hc with hc | hc
            · exact hxq hc.symm
            · exact hql hc
          rw [if_neg hql, if_neg hqxl]
      · have hnotin : x ∉ done ++ [q] := by
          intro hc
          rcases List.mem_append.1 hc with hc | hc
          · exact hxd hc
          · exact hxq (by simpa using hc)
        rw [List.filter_cons_of_neg (by simp [hnotin]),
          List.filter_cons_of_neg (by simp [hxd]), ih]
        by_cases hql : q ∈ l
        · rw [if_pos hql, if_pos (List.mem_cons_of_mem _ hql)]
        · have hqxl : q ∉ x :: l := by
            intro hc
            rcases List.mem_cons.1 hc with hc | hc
            · exact hxq hc.symm
            · exact hql hc
          rw [if_neg hql, if_neg hqxl]

theorem mem_dependentsOf_iff (E : List Dep) (a b : TaskId) :
    a ∈ dependentsOf E b ↔ b ∈ prereqsOf E a := by
  unfold dependentsOf prereqsOf edgeTargets
  constructor
  · intro h
    rcases List.mem_map.1 h with ⟨e, he, rfl⟩
    have hf := List.mem_filter.1 he
    refine List.mem_map.2 ⟨e, List.mem_filter.2 ⟨hf.1, by simp⟩, ?_⟩
    simpa using hf.2
  · intro h
    rcases List.mem_map.1 h with ⟨e, he, rfl⟩
    have hf := List.mem_filter.1 he
    refine List.mem_map.2 ⟨e, List.mem_filter.2 ⟨hf.1, by simp⟩, ?_⟩
    simpa using hf.2

theorem prereqsOf_subset (E : List Dep) (ts : List TaskId)
    (hval : ∀ e ∈ E, e.task_id ∈ ts ∧ e.depends_on_task_id ∈ ts) (t : TaskId) :
    ∀ p ∈ prereqsOf E t, p ∈ ts := by
  intro p hp
  rcases List.mem_map.1 hp with ⟨e, he, rfl⟩
  exact (hval e (List.mem_filter.1 he).1).2

theorem dependentsOf_subset (E : List Dep) (ts : List TaskId)
    (hval : ∀ e ∈ E, e.task_id ∈ ts ∧ e.depends_on_task_id ∈ ts) (t : TaskId) :
    ∀ p ∈ dependentsOf E t, p ∈ ts := by
  intro p hp
  rcases List.mem_map.1 hp with ⟨e, he, rfl⟩
  exact (hval e (List.mem_filter.1 he).1).1

theorem prereqsOf_eq_nil_iff (E : List Dep) (t : TaskId) :
    prereqsOf E t = [] ↔ ∀ e ∈ E, ¬ e.task_id = t := by
  unfold prereqsOf edgeTargets
  rw [List.map_eq_nil_iff, List.filter_eq_nil_iff]
  simp

/-- One level push of the propagation loops: every listed dependent is
raised to at least `c + 1`, other keys are untouched. -/
theorem pushFold_get (ns : List TaskId) (c : Nat) (L : List (TaskId × Nat))
    (d : TaskId) :
    jsGet (ns.foldl (fun L2 n => jsSet L2 n (max ((jsGet L2 n).getD 0) (c + 1))) L) d =
      if d ∈ ns then some (max ((jsGet L d).getD 0) (c + 1)) else jsGet L d := by
  induction ns generalizing L with
  | nil => simp
  | cons n ns ih =>
    rw [List.foldl_cons, ih]
    by_cases hdn : d = n
    · subst hdn
      by_cases hdns : d ∈ ns
      · rw [if_pos hdns, if_pos (by simp)]
        rw [jsGet_jsSet_self]
        simp only [Option.getD_some]
        congr 1
        omega
      · rw [if_neg hdns, if_pos (by simp)]
        rw [jsGet_jsSet_self]
    · have hne : n ≠ d := fun h => hdn h.symm
      rw [jsGet_jsSet_ne _ _ hne]
      by_cases hdns : d ∈ ns
      · rw [if_pos hdns, if_pos (List.mem_cons_of_mem _ hdns)]
      · have : d ∉ n :: ns := by
          intro hc
          rcases List.mem_cons.1 hc with hc | hc
          · exact hdn hc
          · exact hdns hc
        rw [if_neg hdns, if_neg this]

/-- Level of `t` accumulated from the already-processed prefix `done`:
maximum over the processed prerequisites of their value plus one. -/
def pval (E : List Dep) (f : TaskId → Nat) (done : List TaskId) (t : TaskId) : Nat :=
  listMax (((prereqsOf E t).filter (fun p => decide (p ∈ done))).map (fun p => f p + 1))

theorem pval_nil (E : List Dep) (f : TaskId → Nat) (t : TaskId) :
    pval E f [] t = 0 := by
  simp [pval, listMax]

theorem pval_extend (E : List Dep) (f : TaskId → Nat) (done : List TaskId)
    (q t : TaskId) (hq : q ∉ done) :
    pval E f (done ++ [q]) t =
      if q ∈ prereqsOf E t then max (pval E f done t) (f q + 1)
      else pval E f done t := by
  unfold pval
  rw [listMax_filter_extend (fun p => f p + 1) q done hq]

theorem pval_full (E : List Dep) (f : TaskId → Nat) (done : List TaskId)
    (t : TaskId) (hsub : ∀ p ∈ prereqsOf E t, p ∈ done) :
    pval E f done t =
      if prereqsOf E t = [] then 0 else 1 + listMax ((prereqsOf E t).map f) := by
  unfold pval
  rw [List.filter_eq_self.mpr (fun p hp => decide_eq_true (hsub p hp))]
  by_cases h : prereqsOf E t = []
  · simp [h, listMax]
  · rw [if_neg h, listMax_map_succ _ _ h]

/-- Pull-based level fold along a list: each node in turn is assigned the
maximum of its prerequisites' stored values plus one (the reference
construction used to exhibit a fixpoint of the level equations). -/
def specLevels (E : List Dep) (order : List TaskId) : List (TaskId × Nat) :=
  order.foldl
    (fun M t =>
      jsSet M t (listMax ((prereqsOf E t).map (fun p => (jsGet M p).getD 0 + 1))))
    []

theorem specLevels_fold_stable (E : List Dep) :
    ∀ (rest : List TaskId) (M : List (TaskId × Nat)) (k : TaskId), k ∉ rest →
      jsGet (rest.foldl
        (fun M t =>
          jsSet M t (listMax ((prereqsOf E t).map (fun p => (jsGet M p).getD 0 + 1))))
        M) k = jsGet M k := by
  intro rest
  induction rest with
  | nil => intro M k _; rfl
  | cons r rest ih =>
    intro M k hk
    rw [List.foldl_cons, ih _ _ (fun hc => hk (List.mem_cons_of_mem _ hc))]
    exact jsGet_jsSet_ne _ _ (fun hc => hk (hc ▸ List.mem_cons_self r rest))

theorem indexOf_append_cons_self (l r : List TaskId) (a : TaskId) (h : a ∉ l) :
    (l ++ a :: r).indexOf a = l.length := by
  induction l with
  | nil => simp [List.indexOf_cons_self]
  | cons x l ih =>
    have hxa : ¬ x = a := fun he => h (by simp [he])
    rw [List.cons_append, List.indexOf_cons_ne _ hxa,
      ih (fun hm => h (List.mem_cons_of_mem _ hm))]
    simp

theorem specLevels_fix (E : List Dep) (order : List TaskId) (hnd : order.Nodup)
    (hsorted : ∀ done q rest, order = done ++ q :: rest →
      ∀ p ∈ prereqsOf E q, p ∈ done) :
    ∀ t ∈ order, jsGet (specLevels E order) t =
      some (listMax ((prereqsOf E t).map
        (fun p => (jsGet (specLevels E order) p).getD 0 + 1))) := by
  intro t ht
  rcases List.append_of_mem ht with ⟨done, rest, rfl⟩
  have hnd2 := List.nodup_append.mp hnd
  have htdone : t ∉ done := fun hc => hnd2.2.2 hc (List.mem_cons_self t rest)
  have htrest : t ∉ rest := by
    have := hnd2.2.1
    rw [List.nodup_cons] at this
    exact this.1
  have hstep : specLevels E (done ++ t :: rest) =
      rest.foldl
        (fun M u =>
          jsSet M u (listMax ((prereqsOf E u).map (fun p => (jsGet M p).getD 0 + 1))))
        (jsSet (done.foldl
          (fun M u =>
            jsSet M u (listMax ((prereqsOf E u).map (fun p => (jsGet M p).getD 0 + 1))))
          []) t
          (listMax ((prereqsOf E t).map (fun p =>
            (jsGet (done.foldl
              (fun M u =>
                jsSet M u (listMax ((prereqsOf E u).map
                  (fun p2 => (jsGet M p2).getD 0 + 1))))
              []) p).getD 0 + 1)))) := by
    unfold specLevels
    rw [List.foldl_append, List.foldl_cons]
  rw [hstep, specLevels_fold_stable E rest _ t htrest, jsGet_jsSet_self]
  congr 1
  congr 1
  apply List.map_congr_left
  intro p hp
  have hpdone : p ∈ done := hsorted done t rest rfl p hp
  have hpt : p ≠ t := fun hc => htdone (hc ▸ hpdone)
  have hprest : p ∉ rest := fun hc => hnd2.2.2 hpdone (List.mem_cons_of_mem _ hc)
  rw [specLevels_fold_stable E rest _ p hprest,
    jsGet_jsSet_ne _ _ (fun hc => hpt hc.symm)]

/-- Acyclic inputs admit a level function satisfying the specified level
equations: `0` for prerequisite-free tasks, otherwise one plus the maximum
over direct prerequisites. -/
theorem exists_level_fixpoint (ts : List TaskId) (E : List Dep) (hnd : ts.Nodup)
    (hval : ∀ e ∈ E, e.task_id ∈ ts ∧ e.depends_on_task_id ∈ ts)
    (hacyc : ¬ HasCycle E) :
    ∃ f : TaskId → Nat, ∀ t ∈ ts,
      f t = if prereqsOf E t = [] then 0
        else 1 + listMax ((prereqsOf E t).map f) := by
  obtain ⟨ord, _, _, hndo, hmem, _, hsorted⟩ :=
    analyzeGraph_topo_props ts E hnd hval hacyc
  have hsorted2 : ∀ done q rest, ord = done ++ q :: rest →
      ∀ p ∈ prereqsOf E q, p ∈ done := by
    intro done q rest heq p hp
    rcases List.mem_map.1 hp with ⟨e, he, rfl⟩
    have hf := List.mem_filter.1 he
    have htid : e.task_id = q := by simpa using hf.2
    have hqord : e.task_id ∈ ord := by
      rw [htid, heq]
      simp
    have htake := hsorted e hf.1 hqord
    have hqdone : q ∉ done := by
      intro hc
      have hnd2 := List.nodup_append.mp (heq ▸ hndo)
      exact hnd2.2.2 hc (List.mem_cons_self q rest)
    rw [heq, htid, indexOf_append_cons_self done rest q hqdone] at htake
    rw [List.take_left] at htake
    exact htake
  refine ⟨fun p => (jsGet (specLevels E ord) p).getD 0, ?_⟩
  intro t ht
  have hfix := specLevels_fix E ord hndo hsorted2 t ((hmem t).2 ht)
  dsimp only
  rw [hfix]
  simp only [Option.getD_some]
  by_cases h : prereqsOf E t = []
  · simp [h, listMax]
  · rw [if_neg h, listMax_map_succ _ _ h]

/-- The specified level equations, read against a level record: every listed
task maps to `0` when it has no prerequisites and otherwise to one plus the
maximum of its direct prerequisites' recorded levels. -/
def LevelSpec (E : List Dep) (ts : List TaskId) (L : List (TaskId × Nat)) : Prop :=
  ∀ t ∈ ts, jsGet L t = some (if prereqsOf E t = [] then 0
    else 1 + listMax ((prereqsOf E t).map (fun p => (jsGet L p).getD 0)))

theorem levelSpec_of_fv (E : List Dep) (ts : List TaskId) (fv : TaskId → Nat)
    (L : List (TaskId × Nat))
    (hval : ∀ e ∈ E, e.task_id ∈ ts ∧ e.depends_on_task_id ∈ ts)
    (hfv : ∀ t ∈ ts, fv t = if prereqsOf E t = [] then 0
      else 1 + listMax ((prereqsOf E t).map fv))
    (hL : ∀ t ∈ ts, jsGet L t = some (fv t)) : LevelSpec E ts L := by
  intro t ht
  rw [hL t ht, hfv t ht]
  congr 1
  by_cases h : prereqsOf E t = []
  · rw [if_pos h, if_pos h]
  · rw [if_neg h, if_neg h]
    congr 1
    congr 1
    apply List.map_congr_left
    intro p hp
    rw [hL p (prereqsOf_subset E ts hval t p hp)]
    rfl

theorem sorted_take_to_prefix (E : List Dep) (ord : List TaskId)
    (hndo : ord.Nodup)
    (hsorted : ∀ e ∈ E, e.task_id ∈ ord →
      e.depends_on_task_id ∈ ord.take (ord.indexOf e.task_id)) :
    ∀ done q rest, ord = done ++ q :: rest → ∀ p ∈ prereqsOf E q, p ∈ done := by
  intro done q rest heq p hp
  rcases List.mem_map.1 hp with ⟨e, he, rfl⟩
  have hf := List.mem_filter.1 he
  have htid : e.task_id = q := by simpa using hf.2
  have hqord : e.task_id ∈ ord := by
    rw [htid, heq]
    simp
  have htake := hsorted e hf.1 hqord
  have hqdone : q ∉ done := by
    intro hc
    have hnd2 := List.nodup_append.mp (heq ▸ hndo)
    exact hnd2.2.2 hc (List.mem_cons_self q rest)
  rw [heq, htid, indexOf_append_cons_self done rest q hqdone] at htake
  rw [List.take_left] at htake
  exact htake

/-- Walking a duplicate-free topological order, the forward level push of
`analyzeGraph` leaves every task at exactly the fixpoint level. -/
theorem propagateLevels_good (E : List Dep) (ts : List TaskId) (fv : TaskId → Nat)
    (adj : List (TaskId × List TaskId))
    (hadj : ∀ k, jsGet adj k = if k ∈ ts then some (dependentsOf E k) else none)
    (hval : ∀ e ∈ E, e.task_id ∈ ts ∧ e.depends_on_task_id ∈ ts)
    (hfv : ∀ t ∈ ts, fv t = if prereqsOf E t = [] then 0
      else 1 + listMax ((prereqsOf E t).map fv))
    (ord : List TaskId) (hndo : ord.Nodup) (hmem : ∀ k, k ∈ ord ↔ k ∈ ts)
    (hpre : ∀ done q rest, ord = done ++ q :: rest →
      ∀ p ∈ prereqsOf E q, p ∈ done) :
    ∀ (rest done : List TaskId) (L : List (TaskId × Nat)), ord = done ++ rest →
      (∀ t ∈ ts, jsGet L t = some (pval E fv done t)) →
      ∀ t ∈ ts, jsGet (propagateLevels adj L rest) t = some (fv t) := by
  intro rest
  induction rest with
  | nil =>
    intro done L heq hinv t ht
    have hL : propagateLevels adj L [] = L := rfl
    rw [hL, hinv t ht]
    congr 1
    have hdone : done = ord := by rw [heq, List.append_nil]
    rw [hdone, pval_full E fv ord t
      (fun p hp => (hmem p).2 (prereqsOf_subset E ts hval t p hp)), hfv t ht]
  | cons q rest ih =>
    intro done L heq hinv t ht
    have hq_ts : q ∈ ts := (hmem q).1 (by rw [heq]; simp)
    have hqdone : q ∉ done := by
      have h2 := List.nodup_append.mp (heq ▸ hndo)
      exact fun hc => h2.2.2 hc (List.mem_cons_self q rest)
    have hpreq : ∀ p ∈ prereqsOf E q, p ∈ done := hpre done q rest heq
    have hlq : (jsGet L q).getD 0 = fv q := by
      rw [hinv q hq_ts]
      simp only [Option.getD_some]
      rw [pval_full E fv done q hpreq, hfv q hq_ts]
    have hred : propagateLevels adj L (q :: rest) =
        propagateLevels adj
          ((dependentsOf E q).foldl
            (fun L2 n => jsSet L2 n (max ((jsGet L2 n).getD 0) ((jsGet L q).getD 0 + 1)))
            L)
          rest := by
      show propagateLevels adj
          (((jsGet adj q).getD []).foldl
            (fun L2 n => jsSet L2 n (max ((jsGet L2 n).getD 0) ((jsGet L q).getD 0 + 1)))
            L)
          rest = _
      rw [hadj q, if_pos hq_ts]
      rfl
    rw [hred]
    apply ih (done ++ [q]) _ (by rw [heq]; simp) _ t ht
    intro u hu
    rw [pushFold_get (dependentsOf E q) ((jsGet L q).getD 0) L u]
    rw [pval_extend E fv done q u hqdone]
    by_cases hdep : u ∈ dependentsOf E q
    · rw [if_pos hdep, if_pos ((mem_dependentsOf_iff E u q).1 hdep)]
      rw [hinv u hu]
      simp only [Option.getD_some]
      rw [hlq]
    · rw [if_neg hdep,
        if_neg (fun hc => hdep ((mem_dependentsOf_iff E u q).2 hc))]
      exact hinv u hu

/-- analyzeGraph variant of the level contract: on duplicate-free, fully
declared, acyclic input the returned task_levels record satisfies the level
equations. -/
theorem analyzeGraph_levels_spec (ts : List TaskId) (E : List Dep)
    (hnd : ts.Nodup)
    (hval : ∀ e ∈ E, e.task_id ∈ ts ∧ e.depends_on_task_id ∈ ts)
    (hacyc : ¬ HasCycle E) :
    LevelSpec E ts (analyzeGraph ts E).task_levels := by
  obtain ⟨fv, hfv⟩ := exists_level_fixpoint ts E hnd hval hacyc
  obtain ⟨ord, hord, _, hndo, hmem, _, hsorted⟩ :=
    analyzeGraph_topo_props ts E hnd hval hacyc
  have hju : jsUnique ts = ts := jsUnique_eq_self ts hnd
  have hcyc0 : (analyzeDfs ts E).cycles = [] :=
    analyzeDfs_no_cycles ts E (fun e he => (hval e he).2) hacyc
  have hcond : ¬ ((analyzeDfs ts E).cycles.length > 0) := by
    rw [hcyc0]
    simp
  have hfields : (analyzeGraph ts E).topological_order =
      some (kahnLoop (buildAdjacency ts E) ((jsUnique ts).length + 1)
        (inDegreeInit ts E)
        ((jsUnique ts).filter (fun t => jsGet (inDegreeInit ts E) t = some 0)) []) ∧
      (analyzeGraph ts E).task_levels =
        propagateLevels (buildAdjacency ts E)
          ((jsUnique ts).foldl (fun m t => jsSet m t (0 : Nat)) [])
          (kahnLoop (buildAdjacency ts E) ((jsUnique ts).length + 1)
            (inDegreeInit ts E)
            ((jsUnique ts).filter
              (fun t => jsGet (inDegreeInit ts E) t = some 0)) []) := by
    unfold analyzeGraph
    dsimp only
    rw [if_neg hcond]
    exact ⟨rfl, rfl⟩
  have hordeq : ord = kahnLoop (buildAdjacency ts E) ((jsUnique ts).length + 1)
      (inDegreeInit ts E)
      ((jsUnique ts).filter (fun t => jsGet (inDegreeInit ts E) t = some 0)) [] :=
    Option.some.inj (hord.symm.trans hfields.1)
  have hpre := sorted_take_to_prefix E ord hndo hsorted
  apply levelSpec_of_fv E ts fv _ hval hfv
  intro t ht
  rw [hfields.2, ← hordeq]
  apply propagateLevels_good E ts fv (buildAdjacency ts E)
    (buildAdjacency_get ts E (fun e he => (hval e he).2)) hval hfv ord hndo hmem
    hpre ord [] _ (by simp) _ t ht
  intro u hu
  rw [pval_nil, hju, jsGet_foldl_set_const, if_pos hu]

/-- One dependent-processing step of updateGraph's BFS loop body (the zeta
reduced form of the fold body in `bfsLoop`). -/
def bfsStep (E : List Dep) (c : Nat)
    (acc : (List (TaskId × Nat)) × List TaskId × List TaskId) (dependent : TaskId) :
    (List (TaskId × Nat)) × List TaskId × List TaskId :=
  if dependent ∉ acc.2.1 ∧
      ∀ d ∈ E.filter (fun d => d.task_id = dependent),
        d.depends_on_task_id ∈ acc.2.1 then
    (jsSet acc.1 dependent (max ((jsGet acc.1 dependent).getD 0) (c + 1)),
     acc.2.1 ++ [dependent], acc.2.2 ++ [dependent])
  else
    (jsSet acc.1 dependent (max ((jsGet acc.1 dependent).getD 0) (c + 1)),
     acc.2.1, acc.2.2)

theorem bfsLoop_cons_eq (graph : List (TaskId × List TaskId)) (deps : List Dep)
    (fuel : Nat) (levels : List (TaskId × Nat)) (visited : List TaskId)
    (current : TaskId) (qs : List TaskId) :
    bfsLoop graph deps (fuel + 1) levels visited (current :: qs) =
      bfsLoop graph deps fuel
        (((jsGet graph current).getD []).foldl
          (bfsStep deps ((jsGet levels current).getD 0)) (levels, visited, qs)).1
        (((jsGet graph current).getD []).foldl
          (bfsStep deps ((jsGet levels current).getD 0)) (levels, visited, qs)).2.1
        (((jsGet graph current).getD []).foldl
          (bfsStep deps ((jsGet levels current).getD 0)) (levels, visited, qs)).2.2 :=
  rfl

theorem prereqs_forall_iff (E : List Dep) (n : TaskId) (v : List TaskId) :
    (∀ p ∈ prereqsOf E n, p ∈ v) ↔
      ∀ d ∈ E.filter (fun d => d.task_id = n), d.depends_on_task_id ∈ v := by
  unfold prereqsOf edgeTargets
  constructor
  · intro h d hd
    exact h _ (List.mem_map_of_mem _ hd)
  · intro h p hp
    rcases List.mem_map.1 hp with ⟨d, hd, rfl⟩
    exact h d hd

theorem stepRel_of_mem_prereqsOf (E : List Dep) (p t : TaskId)
    (h : p ∈ prereqsOf E t) : stepRel E p t := by
  rcases List.mem_map.1 h with ⟨e, he, rfl⟩
  have hf := List.mem_filter.1 he
  exact ⟨e, hf.1, rfl, by simpa using hf.2⟩

/-- Characterization of the dependent fold at one BFS dequeue: the levels
component is exactly the level push, the visited and queue components grow by
the same block of newly discovered dependents, each satisfying the enqueue
guard at its insertion point, and any listed dependent whose prerequisites
were all initially visited ends up visited. -/
theorem bfsFold_spec (E : List Dep) (c : Nat) : ∀ (ns : List TaskId)
    (L : List (TaskId × Nat)) (v q : List TaskId),
    ((ns.foldl (bfsStep E c) (L, v, q)).1 =
      ns.foldl (fun L2 n => jsSet L2 n (max ((jsGet L2 n).getD 0) (c + 1))) L) ∧
    ∃ D : List TaskId,
      (ns.foldl (bfsStep E c) (L, v, q)).2.1 = v ++ D ∧
      (ns.foldl (bfsStep E c) (L, v, q)).2.2 = q ++ D ∧
      D.Nodup ∧ (∀ d ∈ D, d ∈ ns ∧ d ∉ v) ∧
      (∀ q1 d q2, D = q1 ++ d :: q2 → ∀ p ∈ prereqsOf E d, p ∈ v ++ q1) ∧
      (∀ d ∈ ns, (∀ p ∈ prereqsOf E d, p ∈ v) → d ∈ v ++ D) := by
  intro ns
  induction ns with
  | nil =>
    intro L v q
    refine ⟨rfl, [], by simp, by simp, List.nodup_nil, by simp, ?_, by simp⟩
    intro q1 d q2 hsplit
    exact absurd hsplit.symm (by simp)
  | cons n ns ih =>
    intro L v q
    by_cases hcond : n ∉ v ∧
        ∀ d ∈ E.filter (fun d => d.task_id = n), d.depends_on_task_id ∈ v
    · have hstep : bfsStep E c (L, v, q) n =
          (jsSet L n (max ((jsGet L n).getD 0) (c + 1)), v ++ [n], q ++ [n]) := by
        unfold bfsStep
        rw [if_pos hcond]
      have hfold : (n :: ns).foldl (bfsStep E c) (L, v, q) =
          ns.foldl (bfsStep E c)
            (jsSet L n (max ((jsGet L n).getD 0) (c + 1)), v ++ [n], q ++ [n]) := by
        rw [List.foldl_cons, hstep]
      obtain ⟨ih1, D2, hv2, hq2, hnd2, hmem2, hins2, hall2⟩ :=
        ih (jsSet L n (max ((jsGet L n).getD 0) (c + 1))) (v ++ [n]) (q ++ [n])
      refine ⟨?_, n :: D2, ?_, ?_, ?_, ?_, ?_, ?_⟩
      · rw [hfold, ih1, List.foldl_cons]
      · rw [hfold, hv2]
        simp
      · rw [hfold, hq2]
        simp
      · rw [List.nodup_cons]
        refine ⟨?_, hnd2⟩
        intro hc
        exact (hmem2 n hc).2 (by simp)
      · intro d hd
        rcases List.mem_cons.1 hd with rfl | hd2
        · exact ⟨List.mem_cons_self _ _, hcond.1⟩
        · have h2 := hmem2 d hd2
          exact ⟨List.mem_cons_of_mem _ h2.1,
            fun hc => h2.2 (List.mem_append_left _ hc)⟩
      · intro q1 d q2 hsplit p hp
        cases q1 with
        | nil =>
          simp only [List.nil_append] at hsplit
          have hdn : d = n := by
            have := congrArg (fun l => l.head? ) hsplit
            simpa using this.symm
          subst hdn
          have hpv : p ∈ v := (prereqs_forall_iff E d v).2 hcond.2 p hp
          simpa using hpv
        | cons x q1 =>
          rw [List.cons_append] at hsplit
          injection hsplit with h1 h2
          subst h1
          have := hins2 q1 d q2 h2 p hp
          simpa using this
      · intro d hd hpre
        rcases List.mem_cons.1 hd with rfl | hd2
        · simp
        · have := hall2 d hd2 (fun p hp => List.mem_append_left _ (hpre p hp))
          simpa using this
    · have hstep : bfsStep E c (L, v, q) n =
          (jsSet L n (max ((jsGet L n).getD 0) (c + 1)), v, q) := by
        unfold bfsStep
        rw [if_neg hcond]
      have hfold : (n :: ns).foldl (bfsStep E c) (L, v, q) =
          ns.foldl (bfsStep E c)
            (jsSet L n (max ((jsGet L n).getD 0) (c + 1)), v, q) := by
        rw [List.foldl_cons, hstep]
      obtain ⟨ih1, D2, hv2, hq2, hnd2, hmem2, hins2, hall2⟩ :=
        ih (jsSet L n (max ((jsGet L n).getD 0) (c + 1))) v q
      refine ⟨?_, D2, ?_, ?_, hnd2, ?_, ?_, ?_⟩
      · rw [hfold, ih1, List.foldl_cons]
      · rw [hfold, hv2]
      · rw [hfold, hq2]
      · intro d hd
        exact ⟨List.mem_cons_of_mem _ (hmem2 d hd).1, (hmem2 d hd).2⟩
      · exact hins2
      · intro d hd hpre
        rcases List.mem_cons.1 hd with rfl | hd2
        · by_cases hnv : d ∈ v
          · exact List.mem_append_left _ hnv
          · exact absurd ⟨hnv, (prereqs_forall_iff E d v).1 hpre⟩ hcond
        · exact hall2 d hd2 hpre

/-- Invariant proof of updateGraph's BFS level loop: starting from a state
whose visited list splits into dequeued and queued nodes with the stated
frontier properties, every task ends at its fixpoint level. -/
theorem bfsLoop_good (E : List Dep) (ts : List TaskId) (fv : TaskId → Nat)
    (graph : List (TaskId × List TaskId))
    (hadj : ∀ k, jsGet graph k = if k ∈ ts then some (dependentsOf E k) else none)
    (hval : ∀ e ∈ E, e.task_id ∈ ts ∧ e.depends_on_task_id ∈ ts)
    (hfv : ∀ t ∈ ts, fv t = if prereqsOf E t = [] then 0
      else 1 + listMax ((prereqsOf E t).map fv))
    (hacyc : ¬ HasCycle E) :
    ∀ (fuel : Nat) (levels : List (TaskId × Nat)) (processed queue : List TaskId),
      (processed ++ queue).Nodup →
      (∀ k ∈ processed ++ queue, k ∈ ts) →
      (∀ t ∈ ts, prereqsOf E t = [] → t ∈ processed ++ queue) →
      (∀ t ∈ ts, t ∉ processed ++ queue → ∃ p ∈ prereqsOf E t, p ∉ processed) →
      (∀ q1 c0 q2, queue = q1 ++ c0 :: q2 → ∀ p ∈ prereqsOf E c0, p ∈ processed ++ q1) →
      (∀ t ∈ ts, jsGet levels t = some (pval E fv processed t)) →
      ts.length + 1 ≤ fuel + processed.length →
      ∀ t ∈ ts, jsGet (bfsLoop graph E fuel levels (processed ++ queue) queue) t =
        some (fv t) := by
  intro fuel
  induction fuel with
  | zero =>
    intro levels processed queue hnd hsub hroots hF hQ hL hfuel t ht
    exfalso
    have hpn : processed.Nodup := (List.nodup_append.mp hnd).1
    have hlen := nodup_subset_length processed ts hpn
      (fun k hk => hsub k (List.mem_append_left _ hk))
    omega
  | succ fuel ih =>
    intro levels processed queue hnd hsub hroots hF hQ hL hfuel t ht
    cases queue with
    | nil =>
      have hdone : ∀ u ∈ ts, u ∈ processed := by
        by_contra hc
        push_neg at hc
        obtain ⟨u0, hu0ts, hu0⟩ := hc
        have hSne : ts.filter (fun u => decide (u ∉ processed)) ≠ [] := by
          have hin : u0 ∈ ts.filter (fun u => decide (u ∉ processed)) :=
            List.mem_filter.2 ⟨hu0ts, by simpa using hu0⟩
          intro h0
          rw [h0] at hin
          simp at hin
        have hpred : ∀ x ∈ ts.filter (fun u => decide (u ∉ processed)),
            ∃ y ∈ ts.filter (fun u => decide (u ∉ processed)), stepRel E y x := by
          intro x hx
          have hx2 := List.mem_filter.1 hx
          have hxnp : x ∉ processed := by simpa using hx2.2
          obtain ⟨p, hp, hpnp⟩ := hF x hx2.1 (by simpa using hxnp)
          exact ⟨p, List.mem_filter.2
            ⟨prereqsOf_subset E ts hval x p hp, by simpa using hpnp⟩,
            stepRel_of_mem_prereqsOf E p x hp⟩
        obtain ⟨v, l, hch⟩ :=
          exists_cycle_of_pred (stepRel E) _ hSne hpred
        exact hacyc ⟨v, l, hch⟩
      have hstop : bfsLoop graph E (fuel + 1) levels (processed ++ []) [] =
          levels := rfl
      rw [hstop, hL t ht]
      congr 1
      rw [pval_full E fv processed t
        (fun p hp => hdone p (prereqsOf_subset E ts hval t p hp)), hfv t ht]
    | cons current qs =>
      have hcur_ts : current ∈ ts := hsub current (by simp)
      have hcur_np : current ∉ processed := by
        have h2 := List.nodup_append.mp hnd
        exact fun hc => h2.2.2 hc (by simp)
      have hpre_cur : ∀ p ∈ prereqsOf E current, p ∈ processed := by
        have h3 := hQ [] current qs rfl
        simpa using h3
      have hlev_cur : (jsGet levels current).getD 0 = fv current := by
        rw [hL current hcur_ts]
        simp only [Option.getD_some]
        rw [pval_full E fv processed current hpre_cur, hfv current hcur_ts]
      have hns : (jsGet graph current).getD [] = dependentsOf E current := by
        rw [hadj current, if_pos hcur_ts]
        rfl
      rw [bfsLoop_cons_eq]
      obtain ⟨h1, D, hv, hq, hDnd, hDmem, hDins, hDall⟩ :=
        bfsFold_spec E ((jsGet levels current).getD 0)
          ((jsGet graph current).getD []) levels (processed ++ current :: qs) qs
      rw [h1, hv, hq]
      rw [hns] at hDmem hDall
      have hvis : (processed ++ current :: qs) ++ D =
          (processed ++ [current]) ++ (qs ++ D) := by simp
      rw [hvis]
      have hnd2 : ((processed ++ [current]) ++ (qs ++ D)).Nodup := by
        rw [← hvis, List.nodup_append]
        exact ⟨hnd, hDnd, fun a ha hb => (hDmem a hb).2 ha⟩
      have hsub2 : ∀ k ∈ (processed ++ [current]) ++ (qs ++ D), k ∈ ts := by
        rw [← hvis]
        intro k hk
        rcases List.mem_append.1 hk with hk | hk
        · exact hsub k hk
        · exact dependentsOf_subset E ts hval current k (hDmem k hk).1
      have hroots2 : ∀ u ∈ ts, prereqsOf E u = [] →
          u ∈ (processed ++ [current]) ++ (qs ++ D) := by
        rw [← hvis]
        intro u hu h0
        exact List.mem_append_left _ (hroots u hu h0)
      have hF2 : ∀ u ∈ ts, u ∉ (processed ++ [current]) ++ (qs ++ D) →
          ∃ p ∈ prereqsOf E u, p ∉ processed ++ [current] := by
        rw [← hvis]
        intro u hu hnotin
        have hnotold : u ∉ processed ++ current :: qs :=
          fun hc => hnotin (List.mem_append_left _ hc)
        obtain ⟨p0, hp0, hp0np⟩ := hF u hu hnotold
        by_cases hp0c : p0 = current
        · subst hp0c
          by_contra hcc
          push_neg at hcc
          apply hnotin
          have hallv : ∀ p ∈ prereqsOf E u, p ∈ processed ++ p0 :: qs := by
            intro p hp
            rcases List.mem_append.1 (hcc p hp) with h | h
            · exact List.mem_append_left _ h
            · have hpc : p = p0 := by simpa using h
              exact List.mem_append_right _ (hpc ▸ List.mem_cons_self p0 qs)
          exact hDall u ((mem_dependentsOf_iff E u p0).2 hp0) hallv
        · refine ⟨p0, hp0, ?_⟩
          intro hc
          rcases List.mem_append.1 hc with hc | hc
          · exact hp0np hc
          · exact hp0c (by simpa using hc)
      have hQ2 : ∀ q1 c0 q2, qs ++ D = q1 ++ c0 :: q2 →
          ∀ p ∈ prereqsOf E c0, p ∈ (processed ++ [current]) ++ q1 := by
        intro q1 c0 q2 hsplit p hp
        rcases List.append_eq_append_iff.1 hsplit with ⟨w, hw1, hw2⟩ | ⟨w, hw1, hw2⟩
        · have h4 := hDins w c0 q2 hw2 p hp
          rw [hw1]
          simpa using h4
        · cases w with
          | nil =>
            have hq1 : q1 = qs := by simpa using hw1.symm
            have h4 := hDins [] c0 q2 hw2.symm p hp
            rw [hq1]
            simpa using h4
          | cons x w =>
            injection hw2 with hx hw3
            subst hx
            have h4 := hQ (current :: q1) c0 w (by rw [hw1]; rfl) p hp
            simpa using h4
      have hL2 : ∀ u ∈ ts,
          jsGet (((jsGet graph current).getD []).foldl
            (fun L2 n => jsSet L2 n
              (max ((jsGet L2 n).getD 0) ((jsGet levels current).getD 0 + 1)))
            levels) u = some (pval E fv (processed ++ [current]) u) := by
        intro u hu
        rw [pushFold_get, hns, pval_extend E fv processed current u hcur_np]
        by_cases hdep : u ∈ dependentsOf E current
        · rw [if_pos hdep, if_pos ((mem_dependentsOf_iff E u current).1 hdep),
            hL u hu]
          simp only [Option.getD_some]
          rw [hlev_cur]
        · rw [if_neg hdep,
            if_neg (fun hc => hdep ((mem_dependentsOf_iff E u current).2 hc))]
          exact hL u hu
      have hfuel2 : ts.length + 1 ≤ fuel + (processed ++ [current]).length := by
        simp only [List.length_append, List.length_cons, List.length_nil]
        omega
      exact ih _ (processed ++ [current]) (qs ++ D) hnd2 hsub2 hroots2 hF2 hQ2
        hL2 hfuel2 t ht

theorem mem_updateRoots (ts : List TaskId) (E : List Dep) (u : TaskId) :
    u ∈ ts.filter (fun t => ¬ E.any (fun d => d.task_id = t)) ↔
      u ∈ ts ∧ prereqsOf E u = [] := by
  rw [List.mem_filter, prereqsOf_eq_nil_iff]
  simp [List.any_eq_true]

/-- updateGraph variant of the level contract: on duplicate-free, fully
declared, acyclic input the BFS level computation satisfies the level
equations. -/
theorem updateLevels_spec (ts : List TaskId) (E : List Dep)
    (hnd : ts.Nodup)
    (hval : ∀ e ∈ E, e.task_id ∈ ts ∧ e.depends_on_task_id ∈ ts)
    (hacyc : ¬ HasCycle E) :
    LevelSpec E ts (calculateTaskLevelsUpdate ts E) := by
  obtain ⟨fv, hfv⟩ := exists_level_fixpoint ts E hnd hval hacyc
  apply levelSpec_of_fv E ts fv _ hval hfv
  intro t ht
  unfold calculateTaskLevelsUpdate
  dsimp only
  apply bfsLoop_good E ts fv (buildAdjacency ts E)
    (buildAdjacency_get ts E (fun e he => (hval e he).2)) hval hfv hacyc
    (ts.length + 1) _ [] (ts.filter (fun t => ¬ E.any (fun d => d.task_id = t)))
    ?_ ?_ ?_ ?_ ?_ ?_ ?_ t ht
  · simp only [List.nil_append]
    exact hnd.filter _
  · intro k hk
    simp only [List.nil_append] at hk
    exact ((mem_updateRoots ts E k).1 hk).1
  · intro u hu h0
    simp only [List.nil_append]
    exact (mem_updateRoots ts E u).2 ⟨hu, h0⟩
  · intro u hu hnotin
    simp only [List.nil_append] at hnotin
    have hne : prereqsOf E u ≠ [] := by
      intro h0
      exact hnotin ((mem_updateRoots ts E u).2 ⟨hu, h0⟩)
    obtain ⟨p, hp⟩ := List.exists_mem_of_ne_nil _ hne
    exact ⟨p, hp, by simp⟩
  · intro q1 c0 q2 hsplit p hp
    have hc0 : c0 ∈ ts.filter (fun t => ¬ E.any (fun d => d.task_id = t)) := by
      rw [hsplit]
      simp
    have h0 := ((mem_updateRoots ts E c0).1 hc0).2
    rw [h0] at hp
    simp at hp
  · intro u hu
    rw [jsGet_foldl_set_const, if_pos hu, pval_nil]
  · simp

theorem foldl_jsSet_pres (tasks : List (TaskId × List TaskId))
    (m0 : List (TaskId × List TaskId)) (k : TaskId)
    (h : ∀ r ∈ tasks, r.1 ≠ k) :
    jsGet (tasks.foldl (fun m t => jsSet m t.1 t.2) m0) k = jsGet m0 k := by
  induction tasks generalizing m0 with
  | nil => rfl
  | cons r tasks ih =>
    rw [List.foldl_cons, ih _ (fun r2 hr2 => h r2 (List.mem_cons_of_mem _ hr2))]
    exact jsGet_jsSet_ne _ _ (h r (List.mem_cons_self _ _))

theorem jsGet_dependsOnMapOf (tasks : List (TaskId × List TaskId))
    (hnd : (tasks.map (fun t => t.1)).Nodup) :
    ∀ r ∈ tasks, jsGet (dependsOnMapOf tasks) r.1 = some r.2 := by
  unfold dependsOnMapOf
  suffices h : ∀ (tasks2 : List (TaskId × List TaskId))
      (m0 : List (TaskId × List TaskId)),
      (tasks2.map (fun t => t.1)).Nodup →
      ∀ r ∈ tasks2, jsGet (tasks2.foldl (fun m t => jsSet m t.1 t.2) m0) r.1 =
        some r.2 by
    exact h tasks [] hnd
  intro tasks2
  induction tasks2 with
  | nil => intro m0 _ r hr; simp at hr
  | cons t tasks2 ih =>
    intro m0 hnd2 r hr
    rw [List.map_cons, List.nodup_cons] at hnd2
    rcases List.mem_cons.1 hr with rfl | hr2
    · rw [List.foldl_cons, foldl_jsSet_pres tasks2 _ r.1
        (fun r2 hr2 hc => hnd2.1 (hc ▸ List.mem_map_of_mem (fun t => t.1) hr2))]
      exact jsGet_jsSet_self _ _ _
    · exact ih _ hnd2.2 r hr2

theorem prereqsOf_append (l1 l2 : List Dep) (k : TaskId) :
    prereqsOf (l1 ++ l2) k = prereqsOf l1 k ++ prereqsOf l2 k := by
  simp [prereqsOf, edgeTargets, List.filter_append]

theorem prereqsOf_block (id : TaskId) (ds : List TaskId) (k : TaskId) :
    prereqsOf (ds.map (fun d => { task_id := id, depends_on_task_id := d })) k =
      if id = k then ds else [] := by
  induction ds with
  | nil => simp [prereqsOf, edgeTargets]
  | cons d ds ih =>
    by_cases h : id = k
    · simp only [List.map_cons]
      unfold prereqsOf edgeTargets
      rw [List.filter_cons_of_pos (by simp [h])]
      unfold prereqsOf edgeTargets at ih
      rw [List.map_cons, ih, if_pos h]
      simp [h]
    · simp only [List.map_cons]
      unfold prereqsOf edgeTargets
      rw [List.filter_cons_of_neg (by simp [h])]
      unfold prereqsOf edgeTargets at ih
      rw [ih, if_neg h]
      simp [h]

theorem prereqsOf_allDeps_notmem (tasks : List (TaskId × List TaskId)) (u : TaskId)
    (h : u ∉ tasks.map (fun t => t.1)) :
    prereqsOf (allDependenciesOf tasks) u = [] := by
  rw [prereqsOf_eq_nil_iff]
  intro e he hc
  exact h (hc ▸ allDependenciesOf_task_mem tasks e he)

theorem prereqsOf_allDeps (tasks : List (TaskId × List TaskId))
    (hnd : (tasks.map (fun t => t.1)).Nodup) :
    ∀ r ∈ tasks, prereqsOf (allDependenciesOf tasks) r.1 = r.2 := by
  induction tasks with
  | nil => intro r hr; simp at hr
  | cons t tasks ih =>
    intro r hr
    rw [List.map_cons, List.nodup_cons] at hnd
    have hsplit : allDependenciesOf (t :: tasks) =
        (t.2.map (fun d => { task_id := t.1, depends_on_task_id := d })) ++
          allDependenciesOf tasks := by
      unfold allDependenciesOf
      rw [List.flatMap_cons]
    rcases List.mem_cons.1 hr with rfl | hr2
    · rw [hsplit, prereqsOf_append, prereqsOf_block, if_pos rfl,
        prereqsOf_allDeps_notmem tasks r.1 hnd.1, List.append_nil]
    · have hne : t.1 ≠ r.1 := by
        intro hc
        exact hnd.1 (hc ▸ List.mem_map_of_mem (fun t => t.1) hr2)
      rw [hsplit, prereqsOf_append, prereqsOf_block, if_neg hne,
        List.nil_append]
      exact ih hnd.2 r hr2

theorem transGen_chain (R : TaskId → TaskId → Prop) (a b : TaskId)
    (h : Relation.TransGen R a b) : ∃ l, List.Chain R a (l ++ [b]) := by
  induction h with
  | single hr => exact ⟨[], List.Chain.cons hr List.Chain.nil⟩
  | tail hab hbc ih =>
    obtain ⟨l, hch⟩ := ih
    rename_i b2 c2
    refine ⟨l ++ [b2], ?_⟩
    rw [List.append_assoc]
    exact List.chain_split.2 ⟨hch, List.Chain.cons hbc List.Chain.nil⟩

theorem hasCycle_of_transGen_self (E : List Dep) (t : TaskId)
    (h : Relation.TransGen (fun x y => stepRel E y x) t t) : HasCycle E := by
  obtain ⟨l, hch⟩ := transGen_chain _ t t h
  obtain ⟨w, m, hc⟩ := hasCycle_flip (fun a b hab => hab) t l hch
  exact ⟨w, m, hc⟩

/-- Invariant proof of createGraph's memoized level recursion: run with a
correct cache, an ancestor path whose members all reach the current task,
and enough fuel, the call restores the path, returns the fixpoint level and
caches only fixpoint levels. -/
theorem calculateLevel_good (E : List Dep) (ts : List TaskId) (fv : TaskId → Nat)
    (dmap : List (TaskId × List TaskId))
    (hdmap : ∀ t ∈ ts, jsGet dmap t = some (prereqsOf E t))
    (hval : ∀ e ∈ E, e.task_id ∈ ts ∧ e.depends_on_task_id ∈ ts)
    (hfv : ∀ t ∈ ts, fv t = if prereqsOf E t = [] then 0
      else 1 + listMax ((prereqsOf E t).map fv))
    (hacyc : ¬ HasCycle E) :
    ∀ (fuel : Nat) (st : (List (TaskId × Nat)) × List TaskId) (task : TaskId),
      task ∈ ts →
      (∀ k v, jsGet st.1 k = some v → k ∈ ts ∧ v = fv k) →
      (∀ p ∈ st.2, p ∈ ts) →
      st.2.Nodup →
      (∀ p ∈ st.2, Relation.TransGen (fun x y => stepRel E y x) p task) →
      ts.length + 1 ≤ fuel + st.2.length →
      (calculateLevel dmap fuel st task).1.2 = st.2 ∧
      (calculateLevel dmap fuel st task).2 = fv task ∧
      (∀ k v, jsGet (calculateLevel dmap fuel st task).1.1 k = some v →
        k ∈ ts ∧ v = fv k) ∧
      (∀ k v, jsGet st.1 k = some v →
        jsGet (calculateLevel dmap fuel st task).1.1 k = some v) ∧
      jsGet (calculateLevel dmap fuel st task).1.1 task = some (fv task) := by
  intro fuel
  induction fuel with
  | zero =>
    intro st task htask hcache hpathsub hpathnd hpath hfuel
    exfalso
    have hlen := nodup_subset_length st.2 ts hpathnd hpathsub
    omega
  | succ fuel ih =>
    intro st task htask hcache hpathsub hpathnd hpath hfuel
    have hnotin : task ∉ st.2 := by
      intro hmem
      exact hacyc (hasCycle_of_transGen_self E task (hpath task hmem))
    cases hc : jsGet st.1 task with
    | some v =>
      have hred : calculateLevel dmap (fuel + 1) st task = (st, v) := by
        rw [calculateLevel, hc]
      rw [hred]
      have hv := hcache task v hc
      exact ⟨rfl, hv.2, hcache, fun k v2 h => h, by rw [hc, hv.2]⟩
    | none =>
      have hdeps : (jsGet dmap task).getD [] = prereqsOf E task := by
        rw [hdmap task htask]
        rfl
      have hins : jsInsert st.2 task = st.2 ++ [task] := by
        unfold jsInsert
        rw [if_neg hnotin]
      have hclaim : ∀ (ds : List TaskId), (∀ d ∈ ds, d ∈ prereqsOf E task) →
          ∀ (acc : ((List (TaskId × Nat)) × List TaskId) × List Nat),
          acc.1.2 = jsInsert st.2 task →
          (∀ k v, jsGet acc.1.1 k = some v → k ∈ ts ∧ v = fv k) →
          (∀ k v, jsGet st.1 k = some v → jsGet acc.1.1 k = some v) →
          (ds.foldl (fun acc2 dep => ((calculateLevel dmap fuel acc2.1 dep).1,
            acc2.2 ++ [(calculateLevel dmap fuel acc2.1 dep).2])) acc).1.2 =
              jsInsert st.2 task ∧
          (∀ k v, jsGet (ds.foldl
            (fun acc2 dep => ((calculateLevel dmap fuel acc2.1 dep).1,
              acc2.2 ++ [(calculateLevel dmap fuel acc2.1 dep).2])) acc).1.1 k =
                some v → k ∈ ts ∧ v = fv k) ∧
          (∀ k v, jsGet st.1 k = some v → jsGet (ds.foldl
            (fun acc2 dep => ((calculateLevel dmap fuel acc2.1 dep).1,
              acc2.2 ++ [(calculateLevel dmap fuel acc2.1 dep).2])) acc).1.1 k =
                some v) ∧
          (ds.foldl (fun acc2 dep => ((calculateLevel dmap fuel acc2.1 dep).1,
            acc2.2 ++ [(calculateLevel dmap fuel acc2.1 dep).2])) acc).2 =
              acc.2 ++ ds.map fv := by
        intro ds
        induction ds with
        | nil =>
          intro _ acc hacc1 hacc2 hacc3
          exact ⟨hacc1, hacc2, hacc3, by simp⟩
        | cons d ds ihd =>
          intro hds acc hacc1 hacc2 hacc3
          have hd_ts : d ∈ ts :=
            prereqsOf_subset E ts hval task d (hds d (List.mem_cons_self _ _))
          have hstep : stepRel E d task :=
            stepRel_of_mem_prereqsOf E d task (hds d (List.mem_cons_self _ _))
          have hchild := ih acc.1 d hd_ts hacc2
            (by
              rw [hacc1]
              intro p hp
              rcases (mem_jsInsert st.2 task p).1 hp with hp2 | rfl
              · exact hpathsub p hp2
              · exact htask)
            (by rw [hacc1]; exact jsInsert_nodup st.2 task hpathnd)
            (by
              rw [hacc1]
              intro p hp
              rcases (mem_jsInsert st.2 task p).1 hp with hp2 | rfl
              · exact Relation.TransGen.tail (hpath p hp2) hstep
              · exact Relation.TransGen.single hstep)
            (by
              rw [hacc1, hins, List.length_append]
              simp only [List.length_cons, List.length_nil]
              omega)
          obtain ⟨c1, c2, c3, c4, c5⟩ := hchild
          rw [List.foldl_cons]
          have hrec := ihd (fun d2 hd2 => hds d2 (List.mem_cons_of_mem _ hd2))
            ((calculateLevel dmap fuel acc.1 d).1,
              acc.2 ++ [(calculateLevel dmap fuel acc.1 d).2])
            (by rw [c1, hacc1]) c3 (fun k v h => c4 k v (hacc3 k v h))
          obtain ⟨r1, r2, r3, r4⟩ := hrec
          refine ⟨r1, r2, r3, ?_⟩
          rw [r4]
          simp only [c2, List.map_cons]
          rw [List.append_assoc]
          rfl
      have hmain := hclaim (prereqsOf E task) (fun d hd => hd)
        ((st.1, jsInsert st.2 task), []) rfl hcache (fun k v h => h)
      obtain ⟨m1, m2, m3, m4⟩ := hmain
      rw [calculateLevel, hc]
      dsimp only
      rw [if_neg hnotin, hdeps]
      have hvfv : (if (prereqsOf E task).length = 0 then 0
          else (((prereqsOf E task).foldl
            (fun acc2 dep => ((calculateLevel dmap fuel acc2.1 dep).1,
              acc2.2 ++ [(calculateLevel dmap fuel acc2.1 dep).2]))
            ((st.1, jsInsert st.2 task), [])).2.foldl max 0) + 1) = fv task := by
        rw [m4, List.nil_append, hfv task htask]
        by_cases h0 : prereqsOf E task = []
        · rw [if_pos (by rw [h0]; rfl), if_pos h0]
        · rw [if_neg (fun hlen => h0 (List.length_eq_zero.1 hlen)), if_neg h0]
          have hlm : ((prereqsOf E task).map fv).foldl max 0 =
              listMax ((prereqsOf E task).map fv) := rfl
          rw [hlm]
          omega
      refine ⟨?_, ?_, ?_, ?_, ?_⟩
      · rw [m1, hins, List.erase_append_right _ hnotin, List.erase_cons_head,
          List.append_nil]
      · exact hvfv
      · intro k v hk
        rw [jsGet_jsSet] at hk
        by_cases hkt : task = k
        · rw [if_pos hkt] at hk
          refine ⟨hkt ▸ htask, ?_⟩
          rw [← Option.some_inj.1 hk, hvfv, hkt]
        · rw [if_neg hkt] at hk
          exact m2 k v hk
      · intro k v hk
        have hkt : ¬ task = k := by
          intro hc2
          rw [← hc2, hc] at hk
          exact Option.noConfusion hk
        rw [jsGet_jsSet, if_neg hkt]
        exact m3 k v hk
      · rw [jsGet_jsSet_self, hvfv]

theorem calcLevelsFold_good (E : List Dep) (ts : List TaskId) (fv : TaskId → Nat)
    (dmap : List (TaskId × List TaskId))
    (hdmap : ∀ t ∈ ts, jsGet dmap t = some (prereqsOf E t))
    (hval : ∀ e ∈ E, e.task_id ∈ ts ∧ e.depends_on_task_id ∈ ts)
    (hfv : ∀ t ∈ ts, fv t = if prereqsOf E t = [] then 0
      else 1 + listMax ((prereqsOf E t).map fv))
    (hacyc : ¬ HasCycle E) (F : Nat) (hF : ts.length + 1 ≤ F) :
    ∀ (l : List TaskId) (st : (List (TaskId × Nat)) × List TaskId),
      (∀ d ∈ l, d ∈ ts) → st.2 = [] →
      (∀ k v, jsGet st.1 k = some v → k ∈ ts ∧ v = fv k) →
      (l.foldl (fun st2 t => (calculateLevel dmap F st2 t).1) st).2 = [] ∧
      (∀ k v, jsGet (l.foldl
        (fun st2 t => (calculateLevel dmap F st2 t).1) st).1 k = some v →
        k ∈ ts ∧ v = fv k) ∧
      (∀ k v, jsGet st.1 k = some v → jsGet (l.foldl
        (fun st2 t => (calculateLevel dmap F st2 t).1) st).1 k = some v) ∧
      (∀ t ∈ l, jsGet (l.foldl
        (fun st2 t => (calculateLevel dmap F st2 t).1) st).1 t = some (fv t)) := by
  intro l
  induction l with
  | nil =>
    intro st _ hst2 hcache
    exact ⟨hst2, hcache, fun k v h => h, by simp⟩
  | cons t l ihl =>
    intro st hsub hst2 hcache
    have hchild := calculateLevel_good E ts fv dmap hdmap hval hfv hacyc F st t
      (hsub t (List.mem_cons_self _ _)) hcache
      (by rw [hst2]; intro p hp; simp at hp)
      (by rw [hst2]; exact List.nodup_nil)
      (by rw [hst2]; intro p hp; simp at hp)
      (by rw [hst2]; simpa using hF)
    obtain ⟨g1, g2, g3, g4, g5⟩ := hchild
    rw [List.foldl_cons]
    obtain ⟨f1, f2, f3, f4⟩ := ihl (calculateLevel dmap F st t).1
      (fun d hd => hsub d (List.mem_cons_of_mem _ hd)) (g1.trans hst2) g3
    refine ⟨f1, f2, fun k v h => f3 k v (g4 k v h), ?_⟩
    intro u hu
    rcases List.mem_cons.1 hu with rfl | hu2
    · exact f3 u (fv u) g5
    · exact f4 u hu2

/-- createGraph variant of the level contract: on duplicate-free, fully
declared, acyclic input the memoized level recursion satisfies the level
equations. -/
theorem createLevels_spec (tasks : List (TaskId × List TaskId))
    (hnd : (tasks.map (fun t => t.1)).Nodup)
    (hval : ∀ e ∈ allDependenciesOf tasks,
      e.task_id ∈ tasks.map (fun t => t.1) ∧
      e.depends_on_task_id ∈ tasks.map (fun t => t.1))
    (hacyc : ¬ HasCycle (allDependenciesOf tasks)) :
    LevelSpec (allDependenciesOf tasks) (tasks.map (fun t => t.1))
      (calculateTaskLevels2 (tasks.map (fun t => t.1)) (dependsOnMapOf tasks)) := by
  obtain ⟨fv, hfv⟩ := exists_level_fixpoint _ _ hnd hval hacyc
  have hdmap : ∀ t ∈ tasks.map (fun t => t.1),
      jsGet (dependsOnMapOf tasks) t =
        some (prereqsOf (allDependenciesOf tasks) t) := by
    intro t ht
    rcases List.mem_map.1 ht with ⟨r, hr, rfl⟩
    rw [jsGet_dependsOnMapOf tasks hnd r hr, prereqsOf_allDeps tasks hnd r hr]
  apply levelSpec_of_fv _ _ fv _ hval hfv
  intro t ht
  unfold calculateTaskLevels2
  have hF : (tasks.map (fun t => t.1)).length + 1 ≤
      dfsFuel (tasks.map (fun t => t.1)) (dependsOnMapOf tasks) := by
    unfold dfsFuel
    omega
  obtain ⟨f1, f2, f3, f4⟩ := calcLevelsFold_good (allDependenciesOf tasks)
    (tasks.map (fun t => t.1)) fv (dependsOnMapOf tasks) hdmap hval hfv hacyc
    (dfsFuel (tasks.map (fun t => t.1)) (dependsOnMapOf tasks)) hF
    (tasks.map (fun t => t.1)) ([], []) (fun d hd => hd) rfl
    (by intro k v h; simp [jsGet] at h)
  exact f4 t ht

/-- C3.  On every acyclic input with duplicate-free task ids whose edges name
only declared tasks, the level records returned by all three variants
(forward propagation over the topological order in analyzeGraph, memoized
recursion in createGraph, BFS propagation in updateGraph) assign `0` to every
task without prerequisites and one plus the maximum level of the direct
prerequisites to every other task. -/
theorem levels_fixpoint (ts : List TaskId) (E : List Dep)
    (hnd : ts.Nodup)
    (hval : ∀ e ∈ E, e.task_id ∈ ts ∧ e.depends_on_task_id ∈ ts)
    (hacyc : ¬ HasCycle E) :
    LevelSpec E ts (analyzeGraph ts E).task_levels ∧
    LevelSpec E ts (calculateTaskLevelsUpdate ts E) ∧
    ∀ tasks : List (TaskId × List TaskId), tasks.map (fun t => t.1) = ts →
      allDependenciesOf tasks = E →
      LevelSpec E ts (calculateTaskLevels2 ts (dependsOnMapOf tasks)) := by
  refine ⟨analyzeGraph_levels_spec ts E hnd hval hacyc,
    updateLevels_spec ts E hnd hval hacyc, ?_⟩
  intro tasks hts hE
  subst hts
  subst hE
  exact createLevels_spec tasks hnd hval hacyc

theorem levels_fixpoint_witness :
    LevelSpec [⟨"b", "a"⟩] ["a", "b"]
      (analyzeGraph ["a", "b"] [⟨"b", "a"⟩]).task_levels ∧
    LevelSpec [⟨"b", "a"⟩] ["a", "b"]
      (calculateTaskLevelsUpdate ["a", "b"] [⟨"b", "a"⟩]) ∧
    ∀ tasks : List (TaskId × List TaskId), tasks.map (fun t => t.1) = ["a", "b"] →
      allDependenciesOf tasks = [⟨"b", "a"⟩] →
      LevelSpec [⟨"b", "a"⟩] ["a", "b"]
        (calculateTaskLevels2 ["a", "b"] (dependsOnMapOf tasks)) :=
  levels_fixpoint ["a", "b"] [⟨"b", "a"⟩] (by decide) (by decide)
    (no_cycle_of_rank _ (fun s => (["a", "b"] : List TaskId).indexOf s) (by
      rintro a b ⟨e, he, hdep, htask⟩
      subst hdep
      subst htask
      rcases List.mem_cons.1 he with rfl | he2
      · decide
      · simp at he2))

theorem indexOf_append_left (l r : List TaskId) (a : TaskId) (h : a ∈ l) :
    (l ++ r).indexOf a = l.indexOf a := by
  induction l with
  | nil => simp at h
  | cons x l ih =>
    by_cases hx : x = a
    · subst hx
      rw [List.cons_append, List.indexOf_cons_self, List.indexOf_cons_self]
    · rcases List.mem_cons.1 h with h1 | h1
      · exact absurd h1.symm hx
      · rw [List.cons_append, List.indexOf_cons_ne _ hx, List.indexOf_cons_ne _ hx,
          ih h1]

/-- A finish-ranked node list excludes closed adjacency chains through its
members: every edge out of a ranked node leads strictly earlier in the
ranking. -/
theorem no_cycle_of_ranked (adj : List (TaskId × List TaskId)) (F : List TaskId)
    (hranked : ∀ u ∈ F, ∀ n ∈ (jsGet adj u).getD [],
      n ∈ F ∧ F.indexOf n < F.indexOf u)
    (v : TaskId) (l : List TaskId) (hv : v ∈ F)
    (hch : List.Chain (adjStep adj) v (l ++ [v])) : False := by
  have hup : ∀ (a : TaskId) (m : List TaskId), a ∈ F →
      List.Chain (adjStep adj) a m →
      List.Chain (fun x y => adjStep adj x y ∧ x ∈ F ∧ y ∈ F) a m := by
    intro a m
    induction m generalizing a with
    | nil => intro _ _; exact List.Chain.nil
    | cons b m ihm =>
      intro ha hch2
      rw [List.chain_cons] at hch2 ⊢
      have hb : b ∈ F := (hranked a ha b hch2.1).1
      exact ⟨⟨hch2.1, ha, hb⟩, ihm b hb hch2.2⟩
  have hchain2 := hup v (l ++ [v]) hv hch
  have hf : ∀ a b, (adjStep adj a b ∧ a ∈ F ∧ b ∈ F) →
      (fun u => F.length - F.indexOf u) a < (fun u => F.length - F.indexOf u) b := by
    rintro a b ⟨hab, ha, hb⟩
    have h1 := (hranked a ha b hab).2
    have h2 : F.indexOf a < F.length := List.indexOf_lt_length.2 ha
    simp only
    omega
  have hlt := chain_rank_lt hf v (l ++ [v]) hchain2 v (by simp)
  exact absurd hlt (lt_irrefl _)

theorem jsIndexOf_of_mem (l : List TaskId) (n : TaskId) (h : n ∈ l) :
    jsIndexOf l n = (l.indexOf n : Int) := by
  simp [jsIndexOf, h]

theorem jsIndexOf_ne_neg_of_mem (l : List TaskId) (n : TaskId) (h : n ∈ l) :
    jsIndexOf l n ≠ -1 := by
  simp [jsIndexOf, h]

theorem jsGet_dependsOnMapOf_none (tasks : List (TaskId × List TaskId))
    (u : TaskId) (h : u ∉ tasks.map (fun t => t.1)) :
    jsGet (dependsOnMapOf tasks) u = none := by
  unfold dependsOnMapOf
  rw [foldl_jsSet_pres tasks [] u
    (fun r hr hc => h (hc ▸ List.mem_map_of_mem (fun t => t.1) hr))]
  rfl

theorem dfsSet_cycles_mono (adj : List (TaskId × List TaskId)) :
    ∀ (fuel : Nat) (s : SetDfsState) (node : TaskId) (path : List TaskId),
      ∃ C, (dfsSet adj fuel s node path).cycles = s.cycles ++ C := by
  intro fuel
  induction fuel with
  | zero =>
    intro s node path
    refine ⟨[], ?_⟩
    rw [dfsSet]
    simp
  | succ fuel ih =>
    intro s node path
    rw [dfsSet]
    dsimp only
    have hfold : ∀ (ns : List TaskId) (st : SetDfsState),
        ∃ C, ((ns.foldl (fun st n =>
            if n ∉ st.visited then dfsSet adj fuel st n (path ++ [node])
            else if n ∈ st.recStack then
              let i := jsIndexOf (path ++ [node]) n
              if i ≠ -1 then
                { st with cycles :=
                    st.cycles ++ [(path ++ [node]).drop i.toNat ++ [n]] }
              else st
            else st) st).cycles) = st.cycles ++ C := by
      intro ns
      induction ns with
      | nil => intro st; exact ⟨[], by simp⟩
      | cons n rest ihn =>
        intro st
        simp only [List.foldl_cons]
        by_cases hv : n ∉ st.visited
        · rw [if_pos hv]
          obtain ⟨C1, h1⟩ := ih st n (path ++ [node])
          obtain ⟨C2, h2⟩ := ihn (dfsSet adj fuel st n (path ++ [node]))
          exact ⟨C1 ++ C2, by rw [h2, h1, List.append_assoc]⟩
        · rw [if_neg hv]
          by_cases hr : n ∈ st.recStack
          · rw [if_pos hr]
            by_cases hi : jsIndexOf (path ++ [node]) n ≠ -1
            · dsimp only
              rw [if_pos hi]
              obtain ⟨C2, h2⟩ := ihn { st with cycles := st.cycles ++
                [(path ++ [node]).drop (jsIndexOf (path ++ [node]) n).toNat ++ [n]] }
              refine ⟨[(path ++ [node]).drop (jsIndexOf (path ++ [node]) n).toNat
                ++ [n]] ++ C2, ?_⟩
              rw [h2]
              simp
            · dsimp only
              rw [if_neg hi]
              exact ihn st
          · rw [if_neg hr]
            exact ihn st
    obtain ⟨C, hC⟩ := hfold ((jsGet adj node).getD [])
      { visited := jsInsert s.visited node,
        recStack := jsInsert s.recStack node, cycles := s.cycles }
    exact ⟨C, hC⟩

theorem dfsSetFold_cycles_mono (adj : List (TaskId × List TaskId)) (fuel : Nat)
    (p : List TaskId) :
    ∀ (ns : List TaskId) (st : SetDfsState),
      ∃ C, ((ns.foldl (fun st n =>
          if n ∉ st.visited then dfsSet adj fuel st n p
          else if n ∈ st.recStack then
            let i := jsIndexOf p n
            if i ≠ -1 then
              { st with cycles := st.cycles ++ [p.drop i.toNat ++ [n]] }
            else st
          else st) st).cycles) = st.cycles ++ C := by
  intro ns
  induction ns with
  | nil => intro st; exact ⟨[], by simp⟩
  | cons n rest ihn =>
    intro st
    simp only [List.foldl_cons]
    by_cases hv : n ∉ st.visited
    · rw [if_pos hv]
      obtain ⟨C1, h1⟩ := dfsSet_cycles_mono adj fuel st n p
      obtain ⟨C2, h2⟩ := ihn (dfsSet adj fuel st n p)
      exact ⟨C1 ++ C2, by rw [h2, h1, List.append_assoc]⟩
    · rw [if_neg hv]
      by_cases hr : n ∈ st.recStack
      · rw [if_pos hr]
        by_cases hi : jsIndexOf p n ≠ -1
        · dsimp only
          rw [if_pos hi]
          obtain ⟨C2, h2⟩ := ihn { st with cycles := st.cycles ++
            [p.drop (jsIndexOf p n).toNat ++ [n]] }
          refine ⟨[p.drop (jsIndexOf p n).toNat ++ [n]] ++ C2, ?_⟩
          rw [h2]
          simp
        · dsimp only
          rw [if_neg hi]
          exact ihn st
      · rw [if_neg hr]
        exact ihn st

/-- Ranked-finish invariant for the neighbor-checking DFS: a call on an
unvisited node in a run that reports no cycle finishes the node and all newly
visited nodes, extending the finish ranking so that every edge out of a
finished node points strictly earlier in the ranking. -/
theorem dfsSet_complete_aux (adj : List (TaskId × List TaskId)) (U : List TaskId)
    (hUclose : ∀ u, ∀ n ∈ (jsGet adj u).getD [], n ∈ U) :
    ∀ (fuel : Nat) (s : SetDfsState) (node : TaskId) (path : List TaskId)
      (F : List TaskId),
      s.recStack = path →
      node ∉ s.visited →
      node ∈ U →
      (∀ u, u ∈ s.visited ↔ (u ∈ F ∨ u ∈ s.recStack)) →
      s.visited.Nodup →
      (∀ u ∈ s.visited, u ∈ U) →
      (∀ u ∈ s.recStack, u ∈ s.visited) →
      F.Nodup →
      (∀ u ∈ F, u ∉ s.recStack) →
      (∀ u ∈ F, ∀ n ∈ (jsGet adj u).getD [],
        n ∈ F ∧ F.indexOf n < F.indexOf u) →
      U.length + 1 ≤ fuel + s.visited.length →
      (dfsSet adj fuel s node path).cycles = s.cycles →
      ∃ Δv Δf,
        (dfsSet adj fuel s node path).recStack = s.recStack ∧
        (dfsSet adj fuel s node path).visited = s.visited ++ Δv ∧
        (∀ u, u ∈ Δf ↔ u ∈ Δv) ∧
        (s.visited ++ Δv).Nodup ∧
        (∀ u ∈ Δv, u ∈ U) ∧
        (F ++ Δf).Nodup ∧
        (∀ u ∈ F ++ Δf, u ∉ s.recStack) ∧
        (∀ u ∈ F ++ Δf, ∀ n ∈ (jsGet adj u).getD [],
          n ∈ F ++ Δf ∧ (F ++ Δf).indexOf n < (F ++ Δf).indexOf u) ∧
        (∀ u, u ∈ (dfsSet adj fuel s node path).visited ↔
          (u ∈ F ++ Δf ∨ u ∈ s.recStack)) ∧
        node ∈ Δf := by
  intro fuel
  induction fuel with
  | zero =>
    intro s node path F h_rs h_nv h_nU h_iff h_vnd h_vU h_rv h_Fnd h_Fdisj h_rank
      h_fuel hHC
    exfalso
    have hb := nodup_subset_length s.visited U h_vnd h_vU
    omega
  | succ fuel ih =>
    intro s node path F h_rs h_nv h_nU h_iff h_vnd h_vU h_rv h_Fnd h_Fdisj h_rank
      h_fuel hHC
    have hFsubV : ∀ u ∈ F, u ∈ s.visited := fun u hu => (h_iff u).2 (Or.inl hu)
    have h_nr : node ∉ s.recStack := fun hc => h_nv (h_rv node hc)
    have h_nF : node ∉ F := fun hc => h_nv (hFsubV node hc)
    have hinsV : jsInsert s.visited node = s.visited ++ [node] := by
      unfold jsInsert
      rw [if_neg h_nv]
    have hinsR : jsInsert s.recStack node = s.recStack ++ [node] := by
      unfold jsInsert
      rw [if_neg h_nr]
    rw [dfsSet] at hHC ⊢
    dsimp only at hHC ⊢
    have hfold : ∀ (ns : List TaskId), (∀ n ∈ ns, n ∈ U) →
        ∀ (st : SetDfsState) (F1 : List TaskId),
        st.recStack = path ++ [node] →
        (∀ u, u ∈ st.visited ↔ (u ∈ F1 ∨ u ∈ st.recStack)) →
        st.visited.Nodup →
        (∀ u ∈ st.visited, u ∈ U) →
        (∀ u ∈ st.recStack, u ∈ st.visited) →
        F1.Nodup →
        (∀ u ∈ F1, u ∉ st.recStack) →
        (∀ u ∈ F1, ∀ n ∈ (jsGet adj u).getD [],
          n ∈ F1 ∧ F1.indexOf n < F1.indexOf u) →
        U.length + 1 ≤ fuel + st.visited.length →
        ((ns.foldl (fun st n =>
            if n ∉ st.visited then dfsSet adj fuel st n (path ++ [node])
            else if n ∈ st.recStack then
              let i := jsIndexOf (path ++ [node]) n
              if i ≠ -1 then
                { st with cycles :=
                    st.cycles ++ [(path ++ [node]).drop i.toNat ++ [n]] }
              else st
            else st) st).cycles = st.cycles) →
        ∃ Δv Δf,
          ((ns.foldl (fun st n =>
            if n ∉ st.visited then dfsSet adj fuel st n (path ++ [node])
            else if n ∈ st.recStack then
              let i := jsIndexOf (path ++ [node]) n
              if i ≠ -1 then
                { st with cycles :=
                    st.cycles ++ [(path ++ [node]).drop i.toNat ++ [n]] }
              else st
            else st) st).recStack = st.recStack) ∧
          ((ns.foldl (fun st n =>
            if n ∉ st.visited then dfsSet adj fuel st n (path ++ [node])
            else if n ∈ st.recStack then
              let i := jsIndexOf (path ++ [node]) n
              if i ≠ -1 then
                { st with cycles :=
                    st.cycles ++ [(path ++ [node]).drop i.toNat ++ [n]] }
              else st
            else st) st).visited = st.visited ++ Δv) ∧
          (∀ u, u ∈ Δf ↔ u ∈ Δv) ∧
          (st.visited ++ Δv).Nodup ∧
          (∀ u ∈ Δv, u ∈ U) ∧
          (F1 ++ Δf).Nodup ∧
          (∀ u ∈ F1 ++ Δf, u ∉ st.recStack) ∧
          (∀ u ∈ F1 ++ Δf, ∀ n ∈ (jsGet adj u).getD [],
            n ∈ F1 ++ Δf ∧ (F1 ++ Δf).indexOf n < (F1 ++ Δf).indexOf u) ∧
          (∀ u, u ∈ ((ns.foldl (fun st n =>
            if n ∉ st.visited then dfsSet adj fuel st n (path ++ [node])
            else if n ∈ st.recStack then
              let i := jsIndexOf (path ++ [node]) n
              if i ≠ -1 then
                { st with cycles :=
                    st.cycles ++ [(path ++ [node]).drop i.toNat ++ [n]] }
              else st
            else st) st).visited) ↔ (u ∈ F1 ++ Δf ∨ u ∈ st.recStack)) ∧
          (∀ n ∈ ns, n ∈ F1 ++ Δf) := by
      intro ns
      induction ns with
      | nil =>
        intro _ st F1 g1 g2 g3 g4 g5 g6 g7 g8 _ _
        exact ⟨[], [], rfl, by simp, by simp, by simpa using g3, by simp,
          by simpa using g6, by simpa using g7, by simpa using g8,
          by simpa using g2, by simp⟩
      | cons n rest ihn =>
        intro hns st F1 g1 g2 g3 g4 g5 g6 g7 g8 g9 hHC2
        simp only [List.foldl_cons] at hHC2 ⊢
        by_cases hv : n ∈ st.visited
        · have hnv2 : ¬ (n ∉ st.visited) := not_not_intro hv
          rw [if_neg hnv2] at hHC2 ⊢
          by_cases hr : n ∈ st.recStack
          · exfalso
            rw [if_pos hr] at hHC2
            have hmem : n ∈ path ++ [node] := g1 ▸ hr
            have hi : jsIndexOf (path ++ [node]) n ≠ -1 :=
              jsIndexOf_ne_neg_of_mem _ n hmem
            rw [if_pos hi] at hHC2
            obtain ⟨C2, hC2⟩ := dfsSetFold_cycles_mono adj fuel (path ++ [node])
              rest { st with cycles := st.cycles ++
                [(path ++ [node]).drop (jsIndexOf (path ++ [node]) n).toNat ++ [n]] }
            rw [hC2] at hHC2
            have hlen := congrArg List.length hHC2
            simp [List.length_append] at hlen
          · rw [if_neg hr] at hHC2 ⊢
            have hnF1 : n ∈ F1 := by
              rcases (g2 n).1 hv with h | h
              · exact h
              · exact absurd h hr
            obtain ⟨Δv, Δf, b1, b2, b3, b4, b5, b6, b7, b8, b9, b10⟩ :=
              ihn (fun m hm => hns m (List.mem_cons_of_mem _ hm)) st F1 g1 g2 g3
                g4 g5 g6 g7 g8 g9 hHC2
            refine ⟨Δv, Δf, b1, b2, b3, b4, b5, b6, b7, b8, b9, ?_⟩
            intro m hm
            rcases List.mem_cons.1 hm with rfl | hm2
            · exact List.mem_append_left _ hnF1
            · exact b10 m hm2
        · rw [if_pos hv] at hHC2 ⊢
          obtain ⟨C1, hC1⟩ := dfsSet_cycles_mono adj fuel st n (path ++ [node])
          obtain ⟨C2, hC2⟩ := dfsSetFold_cycles_mono adj fuel (path ++ [node])
            rest (dfsSet adj fuel st n (path ++ [node]))
          have hC1nil : (dfsSet adj fuel st n (path ++ [node])).cycles =
              st.cycles := by
            rw [hC2, hC1] at hHC2
            have hlen := congrArg List.length hHC2
            simp [List.length_append] at hlen
            rw [hC1, hlen.1, List.append_nil]
          obtain ⟨Δv1, Δf1, a1, a2, a3, a4, a5, a6, a7, a8, a9, a10⟩ :=
            ih st n (path ++ [node]) F1 g1 hv (hns n (List.mem_cons_self _ _))
              g2 g3 g4 g5 g6 g7 g8 g9 hC1nil
          obtain ⟨Δv2, Δf2, b1, b2, b3, b4, b5, b6, b7, b8, b9, b10⟩ :=
            ihn (fun m hm => hns m (List.mem_cons_of_mem _ hm))
              (dfsSet adj fuel st n (path ++ [node])) (F1 ++ Δf1)
              (a1.trans g1)
              (fun u => (a1 ▸ a9 u))
              (by rw [a2]; exact a4)
              (by
                rw [a2]
                intro u hu
                rcases List.mem_append.1 hu with hu | hu
                · exact g4 u hu
                · exact a5 u hu)
              (by
                rw [a1, a2]
                intro u hu
                exact List.mem_append_left _ (g5 u hu))
              a6
              (by rw [a1]; exact a7)
              a8
              (by
                rw [a2, List.length_append]
                omega)
              (by rw [hC1nil]; exact hHC2)
          refine ⟨Δv1 ++ Δv2, Δf1 ++ Δf2, ?_, ?_, ?_, ?_, ?_, ?_, ?_, ?_, ?_, ?_⟩
          · rw [b1, a1]
          · rw [b2, a2, List.append_assoc]
          · intro u
            simp only [List.mem_append, a3 u, b3 u]
          · have h4 := b4
            rw [a2, List.append_assoc] at h4
            exact h4
          · intro u hu
            rcases List.mem_append.1 hu with hu | hu
            · exact a5 u hu
            · exact b5 u hu
          · have h6 := b6
            rw [List.append_assoc] at h6
            exact h6
          · intro u hu
            have h7 := b7 u (by rw [List.append_assoc]; exact hu)
            rw [a1] at h7
            exact h7
          · have h8 := b8
            rw [List.append_assoc] at h8
            exact h8
          · intro u
            have h9 := b9 u
            rw [a1, List.append_assoc] at h9
            exact h9
          · intro m hm
            rcases List.mem_cons.1 hm with rfl | hm2
            · exact List.mem_append_right _ (List.mem_append_left _ a10)
            · have hb := b10 m hm2
              rw [List.append_assoc] at hb
              exact hb
    obtain ⟨Δv, Δf, c1, c2, c3, c4, c5, c6, c7, c8, c9, c10⟩ :=
      hfold ((jsGet adj node).getD []) (hUclose node)
        { visited := jsInsert s.visited node,
          recStack := jsInsert s.recStack node, cycles := s.cycles } F
        (by dsimp only; rw [hinsR, h_rs])
        (by
          intro u
          dsimp only
          rw [hinsV, hinsR]
          simp only [List.mem_append, List.mem_singleton]
          rw [h_iff u]
          tauto)
        (by
          dsimp only
          rw [hinsV, List.nodup_append]
          exact ⟨h_vnd, List.nodup_singleton _,
            fun a ha hb => h_nv ((List.mem_singleton.1 hb) ▸ ha)⟩)
        (by
          dsimp only
          rw [hinsV]
          intro u hu
          rcases List.mem_append.1 hu with hu | hu
          · exact h_vU u hu
          · exact (List.mem_singleton.1 hu) ▸ h_nU)
        (by
          dsimp only
          rw [hinsV, hinsR]
          intro u hu
          rcases List.mem_append.1 hu with hu | hu
          · exact List.mem_append_left _ (h_rv u hu)
          · exact List.mem_append_right _ hu)
        h_Fnd
        (by
          dsimp only
          rw [hinsR]
          intro u hu hc
          rcases List.mem_append.1 hc with hc | hc
          · exact h_Fdisj u hu hc
          · exact h_nF ((List.mem_singleton.1 hc) ▸ hu))
        h_rank
        (by
          dsimp only
          rw [hinsV, List.length_append]
          simp only [List.length_singleton]
          omega)
        hHC
    refine ⟨node :: Δv, Δf ++ [node], ?_, ?_, ?_, ?_, ?_, ?_, ?_, ?_, ?_, by simp⟩
    · dsimp only
      rw [c1]
      dsimp only
      rw [hinsR, List.erase_append_right _ h_nr, List.erase_cons_head,
        List.append_nil]
    · dsimp only
      rw [c2]
      dsimp only
      rw [hinsV, List.append_assoc]
      rfl
    · intro u
      simp only [List.mem_append, List.mem_singleton, List.mem_cons, c3 u]
      tauto
    · have h4 := c4
      dsimp only at h4
      rw [hinsV, List.append_assoc] at h4
      exact h4
    · intro u hu
      rcases List.mem_cons.1 hu with rfl | hu2
      · exact h_nU
      · exact c5 u hu2
    · rw [← List.append_assoc, List.nodup_append]
      refine ⟨c6, List.nodup_singleton _, ?_⟩
      intro a ha hb
      have h7 := c7 a ha
      dsimp only at h7
      rw [hinsR] at h7
      exact h7 (List.mem_append_right _ ((List.mem_singleton.1 hb) ▸ List.mem_singleton.2 rfl))
    · intro u hu
      rw [← List.append_assoc] at hu
      rcases List.mem_append.1 hu with hu2 | hu2
      · have h7 := c7 u hu2
        dsimp only at h7
        rw [hinsR] at h7
        exact fun hc => h7 (List.mem_append_left _ hc)
      · exact (List.mem_singleton.1 hu2) ▸ h_nr
    · have hnodeF2 : node ∉ F ++ Δf := by
        intro hc
        have h7 := c7 node hc
        dsimp only at h7
        rw [hinsR] at h7
        exact h7 (List.mem_append_right _ (List.mem_singleton.2 rfl))
      simp only [← List.append_assoc]
      intro u hu n hn
      rcases List.mem_append.1 hu with hu2 | hu2
      · obtain ⟨hnF, hlt⟩ := c8 u hu2 n hn
        rw [indexOf_append_left _ _ n hnF, indexOf_append_left _ _ u hu2]
        exact ⟨List.mem_append_left _ hnF, hlt⟩
      · have hun : u = node := List.mem_singleton.1 hu2
        subst hun
        have hnF : n ∈ F ++ Δf := c10 n hn
        rw [indexOf_append_left _ _ n hnF,
          indexOf_append_cons_self (F ++ Δf) [] u hnodeF2]
        refine ⟨List.mem_append_left _ hnF, ?_⟩
        exact List.indexOf_lt_length.2 hnF
    · intro u
      have h9 := c9 u
      dsimp only at h9
      rw [h9, hinsR]
      simp only [List.mem_append, List.mem_singleton]
      tauto

theorem dfsSetRoots_cycles_mono (adj : List (TaskId × List TaskId)) (fuel : Nat) :
    ∀ (roots : List TaskId) (s0 : SetDfsState),
      ∃ C, ((roots.foldl
        (fun s t => if t ∉ s.visited then dfsSet adj fuel s t [] else s)
        s0).cycles) = s0.cycles ++ C := by
  intro roots
  induction roots with
  | nil => intro s0; exact ⟨[], by simp⟩
  | cons r roots ihr =>
    intro s0
    simp only [List.foldl_cons]
    by_cases hv : r ∉ s0.visited
    · rw [if_pos hv]
      obtain ⟨C1, h1⟩ := dfsSet_cycles_mono adj fuel s0 r []
      obtain ⟨C2, h2⟩ := ihr (dfsSet adj fuel s0 r [])
      exact ⟨C1 ++ C2, by rw [h2, h1, List.append_assoc]⟩
    · rw [if_neg hv]
      exact ihr s0

/-- A full root sweep of the neighbor-checking DFS that reports no cycle
produces a finish ranking covering every root. -/
theorem dfsSet_roots_complete (adj : List (TaskId × List TaskId))
    (U : List TaskId)
    (hUclose : ∀ u, ∀ n ∈ (jsGet adj u).getD [], n ∈ U) (fuel : Nat)
    (hfuel : U.length + 1 ≤ fuel) :
    ∀ (roots : List TaskId), (∀ r ∈ roots, r ∈ U) →
    ∀ (s0 : SetDfsState) (F0 : List TaskId),
      s0.recStack = [] →
      (∀ u, u ∈ s0.visited ↔ u ∈ F0) →
      s0.visited.Nodup →
      (∀ u ∈ s0.visited, u ∈ U) →
      F0.Nodup →
      (∀ u ∈ F0, ∀ n ∈ (jsGet adj u).getD [],
        n ∈ F0 ∧ F0.indexOf n < F0.indexOf u) →
      ((roots.foldl
        (fun s t => if t ∉ s.visited then dfsSet adj fuel s t [] else s)
        s0).cycles = s0.cycles) →
      ∃ F : List TaskId, F.Nodup ∧
        (∀ u ∈ F0, u ∈ F) ∧
        (∀ u ∈ F, ∀ n ∈ (jsGet adj u).getD [],
          n ∈ F ∧ F.indexOf n < F.indexOf u) ∧
        (∀ r ∈ roots, r ∈ F) := by
  intro roots
  induction roots with
  | nil =>
    intro _ s0 F0 _ _ _ _ hF0nd hF0rank _
    exact ⟨F0, hF0nd, fun u hu => hu, hF0rank, by simp⟩
  | cons r roots ihr =>
    intro hroots s0 F0 h_rs h_iff h_vnd h_vU hF0nd hF0rank hHC
    simp only [List.foldl_cons] at hHC
    by_cases hv : r ∈ s0.visited
    · rw [if_neg (not_not_intro hv)] at hHC
      obtain ⟨F, hFnd, hFsup, hFrank, hFroots⟩ :=
        ihr (fun x hx => hroots x (List.mem_cons_of_mem _ hx)) s0 F0 h_rs h_iff
          h_vnd h_vU hF0nd hF0rank hHC
      refine ⟨F, hFnd, hFsup, hFrank, ?_⟩
      intro x hx
      rcases List.mem_cons.1 hx with rfl | hx2
      · exact hFsup x ((h_iff x).1 hv)
      · exact hFroots x hx2
    · rw [if_pos hv] at hHC
      obtain ⟨C1, hC1⟩ := dfsSet_cycles_mono adj fuel s0 r []
      obtain ⟨C2, hC2⟩ := dfsSetRoots_cycles_mono adj fuel roots
        (dfsSet adj fuel s0 r [])
      have hC1nil : (dfsSet adj fuel s0 r []).cycles = s0.cycles := by
        rw [hC2, hC1] at hHC
        have hlen := congrArg List.length hHC
        simp [List.length_append] at hlen
        rw [hC1, hlen.1, List.append_nil]
      obtain ⟨Δv, Δf, a1, a2, a3, a4, a5, a6, a7, a8, a9, a10⟩ :=
        dfsSet_complete_aux adj U hUclose fuel s0 r [] F0 h_rs hv
          (hroots r (List.mem_cons_self _ _))
          (by
            intro u
            rw [h_iff u, h_rs]
            simp)
          h_vnd h_vU
          (by rw [h_rs]; intro u hu; simp at hu)
          hF0nd
          (by rw [h_rs]; intro u _ hc; simp at hc)
          hF0rank
          (by omega)
          hC1nil
      obtain ⟨F, hFnd, hFsup, hFrank, hFroots⟩ :=
        ihr (fun x hx => hroots x (List.mem_cons_of_mem _ hx))
          (dfsSet adj fuel s0 r []) (F0 ++ Δf)
          (a1.trans h_rs)
          (by
            intro u
            rw [a9 u, h_rs]
            simp)
          (by rw [a2]; exact a4)
          (by
            rw [a2]
            intro u hu
            rcases List.mem_append.1 hu with hu | hu
            · exact h_vU u hu
            · exact a5 u hu)
          a6 a8
          (by rw [hC1nil]; exact hHC)
      refine ⟨F, hFnd, fun u hu => hFsup u (List.mem_append_left _ hu),
        hFrank, ?_⟩
      intro x hx
      rcases List.mem_cons.1 hx with rfl | hx2
      · exact hFsup x (List.mem_append_right _ a10)
      · exact hFroots x hx2

/-- Completeness of updateGraph's cycle detection: a cyclic dependency set
always produces at least one reported cycle. -/
theorem detectCyclesUpdate_complete (ids : List TaskId) (E : List Dep)
    (hval : ∀ e ∈ E, e.task_id ∈ ids ∧ e.depends_on_task_id ∈ ids)
    (h0 : detectCyclesUpdate ids E = []) : ¬ HasCycle E := by
  intro hcyc
  unfold detectCyclesUpdate at h0
  dsimp only at h0
  have hback : ∀ k, jsGet (E.foldl
      (fun m d => jsSet m d.task_id ((jsGet m d.task_id).getD [] ++ [d.depends_on_task_id]))
      (ids.foldl (fun m t => jsSet m t []) [])) k =
      if k ∈ ids then some (prereqsOf E k) else none :=
    buildGraphBack_get ids E (fun e he => (hval e he).1)
  have hUclose : ∀ u, ∀ n ∈ (jsGet (E.foldl
      (fun m d => jsSet m d.task_id ((jsGet m d.task_id).getD [] ++ [d.depends_on_task_id]))
      (ids.foldl (fun m t => jsSet m t []) [])) u).getD [], n ∈ ids := by
    intro u n hn
    rw [hback u] at hn
    by_cases hu : u ∈ ids
    · rw [if_pos hu] at hn
      simp only [Option.getD_some] at hn
      exact prereqsOf_subset E ids hval u n hn
    · rw [if_neg hu] at hn
      simp at hn
  have hfuel : ids.length + 1 ≤ dfsFuel ids (E.foldl
      (fun m d => jsSet m d.task_id ((jsGet m d.task_id).getD [] ++ [d.depends_on_task_id]))
      (ids.foldl (fun m t => jsSet m t []) [])) := by
    unfold dfsFuel
    omega
  obtain ⟨F, hFnd, _, hFrank, hFroots⟩ :=
    dfsSet_roots_complete _ ids hUclose _ hfuel ids (fun r hr => hr)
      { visited := [], recStack := [], cycles := [] } []
      rfl (by intro u; simp) List.nodup_nil (by intro u hu; simp at hu)
      List.nodup_nil (by intro u hu; simp at hu) h0
  obtain ⟨v, l, hch0⟩ := hcyc
  obtain ⟨w, m, hch⟩ := @hasCycle_flip (stepRel E)
    (adjStep (E.foldl
      (fun m d => jsSet m d.task_id ((jsGet m d.task_id).getD [] ++ [d.depends_on_task_id]))
      (ids.foldl (fun m t => jsSet m t []) [])))
    (fun a b hab => by
      rcases hab with ⟨e, he, hdep, htask⟩
      subst hdep
      subst htask
      show e.depends_on_task_id ∈ (jsGet (E.foldl
        (fun m d => jsSet m d.task_id ((jsGet m d.task_id).getD [] ++ [d.depends_on_task_id]))
        (ids.foldl (fun m t => jsSet m t []) [])) e.task_id).getD []
      rw [hback e.task_id, if_pos (hval e he).1]
      simp only [Option.getD_some]
      exact List.mem_map.2 ⟨e, List.mem_filter.2 ⟨he, by simp⟩, rfl⟩) v l hch0
  have hw_ids : w ∈ ids := by
    have hstep1 : ∃ y, adjStep (E.foldl
        (fun m d => jsSet m d.task_id ((jsGet m d.task_id).getD [] ++ [d.depends_on_task_id]))
        (ids.foldl (fun m t => jsSet m t []) [])) w y := by
      cases m with
      | nil => exact ⟨w, (List.chain_cons.1 hch).1⟩
      | cons x m2 => exact ⟨x, (List.chain_cons.1 hch).1⟩
    obtain ⟨y, hy⟩ := hstep1
    have hy2 : y ∈ (jsGet (E.foldl
        (fun m d => jsSet m d.task_id ((jsGet m d.task_id).getD [] ++ [d.depends_on_task_id]))
        (ids.foldl (fun m t => jsSet m t []) [])) w).getD [] := hy
    by_contra hw
    rw [hback w, if_neg hw] at hy2
    simp at hy2
  exact no_cycle_of_ranked _ F hFrank w m (hFroots w hw_ids) hch

theorem dfsEntry_cycles_mono (adj : List (TaskId × List TaskId)) :
    ∀ (fuel : Nat) (s : SetDfsState) (task : TaskId) (path : List TaskId),
      ∃ C, (dfsEntry adj fuel s task path).cycles = s.cycles ++ C := by
  intro fuel
  induction fuel with
  | zero =>
    intro s task path
    refine ⟨[], ?_⟩
    rw [dfsEntry]
    simp
  | succ fuel ih =>
    intro s task path
    rw [dfsEntry]
    by_cases hr : task ∈ s.recStack
    · rw [if_pos hr]
      exact ⟨[path.drop (path.indexOf task) ++ [task]], rfl⟩
    · rw [if_neg hr]
      by_cases hv : task ∈ s.visited
      · rw [if_pos hv]
        exact ⟨[], by simp⟩
      · rw [if_neg hv]
        dsimp only
        have hfold : ∀ (ns : List TaskId) (st : SetDfsState),
            ∃ C, ((ns.foldl
              (fun st dep => dfsEntry adj fuel st dep (path ++ [task]))
              st).cycles) = st.cycles ++ C := by
          intro ns
          induction ns with
          | nil => intro st; exact ⟨[], by simp⟩
          | cons n rest ihn =>
            intro st
            simp only [List.foldl_cons]
            obtain ⟨C1, h1⟩ := ih st n (path ++ [task])
            obtain ⟨C2, h2⟩ := ihn (dfsEntry adj fuel st n (path ++ [task]))
            exact ⟨C1 ++ C2, by rw [h2, h1, List.append_assoc]⟩
        obtain ⟨C, hC⟩ := hfold ((jsGet adj task).getD [])
          { visited := jsInsert s.visited task,
            recStack := jsInsert s.recStack task, cycles := s.cycles }
        exact ⟨C, hC⟩

theorem dfsEntryFold_cycles_mono (adj : List (TaskId × List TaskId)) (fuel : Nat)
    (p : List TaskId) :
    ∀ (ns : List TaskId) (st : SetDfsState),
      ∃ C, ((ns.foldl (fun st dep => dfsEntry adj fuel st dep p) st).cycles) =
        st.cycles ++ C := by
  intro ns
  induction ns with
  | nil => intro st; exact ⟨[], by simp⟩
  | cons n rest ihn =>
    intro st
    simp only [List.foldl_cons]
    obtain ⟨C1, h1⟩ := dfsEntry_cycles_mono adj fuel st n p
    obtain ⟨C2, h2⟩ := ihn (dfsEntry adj fuel st n p)
    exact ⟨C1 ++ C2, by rw [h2, h1, List.append_assoc]⟩

/-- Ranked-finish invariant for the entry-checking DFS of createGraph: in a
run that reports no cycle, a call leaves the recursion stack unchanged,
extends the finish ranking consistently and ends with the entered task
ranked. -/
theorem dfsEntry_complete_aux (adj : List (TaskId × List TaskId))
    (U : List TaskId)
    (hUclose : ∀ u, ∀ n ∈ (jsGet adj u).getD [], n ∈ U) :
    ∀ (fuel : Nat) (s : SetDfsState) (task : TaskId) (path : List TaskId)
      (F : List TaskId),
      s.recStack = path →
      task ∈ U →
      (∀ u, u ∈ s.visited ↔ (u ∈ F ∨ u ∈ s.recStack)) →
      s.visited.Nodup →
      (∀ u ∈ s.visited, u ∈ U) →
      (∀ u ∈ s.recStack, u ∈ s.visited) →
      F.Nodup →
      (∀ u ∈ F, u ∉ s.recStack) →
      (∀ u ∈ F, ∀ n ∈ (jsGet adj u).getD [],
        n ∈ F ∧ F.indexOf n < F.indexOf u) →
      U.length + 1 ≤ fuel + s.visited.length →
      (dfsEntry adj fuel s task path).cycles = s.cycles →
      ∃ Δv Δf,
        (dfsEntry adj fuel s task path).recStack = s.recStack ∧
        (dfsEntry adj fuel s task path).visited = s.visited ++ Δv ∧
        (∀ u, u ∈ Δf ↔ u ∈ Δv) ∧
        (s.visited ++ Δv).Nodup ∧
        (∀ u ∈ Δv, u ∈ U) ∧
        (F ++ Δf).Nodup ∧
        (∀ u ∈ F ++ Δf, u ∉ s.recStack) ∧
        (∀ u ∈ F ++ Δf, ∀ n ∈ (jsGet adj u).getD [],
          n ∈ F ++ Δf ∧ (F ++ Δf).indexOf n < (F ++ Δf).indexOf u) ∧
        (∀ u, u ∈ (dfsEntry adj fuel s task path).visited ↔
          (u ∈ F ++ Δf ∨ u ∈ s.recStack)) ∧
        task ∈ F ++ Δf := by
  intro fuel
  induction fuel with
  | zero =>
    intro s task path F h_rs h_tU h_iff h_vnd h_vU h_rv h_Fnd h_Fdisj h_rank
      h_fuel hHC
    exfalso
    have hb := nodup_subset_length s.visited U h_vnd h_vU
    omega
  | succ fuel ih =>
    intro s task path F h_rs h_tU h_iff h_vnd h_vU h_rv h_Fnd h_Fdisj h_rank
      h_fuel hHC
    rw [dfsEntry] at hHC ⊢
    by_cases hr : task ∈ s.recStack
    · exfalso
      rw [if_pos hr] at hHC
      have hlen := congrArg List.length hHC
      simp [List.length_append] at hlen
    · rw [if_neg hr] at hHC ⊢
      by_cases hv : task ∈ s.visited
      · rw [if_pos hv] at hHC ⊢
        have htF : task ∈ F := by
          rcases (h_iff task).1 hv with h | h
          · exact h
          · exact absurd h hr
        exact ⟨[], [], rfl, by simp, by simp, by simpa using h_vnd, by simp,
          by simpa using h_Fnd, by simpa using h_Fdisj, by simpa using h_rank,
          by simpa using h_iff, by simpa using htF⟩
      · rw [if_neg hv] at hHC ⊢
        dsimp only at hHC ⊢
        have hFsubV : ∀ u ∈ F, u ∈ s.visited := fun u hu => (h_iff u).2 (Or.inl hu)
        have h_nF : task ∉ F := fun hc => hv (hFsubV task hc)
        have hinsV : jsInsert s.visited task = s.visited ++ [task] := by
          unfold jsInsert
          rw [if_neg hv]
        have hinsR : jsInsert s.recStack task = s.recStack ++ [task] := by
          unfold jsInsert
          rw [if_neg hr]
        have hfold : ∀ (ns : List TaskId), (∀ n ∈ ns, n ∈ U) →
            ∀ (st : SetDfsState) (F1 : List TaskId),
            st.recStack = path ++ [task] →
            (∀ u, u ∈ st.visited ↔ (u ∈ F1 ∨ u ∈ st.recStack)) →
            st.visited.Nodup →
            (∀ u ∈ st.visited, u ∈ U) →
            (∀ u ∈ st.recStack, u ∈ st.visited) →
            F1.Nodup →
            (∀ u ∈ F1, u ∉ st.recStack) →
            (∀ u ∈ F1, ∀ n ∈ (jsGet adj u).getD [],
              n ∈ F1 ∧ F1.indexOf n < F1.indexOf u) →
            U.length + 1 ≤ fuel + st.visited.length →
            ((ns.foldl (fun st dep => dfsEntry adj fuel st dep (path ++ [task]))
              st).cycles = st.cycles) →
            ∃ Δv Δf,
              ((ns.foldl (fun st dep => dfsEntry adj fuel st dep (path ++ [task]))
                st).recStack = st.recStack) ∧
              ((ns.foldl (fun st dep => dfsEntry adj fuel st dep (path ++ [task]))
                st).visited = st.visited ++ Δv) ∧
              (∀ u, u ∈ Δf ↔ u ∈ Δv) ∧
              (st.visited ++ Δv).Nodup ∧
              (∀ u ∈ Δv, u ∈ U) ∧
              (F1 ++ Δf).Nodup ∧
              (∀ u ∈ F1 ++ Δf, u ∉ st.recStack) ∧
              (∀ u ∈ F1 ++ Δf, ∀ n ∈ (jsGet adj u).getD [],
                n ∈ F1 ++ Δf ∧ (F1 ++ Δf).indexOf n < (F1 ++ Δf).indexOf u) ∧
              (∀ u, u ∈ ((ns.foldl
                (fun st dep => dfsEntry adj fuel st dep (path ++ [task]))
                st).visited) ↔ (u ∈ F1 ++ Δf ∨ u ∈ st.recStack)) ∧
              (∀ n ∈ ns, n ∈ F1 ++ Δf) := by
          intro ns
          induction ns with
          | nil =>
            intro _ st F1 g1 g2 g3 g4 g5 g6 g7 g8 _ _
            exact ⟨[], [], rfl, by simp, by simp, by simpa using g3, by simp,
              by simpa using g6, by simpa using g7, by simpa using g8,
              by simpa using g2, by simp⟩
          | cons n rest ihn =>
            intro hns st F1 g1 g2 g3 g4 g5 g6 g7 g8 g9 hHC2
            simp only [List.foldl_cons] at hHC2 ⊢
            obtain ⟨C1, hC1⟩ := dfsEntry_cycles_mono adj fuel st n (path ++ [task])
            obtain ⟨C2, hC2⟩ := dfsEntryFold_cycles_mono adj fuel (path ++ [task])
              rest (dfsEntry adj fuel st n (path ++ [task]))
            have hC1nil : (dfsEntry adj fuel st n (path ++ [task])).cycles =
                st.cycles := by
              rw [hC2, hC1] at hHC2
              have hlen := congrArg List.length hHC2
              simp [List.length_append] at hlen
              rw [hC1, hlen.1, List.append_nil]
            obtain ⟨Δv1, Δf1, a1, a2, a3, a4, a5, a6, a7, a8, a9, a10⟩ :=
              ih st n (path ++ [task]) F1 g1 (hns n (List.mem_cons_self _ _))
                g2 g3 g4 g5 g6 g7 g8 g9 hC1nil
            obtain ⟨Δv2, Δf2, b1, b2, b3, b4, b5, b6, b7, b8, b9, b10⟩ :=
              ihn (fun m hm => hns m (List.mem_cons_of_mem _ hm))
                (dfsEntry adj fuel st n (path ++ [task])) (F1 ++ Δf1)
                (a1.trans g1)
                (fun u => (a1 ▸ a9 u))
                (by rw [a2]; exact a4)
                (by
                  rw [a2]
                  intro u hu
                  rcases List.mem_append.1 hu with hu | hu
                  · exact g4 u hu
                  · exact a5 u hu)
                (by
                  rw [a1, a2]
                  intro u hu
                  exact List.mem_append_left _ (g5 u hu))
                a6
                (by rw [a1]; exact a7)
                a8
                (by
                  rw [a2, List.length_append]
                  omega)
                (by rw [hC1nil]; exact hHC2)
            refine ⟨Δv1 ++ Δv2, Δf1 ++ Δf2, ?_, ?_, ?_, ?_, ?_, ?_, ?_, ?_, ?_, ?_⟩
            · rw [b1, a1]
            · rw [b2, a2, List.append_assoc]
            · intro u
              simp only [List.mem_append, a3 u, b3 u]
            · have h4 := b4
              rw [a2, List.append_assoc] at h4
              exact h4
            · intro u hu
              rcases List.mem_append.1 hu with hu | hu
              · exact a5 u hu
              · exact b5 u hu
            · have h6 := b6
              rw [List.append_assoc] at h6
              exact h6
            · intro u hu
              have h7 := b7 u (by rw [List.append_assoc]; exact hu)
              rw [a1] at h7
              exact h7
            · have h8 := b8
              rw [List.append_assoc] at h8
              exact h8
            · intro u
              have h9 := b9 u
              rw [a1, List.append_assoc] at h9
              exact h9
            · intro m hm
              rcases List.mem_cons.1 hm with rfl | hm2
              · rcases List.mem_append.1 a10 with h | h
                · exact List.mem_append_left _ h
                · exact List.mem_append_right _ (List.mem_append_left _ h)
              · have hb := b10 m hm2
                rw [List.append_assoc] at hb
                exact hb
        obtain ⟨Δv, Δf, c1, c2, c3, c4, c5, c6, c7, c8, c9, c10⟩ :=
          hfold ((jsGet adj task).getD []) (hUclose task)
            { visited := jsInsert s.visited task,
              recStack := jsInsert s.recStack task, cycles := s.cycles } F
            (by dsimp only; rw [hinsR, h_rs])
            (by
              intro u
              dsimp only
              rw [hinsV, hinsR]
              simp only [List.mem_append, List.mem_singleton]
              rw [h_iff u]
              tauto)
            (by
              dsimp only
              rw [hinsV, List.nodup_append]
              exact ⟨h_vnd, List.nodup_singleton _,
                fun a ha hb => hv ((List.mem_singleton.1 hb) ▸ ha)⟩)
            (by
              dsimp only
              rw [hinsV]
              intro u hu
              rcases List.mem_append.1 hu with hu | hu
              · exact h_vU u hu
              · exact (List.mem_singleton.1 hu) ▸ h_tU)
            (by
              dsimp only
              rw [hinsV, hinsR]
              intro u hu
              rcases List.mem_append.1 hu with hu | hu
              · exact List.mem_append_left _ (h_rv u hu)
              · exact List.mem_append_right _ hu)
            h_Fnd
            (by
              dsimp only
              rw [hinsR]
              intro u hu hc
              rcases List.mem_append.1 hc with hc | hc
              · exact h_Fdisj u hu hc
              · exact h_nF ((List.mem_singleton.1 hc) ▸ hu))
            h_rank
            (by
              dsimp only
              rw [hinsV, List.length_append]
              simp only [List.length_singleton]
              omega)
            hHC
        refine ⟨task :: Δv, Δf ++ [task], ?_, ?_, ?_, ?_, ?_, ?_, ?_, ?_, ?_,
          by simp⟩
        · dsimp only
          rw [c1]
          dsimp only
          rw [hinsR, List.erase_append_right _ hr, List.erase_cons_head,
            List.append_nil]
        · dsimp only
          rw [c2]
          dsimp only
          rw [hinsV, List.append_assoc]
          rfl
        · intro u
          simp only [List.mem_append, List.mem_singleton, List.mem_cons, c3 u]
          tauto
        · have h4 := c4
          dsimp only at h4
          rw [hinsV, List.append_assoc] at h4
          exact h4
        · intro u hu
          rcases List.mem_cons.1 hu with rfl | hu2
          · exact h_tU
          · exact c5 u hu2
        · rw [← List.append_assoc, List.nodup_append]
          refine ⟨c6, List.nodup_singleton _, ?_⟩
          intro a ha hb
          have h7 := c7 a ha
          dsimp only at h7
          rw [hinsR] at h7
          exact h7 (List.mem_append_right _
            ((List.mem_singleton.1 hb) ▸ List.mem_singleton.2 rfl))
        · intro u hu
          rw [← List.append_assoc] at hu
          rcases List.mem_append.1 hu with hu2 | hu2
          · have h7 := c7 u hu2
            dsimp only at h7
            rw [hinsR] at h7
            exact fun hc => h7 (List.mem_append_left _ hc)
          · exact (List.mem_singleton.1 hu2) ▸ hr
        · have htaskF2 : task ∉ F ++ Δf := by
            intro hc
            have h7 := c7 task hc
            dsimp only at h7
            rw [hinsR] at h7
            exact h7 (List.mem_append_right _ (List.mem_singleton.2 rfl))
          simp only [← List.append_assoc]
          intro u hu n hn
          rcases List.mem_append.1 hu with hu2 | hu2
          · obtain ⟨hnF, hlt⟩ := c8 u hu2 n hn
            rw [indexOf_append_left _ _ n hnF, indexOf_append_left _ _ u hu2]
            exact ⟨List.mem_append_left _ hnF, hlt⟩
          · have hun : u = task := List.mem_singleton.1 hu2
            subst hun
            have hnF : n ∈ F ++ Δf := c10 n hn
            rw [indexOf_append_left _ _ n hnF,
              indexOf_append_cons_self (F ++ Δf) [] u htaskF2]
            refine ⟨List.mem_append_left _ hnF, ?_⟩
            exact List.indexOf_lt_length.2 hnF
        · intro u
          have h9 := c9 u
          dsimp only at h9
          rw [h9, hinsR]
          simp only [List.mem_append, List.mem_singleton]
          tauto

theorem dfsEntryRoots_cycles_mono (adj : List (TaskId × List TaskId))
    (fuel : Nat) :
    ∀ (roots : List TaskId) (s0 : SetDfsState),
      ∃ C, ((roots.foldl
        (fun s t => if t ∉ s.visited then dfsEntry adj fuel s t [] else s)
        s0).cycles) = s0.cycles ++ C := by
  intro roots
  induction roots with
  | nil => intro s0; exact ⟨[], by simp⟩
  | cons r roots ihr =>
    intro s0
    simp only [List.foldl_cons]
    by_cases hv : r ∉ s0.visited
    · rw [if_pos hv]
      obtain ⟨C1, h1⟩ := dfsEntry_cycles_mono adj fuel s0 r []
      obtain ⟨C2, h2⟩ := ihr (dfsEntry adj fuel s0 r [])
      exact ⟨C1 ++ C2, by rw [h2, h1, List.append_assoc]⟩
    · rw [if_neg hv]
      exact ihr s0

/-- A full root sweep of the entry-checking DFS that reports no cycle
produces a finish ranking covering every root. -/
theorem dfsEntry_roots_complete (adj : List (TaskId × List TaskId))
    (U : List TaskId)
    (hUclose : ∀ u, ∀ n ∈ (jsGet adj u).getD [], n ∈ U) (fuel : Nat)
    (hfuel : U.length + 1 ≤ fuel) :
    ∀ (roots : List TaskId), (∀ r ∈ roots, r ∈ U) →
    ∀ (s0 : SetDfsState) (F0 : List TaskId),
      s0.recStack = [] →
      (∀ u, u ∈ s0.visited ↔ u ∈ F0) →
      s0.visited.Nodup →
      (∀ u ∈ s0.visited, u ∈ U) →
      F0.Nodup →
      (∀ u ∈ F0, ∀ n ∈ (jsGet adj u).getD [],
        n ∈ F0 ∧ F0.indexOf n < F0.indexOf u) →
      ((roots.foldl
        (fun s t => if t ∉ s.visited then dfsEntry adj fuel s t [] else s)
        s0).cycles = s0.cycles) →
      ∃ F : List TaskId, F.Nodup ∧
        (∀ u ∈ F0, u ∈ F) ∧
        (∀ u ∈ F, ∀ n ∈ (jsGet adj u).getD [],
          n ∈ F ∧ F.indexOf n < F.indexOf u) ∧
        (∀ r ∈ roots, r ∈ F) := by
  intro roots
  induction roots with
  | nil =>
    intro _ s0 F0 _ _ _ _ hF0nd hF0rank _
    exact ⟨F0, hF0nd, fun u hu => hu, hF0rank, by simp⟩
  | cons r roots ihr =>
    intro hroots s0 F0 h_rs h_iff h_vnd h_vU hF0nd hF0rank hHC
    simp only [List.foldl_cons] at hHC
    by_cases hv : r ∈ s0.visited
    · rw [if_neg (not_not_intro hv)] at hHC
      obtain ⟨F, hFnd, hFsup, hFrank, hFroots⟩ :=
        ihr (fun x hx => hroots x (List.mem_cons_of_mem _ hx)) s0 F0 h_rs h_iff
          h_vnd h_vU hF0nd hF0rank hHC
      refine ⟨F, hFnd, hFsup, hFrank, ?_⟩
      intro x hx
      rcases List.mem_cons.1 hx with rfl | hx2
      · exact hFsup x ((h_iff x).1 hv)
      · exact hFroots x hx2
    · rw [if_pos hv] at hHC
      obtain ⟨C1, hC1⟩ := dfsEntry_cycles_mono adj fuel s0 r []
      obtain ⟨C2, hC2⟩ := dfsEntryRoots_cycles_mono adj fuel roots
        (dfsEntry adj fuel s0 r [])
      have hC1nil : (dfsEntry adj fuel s0 r []).cycles = s0.cycles := by
        rw [hC2, hC1] at hHC
        have hlen := congrArg List.length hHC
        simp [List.length_append] at hlen
        rw [hC1, hlen.1, List.append_nil]
      obtain ⟨Δv, Δf, a1, a2, a3, a4, a5, a6, a7, a8, a9, a10⟩ :=
        dfsEntry_complete_aux adj U hUclose fuel s0 r [] F0 h_rs
          (hroots r (List.mem_cons_self _ _))
          (by
            intro u
            rw [h_iff u, h_rs]
            simp)
          h_vnd h_vU
          (by rw [h_rs]; intro u hu; simp at hu)
          hF0nd
          (by rw [h_rs]; intro u _ hc; simp at hc)
          hF0rank
          (by omega)
          hC1nil
      obtain ⟨F, hFnd, hFsup, hFrank, hFroots⟩ :=
        ihr (fun x hx => hroots x (List.mem_cons_of_mem _ hx))
          (dfsEntry adj fuel s0 r []) (F0 ++ Δf)
          (a1.trans h_rs)
          (by
            intro u
            rw [a9 u, h_rs]
            simp)
          (by rw [a2]; exact a4)
          (by
            rw [a2]
            intro u hu
            rcases List.mem_append.1 hu with hu | hu
            · exact h_vU u hu
            · exact a5 u hu)
          a6 a8
          (by rw [hC1nil]; exact hHC)
      refine ⟨F, hFnd, fun u hu => hFsup u (List.mem_append_left _ hu),
        hFrank, ?_⟩
      intro x hx
      rcases List.mem_cons.1 hx with rfl | hx2
      · exact hFsup x a10
      · exact hFroots x hx2

/-- Completeness of createGraph's cycle detection on validated input: a
cyclic dependency set always sets the has-cycles flag. -/
theorem detectCyclesCreate_complete (tasks : List (TaskId × List TaskId))
    (hnd : (tasks.map (fun t => t.1)).Nodup)
    (hval : ∀ e ∈ allDependenciesOf tasks,
      e.task_id ∈ tasks.map (fun t => t.1) ∧
      e.depends_on_task_id ∈ tasks.map (fun t => t.1))
    (h0 : (detectCyclesCreate (tasks.map (fun t => t.1))
      (dependsOnMapOf tasks)).2 = []) :
    ¬ HasCycle (allDependenciesOf tasks) := by
  intro hcyc
  have hdmap : ∀ u, jsGet (dependsOnMapOf tasks) u =
      if u ∈ tasks.map (fun t => t.1)
      then some (prereqsOf (allDependenciesOf tasks) u) else none := by
    intro u
    by_cases hu : u ∈ tasks.map (fun t => t.1)
    · rw [if_pos hu]
      rcases List.mem_map.1 hu with ⟨r, hr, rfl⟩
      rw [jsGet_dependsOnMapOf tasks hnd r hr, prereqsOf_allDeps tasks hnd r hr]
    · rw [if_neg hu]
      exact jsGet_dependsOnMapOf_none tasks u hu
  have hUclose : ∀ u, ∀ n ∈ (jsGet (dependsOnMapOf tasks) u).getD [],
      n ∈ tasks.map (fun t => t.1) := by
    intro u n hn
    rw [hdmap u] at hn
    by_cases hu : u ∈ tasks.map (fun t => t.1)
    · rw [if_pos hu] at hn
      simp only [Option.getD_some] at hn
      exact prereqsOf_subset _ _ hval u n hn
    · rw [if_neg hu] at hn
      simp at hn
  have hfuel : (tasks.map (fun t => t.1)).length + 1 ≤
      dfsFuel (tasks.map (fun t => t.1)) (dependsOnMapOf tasks) := by
    unfold dfsFuel
    omega
  have h0b : ((tasks.map (fun t => t.1)).foldl
      (fun s t => if t ∉ s.visited then
        dfsEntry (dependsOnMapOf tasks)
          (dfsFuel (tasks.map (fun t => t.1)) (dependsOnMapOf tasks)) s t []
        else s)
      { visited := [], recStack := [], cycles := [] }).cycles = [] := by
    have h1 := h0
    unfold detectCyclesCreate at h1
    dsimp only at h1
    exact h1
  obtain ⟨F, hFnd, _, hFrank, hFroots⟩ :=
    dfsEntry_roots_complete (dependsOnMapOf tasks) (tasks.map (fun t => t.1))
      hUclose _ hfuel (tasks.map (fun t => t.1)) (fun r hr => hr)
      { visited := [], recStack := [], cycles := [] } []
      rfl (by intro u; simp) List.nodup_nil (by intro u hu; simp at hu)
      List.nodup_nil (by intro u hu; simp at hu) h0b
  obtain ⟨v, l, hch0⟩ := hcyc
  obtain ⟨w, m, hch⟩ := @hasCycle_flip (stepRel (allDependenciesOf tasks))
    (adjStep (dependsOnMapOf tasks))
    (fun a b hab => by
      rcases hab with ⟨e, he, hdep, htask⟩
      subst hdep
      subst htask
      show e.depends_on_task_id ∈
        (jsGet (dependsOnMapOf tasks) e.task_id).getD []
      rw [hdmap e.task_id, if_pos (hval e he).1]
      simp only [Option.getD_some]
      exact List.mem_map.2 ⟨e, List.mem_filter.2 ⟨he, by simp⟩, rfl⟩) v l hch0
  have hw_ids : w ∈ tasks.map (fun t => t.1) := by
    have hstep1 : ∃ y, adjStep (dependsOnMapOf tasks) w y := by
      cases m with
      | nil => exact ⟨w, (List.chain_cons.1 hch).1⟩
      | cons x m2 => exact ⟨x, (List.chain_cons.1 hch).1⟩
    obtain ⟨y, hy⟩ := hstep1
    have hy2 : y ∈ (jsGet (dependsOnMapOf tasks) w).getD [] := hy
    by_contra hw
    rw [hdmap w, if_neg hw] at hy2
    simp at hy2
  exact no_cycle_of_ranked _ F hFrank w m (hFroots w hw_ids) hch

theorem dfs5_cycles_mono (adj : List (TaskId × List TaskId)) : ∀ (fuel : Nat),
    (∀ (s : DfsState) (node : TaskId),
      ∃ C, (dfsVisit adj fuel s node).cycles = s.cycles ++ C) ∧
    (∀ (ns : List TaskId) (s : DfsState),
      ∃ C, (dfsNeighbors adj fuel s ns).cycles = s.cycles ++ C) := by
  intro fuel
  induction fuel with
  | zero =>
    have hvisit : ∀ (s : DfsState) (node : TaskId),
        ∃ C, (dfsVisit adj 0 s node).cycles = s.cycles ++ C := by
      intro s node
      refine ⟨[], ?_⟩
      rw [dfsVisit]
      simp
    refine ⟨hvisit, ?_⟩
    intro ns
    induction ns with
    | nil =>
      intro s
      refine ⟨[], ?_⟩
      rw [dfsNeighbors]
      simp
    | cons n rest ihn =>
      intro s
      by_cases hg : jsGet s.color n = some Color.gray
      · have hstep : dfsNeighbors adj 0 s (n :: rest) =
            dfsNeighbors adj 0
              { s with cycles :=
                  s.cycles ++ [s.currentPath.drop (s.currentPath.indexOf n) ++ [n]] }
              rest := by
          rw [dfsNeighbors]
          simp [hg]
        rw [hstep]
        obtain ⟨C, hC⟩ := ihn
          { s with cycles :=
              s.cycles ++ [s.currentPath.drop (s.currentPath.indexOf n) ++ [n]] }
        refine ⟨[s.currentPath.drop (s.currentPath.indexOf n) ++ [n]] ++ C, ?_⟩
        rw [hC]
        simp
      · by_cases hw : jsGet s.color n = some Color.white
        · have hstep : dfsNeighbors adj 0 s (n :: rest) =
              dfsNeighbors adj 0 (dfsVisit adj 0 s n) rest := by
            rw [dfsNeighbors]
            simp [hg, hw]
          rw [hstep]
          obtain ⟨C1, h1⟩ := hvisit s n
          obtain ⟨C2, h2⟩ := ihn (dfsVisit adj 0 s n)
          exact ⟨C1 ++ C2, by rw [h2, h1, List.append_assoc]⟩
        · have hstep : dfsNeighbors adj 0 s (n :: rest) =
              dfsNeighbors adj 0 s rest := by
            rw [dfsNeighbors]
            simp [hg, hw]
          rw [hstep]
          exact ihn s
  | succ fuel ihP =>
    have hvisit : ∀ (s : DfsState) (node : TaskId),
        ∃ C, (dfsVisit adj (fuel + 1) s node).cycles = s.cycles ++ C := by
      intro s node
      rw [dfsVisit]
      dsimp only
      obtain ⟨C, hC⟩ := ihP.2 ((jsGet adj node).getD [])
        { color := jsSet s.color node Color.gray, cycles := s.cycles,
          currentPath := s.currentPath ++ [node] }
      exact ⟨C, hC⟩
    refine ⟨hvisit, ?_⟩
    intro ns
    induction ns with
    | nil =>
      intro s
      refine ⟨[], ?_⟩
      rw [dfsNeighbors]
      simp
    | cons n rest ihn =>
      intro s
      by_cases hg : jsGet s.color n = some Color.gray
      · have hstep : dfsNeighbors adj (fuel + 1) s (n :: rest) =
            dfsNeighbors adj (fuel + 1)
              { s with cycles :=
                  s.cycles ++ [s.currentPath.drop (s.currentPath.indexOf n) ++ [n]] }
              rest := by
          rw [dfsNeighbors]
          simp [hg]
        rw [hstep]
        obtain ⟨C, hC⟩ := ihn
          { s with cycles :=
              s.cycles ++ [s.currentPath.drop (s.currentPath.indexOf n) ++ [n]] }
        refine ⟨[s.currentPath.drop (s.currentPath.indexOf n) ++ [n]] ++ C, ?_⟩
        rw [hC]
        simp
      · by_cases hw : jsGet s.color n = some Color.white
        · have hstep : dfsNeighbors adj (fuel + 1) s (n :: rest) =
              dfsNeighbors adj (fuel + 1) (dfsVisit adj (fuel + 1) s n) rest := by
            rw [dfsNeighbors]
            simp [hg, hw]
          rw [hstep]
          obtain ⟨C1, h1⟩ := hvisit s n
          obtain ⟨C2, h2⟩ := ihn (dfsVisit adj (fuel + 1) s n)
          exact ⟨C1 ++ C2, by rw [h2, h1, List.append_assoc]⟩
        · have hstep : dfsNeighbors adj (fuel + 1) s (n :: rest) =
              dfsNeighbors adj (fuel + 1) s rest := by
            rw [dfsNeighbors]
            simp [hg, hw]
          rw [hstep]
          exact ihn s

/-- Ranked-finish invariant for analyzeGraph's color DFS: visiting a white
node in a run that reports no cycle restores the path, turns the node black
and extends the black ranking so that every edge out of a black node points
strictly earlier in the ranking. -/
theorem dfs5_complete_aux (adj : List (TaskId × List TaskId)) (U : List TaskId)
    (hUclose : ∀ u, ∀ n ∈ (jsGet adj u).getD [], n ∈ U) :
    ∀ (fuel : Nat) (s : DfsState) (node : TaskId) (F : List TaskId),
      (∀ u, jsGet s.color u = some Color.gray ↔ u ∈ s.currentPath) →
      (∀ u, jsGet s.color u = some Color.black ↔ u ∈ F) →
      (∀ u ∈ U, jsGet s.color u ≠ none) →
      s.currentPath.Nodup →
      (∀ u ∈ s.currentPath, u ∈ U) →
      F.Nodup →
      (∀ u ∈ F, ∀ n ∈ (jsGet adj u).getD [],
        n ∈ F ∧ F.indexOf n < F.indexOf u) →
      jsGet s.color node = some Color.white →
      node ∈ U →
      U.length + 1 ≤ fuel + s.currentPath.length →
      (dfsVisit adj fuel s node).cycles = s.cycles →
      ∃ Δf,
        (dfsVisit adj fuel s node).currentPath = s.currentPath ∧
        (∀ u, jsGet (dfsVisit adj fuel s node).color u = some Color.gray ↔
          u ∈ s.currentPath) ∧
        (∀ u, jsGet (dfsVisit adj fuel s node).color u = some Color.black ↔
          u ∈ F ++ Δf) ∧
        (∀ u ∈ U, jsGet (dfsVisit adj fuel s node).color u ≠ none) ∧
        (F ++ Δf).Nodup ∧
        (∀ u ∈ F ++ Δf, ∀ n ∈ (jsGet adj u).getD [],
          n ∈ F ++ Δf ∧ (F ++ Δf).indexOf n < (F ++ Δf).indexOf u) ∧
        node ∈ Δf := by
  intro fuel
  induction fuel with
  | zero =>
    intro s node F h_g h_b h_some h_pnd h_pU h_Fnd h_rank h_white h_nU h_fuel hHC
    exfalso
    have h_np : node ∉ s.currentPath := by
      intro hc
      have := (h_g node).2 hc
      rw [h_white] at this
      exact Color.noConfusion (Option.some.inj this)
    have hnd2 : (s.currentPath ++ [node]).Nodup := by
      rw [List.nodup_append]
      exact ⟨h_pnd, List.nodup_singleton _,
        fun a ha hb => h_np ((List.mem_singleton.1 hb) ▸ ha)⟩
    have hsub2 : ∀ u ∈ s.currentPath ++ [node], u ∈ U := by
      intro u hu
      rcases List.mem_append.1 hu with hu | hu
      · exact h_pU u hu
      · exact (List.mem_singleton.1 hu) ▸ h_nU
    have hb := nodup_subset_length (s.currentPath ++ [node]) U hnd2 hsub2
    rw [List.length_append] at hb
    simp only [List.length_singleton] at hb
    omega
  | succ fuel ih =>
    intro s node F h_g h_b h_some h_pnd h_pU h_Fnd h_rank h_white h_nU h_fuel hHC
    have h_np : node ∉ s.currentPath := by
      intro hc
      have := (h_g node).2 hc
      rw [h_white] at this
      exact Color.noConfusion (Option.some.inj this)
    have h_nF : node ∉ F := by
      intro hc
      have := (h_b node).2 hc
      rw [h_white] at this
      exact Color.noConfusion (Option.some.inj this)
    rw [dfsVisit] at hHC ⊢
    dsimp only at hHC ⊢
    have hfold : ∀ (ns : List TaskId), (∀ n ∈ ns, n ∈ U) →
        ∀ (s2 : DfsState) (F1 : List TaskId),
        (∀ u, jsGet s2.color u = some Color.gray ↔ u ∈ s2.currentPath) →
        (∀ u, jsGet s2.color u = some Color.black ↔ u ∈ F1) →
        (∀ u ∈ U, jsGet s2.color u ≠ none) →
        s2.currentPath.Nodup →
        (∀ u ∈ s2.currentPath, u ∈ U) →
        F1.Nodup →
        (∀ u ∈ F1, ∀ n ∈ (jsGet adj u).getD [],
          n ∈ F1 ∧ F1.indexOf n < F1.indexOf u) →
        U.length + 1 ≤ fuel + s2.currentPath.length →
        (dfsNeighbors adj fuel s2 ns).cycles = s2.cycles →
        ∃ Δf,
          (dfsNeighbors adj fuel s2 ns).currentPath = s2.currentPath ∧
          (∀ u, jsGet (dfsNeighbors adj fuel s2 ns).color u = some Color.gray ↔
            u ∈ s2.currentPath) ∧
          (∀ u, jsGet (dfsNeighbors adj fuel s2 ns).color u = some Color.black ↔
            u ∈ F1 ++ Δf) ∧
          (∀ u ∈ U, jsGet (dfsNeighbors adj fuel s2 ns).color u ≠ none) ∧
          (F1 ++ Δf).Nodup ∧
          (∀ u ∈ F1 ++ Δf, ∀ n ∈ (jsGet adj u).getD [],
            n ∈ F1 ++ Δf ∧ (F1 ++ Δf).indexOf n < (F1 ++ Δf).indexOf u) ∧
          (∀ n ∈ ns, n ∈ F1 ++ Δf) := by
      intro ns
      induction ns with
      | nil =>
        intro _ s2 F1 g1 g2 g3 g4 g5 g6 g7 _ _
        rw [dfsNeighbors]
        exact ⟨[], rfl, g1, by simpa using g2, g3, by simpa using g6,
          by simpa using g7, by simp⟩
      | cons n rest ihn =>
        intro hns s2 F1 g1 g2 g3 g4 g5 g6 g7 g8 hHC2
        by_cases hg : jsGet s2.color n = some Color.gray
        · exfalso
          have hstep : dfsNeighbors adj fuel s2 (n :: rest) =
              dfsNeighbors adj fuel
                { s2 with cycles := s2.cycles ++
                    [s2.currentPath.drop (s2.currentPath.indexOf n) ++ [n]] }
                rest := by
            rw [dfsNeighbors]
            simp [hg]
          rw [hstep] at hHC2
          obtain ⟨C, hC⟩ := (dfs5_cycles_mono adj fuel).2 rest
            { s2 with cycles := s2.cycles ++
                [s2.currentPath.drop (s2.currentPath.indexOf n) ++ [n]] }
          rw [hC] at hHC2
          have hlen := congrArg List.length hHC2
          simp [List.length_append] at hlen
        · by_cases hw : jsGet s2.color n = some Color.white
          · have hstep : dfsNeighbors adj fuel s2 (n :: rest) =
                dfsNeighbors adj fuel (dfsVisit adj fuel s2 n) rest := by
              rw [dfsNeighbors]
              simp [hg, hw]
            rw [hstep] at hHC2 ⊢
            obtain ⟨C1, hC1⟩ := (dfs5_cycles_mono adj fuel).1 s2 n
            obtain ⟨C2, hC2⟩ := (dfs5_cycles_mono adj fuel).2 rest
              (dfsVisit adj fuel s2 n)
            have hC1nil : (dfsVisit adj fuel s2 n).cycles = s2.cycles := by
              rw [hC2, hC1] at hHC2
              have hlen := congrArg List.length hHC2
              simp [List.length_append] at hlen
              rw [hC1, hlen.1, List.append_nil]
            obtain ⟨Δf1, a1, a2, a3, a4, a5, a6, a7⟩ :=
              ih s2 n F1 g1 g2 g3 g4 g5 g6 g7 hw (hns n (List.mem_cons_self _ _))
                g8 hC1nil
            obtain ⟨Δf2, b1, b2, b3, b4, b5, b6, b7⟩ :=
              ihn (fun m hm => hns m (List.mem_cons_of_mem _ hm))
                (dfsVisit adj fuel s2 n) (F1 ++ Δf1)
                (by intro u; rw [a1]; exact a2 u)
                a3 a4
                (by rw [a1]; exact g4)
                (by rw [a1]; exact g5)
                a5 a6
                (by rw [a1]; omega)
                (by rw [hC1nil]; exact hHC2)
            refine ⟨Δf1 ++ Δf2, ?_, ?_, ?_, b4, ?_, ?_, ?_⟩
            · rw [b1, a1]
            · intro u
              rw [b2 u, a1]
            · intro u
              have h3 := b3 u
              rw [List.append_assoc] at h3
              exact h3
            · have h5 := b5
              rw [List.append_assoc] at h5
              exact h5
            · have h6 := b6
              rw [List.append_assoc] at h6
              exact h6
            · intro m hm
              rcases List.mem_cons.1 hm with rfl | hm2
              · exact List.mem_append_right _ (List.mem_append_left _ a7)
              · have hb := b7 m hm2
                rw [List.append_assoc] at hb
                exact hb
          · have hstep : dfsNeighbors adj fuel s2 (n :: rest) =
                dfsNeighbors adj fuel s2 rest := by
              rw [dfsNeighbors]
              simp [hg, hw]
            rw [hstep] at hHC2 ⊢
            have hnF1 : n ∈ F1 := by
              cases hc : jsGet s2.color n with
              | none => exact absurd hc (g3 n (hns n (List.mem_cons_self _ _)))
              | some c =>
                cases c with
                | white => exact absurd hc hw
                | gray => exact absurd hc hg
                | black => exact (g2 n).1 hc
            obtain ⟨Δf, b1, b2, b3, b4, b5, b6, b7⟩ :=
              ihn (fun m hm => hns m (List.mem_cons_of_mem _ hm)) s2 F1 g1 g2 g3
                g4 g5 g6 g7 g8 hHC2
            refine ⟨Δf, b1, b2, b3, b4, b5, b6, ?_⟩
            intro m hm
            rcases List.mem_cons.1 hm with rfl | hm2
            · exact List.mem_append_left _ hnF1
            · exact b7 m hm2
    obtain ⟨Δf, c1, c2, c3, c4, c5, c6, c7⟩ :=
      hfold ((jsGet adj node).getD []) (hUclose node)
        { color := jsSet s.color node Color.gray, cycles := s.cycles,
          currentPath := s.currentPath ++ [node] } F
        (by
          intro u
          dsimp only
          rw [jsGet_jsSet]
          by_cases hu : node = u
          · subst hu
            rw [if_pos rfl]
            simp
          · rw [if_neg hu]
            rw [h_g u]
            have hne : u ≠ node := fun hc => hu hc.symm
            simp [hne])
        (by
          intro u
          dsimp only
          rw [jsGet_jsSet]
          by_cases hu : node = u
          · subst hu
            rw [if_pos rfl]
            constructor
            · intro hc
              exact absurd (Option.some.inj hc) (by simp)
            · intro hc
              exact absurd hc h_nF
          · rw [if_neg hu]
            exact h_b u)
        (by
          intro u hu
          dsimp only
          rw [jsGet_jsSet]
          by_cases h2 : node = u
          · rw [if_pos h2]
            simp
          · rw [if_neg h2]
            exact h_some u hu)
        (by
          dsimp only
          rw [List.nodup_append]
          exact ⟨h_pnd, List.nodup_singleton _,
            fun a ha hb => h_np ((List.mem_singleton.1 hb) ▸ ha)⟩)
        (by
          dsimp only
          intro u hu
          rcases List.mem_append.1 hu with hu | hu
          · exact h_pU u hu
          · exact (List.mem_singleton.1 hu) ▸ h_nU)
        h_Fnd h_rank
        (by
          dsimp only
          rw [List.length_append]
          simp only [List.length_singleton]
          omega)
        hHC
    have h_nF2 : node ∉ F ++ Δf := by
      intro hc
      have hblack := (c3 node).2 hc
      have hgray := (c2 node).2 (by simp : node ∈ s.currentPath ++ [node])
      rw [hblack] at hgray
      exact Color.noConfusion (Option.some.inj hgray)
    refine ⟨Δf ++ [node], ?_, ?_, ?_, ?_, ?_, ?_, by simp⟩
    · dsimp only
      rw [c1]
      dsimp only
      rw [List.dropLast_concat]
    · intro u
      rw [jsGet_jsSet]
      by_cases hu : node = u
      · subst hu
        rw [if_pos rfl]
        constructor
        · intro hc
          exact absurd (Option.some.inj hc) (by simp)
        · intro hc
          exact absurd hc h_np
      · rw [if_neg hu]
        rw [c2 u]
        have hne : u ≠ node := fun hc => hu hc.symm
        constructor
        · intro hc
          rcases List.mem_append.1 hc with hc | hc
          · exact hc
          · exact absurd (List.mem_singleton.1 hc) hne
        · intro hc
          exact List.mem_append_left _ hc
    · intro u
      rw [jsGet_jsSet]
      by_cases hu : node = u
      · subst hu
        rw [if_pos rfl]
        simp
      · rw [if_neg hu]
        rw [c3 u]
        have hne : u ≠ node := fun hc => hu hc.symm
        rw [← List.append_assoc]
        constructor
        · intro hc
          exact List.mem_append_left _ hc
        · intro hc
          rcases List.mem_append.1 hc with hc | hc
          · exact hc
          · exact absurd (List.mem_singleton.1 hc) hne
    · intro u hu
      rw [jsGet_jsSet]
      by_cases h2 : node = u
      · rw [if_pos h2]
        simp
      · rw [if_neg h2]
        exact c4 u hu
    · rw [← List.append_assoc, List.nodup_append]
      exact ⟨c5, List.nodup_singleton _,
        fun a ha hb => h_nF2 ((List.mem_singleton.1 hb) ▸ ha)⟩
    · simp only [← List.append_assoc]
      intro u hu n hn
      rcases List.mem_append.1 hu with hu2 | hu2
      · obtain ⟨hnF, hlt⟩ := c6 u hu2 n hn
        rw [indexOf_append_left _ _ n hnF, indexOf_append_left _ _ u hu2]
        exact ⟨List.mem_append_left _ hnF, hlt⟩
      · have hun : u = node := List.mem_singleton.1 hu2
        subst hun
        have hnF : n ∈ F ++ Δf := c7 n hn
        rw [indexOf_append_left _ _ n hnF,
          indexOf_append_cons_self (F ++ Δf) [] u h_nF2]
        refine ⟨List.mem_append_left _ hnF, ?_⟩
        exact List.indexOf_lt_length.2 hnF

theorem dfs5Roots_cycles_mono (adj : List (TaskId × List TaskId)) (fuel : Nat) :
    ∀ (roots : List TaskId) (s0 : DfsState),
      ∃ C, ((roots.foldl
        (fun s t => if jsGet s.color t = some Color.white then
          dfsVisit adj fuel s t else s) s0).cycles) = s0.cycles ++ C := by
  intro roots
  induction roots with
  | nil => intro s0; exact ⟨[], by simp⟩
  | cons r roots ihr =>
    intro s0
    simp only [List.foldl_cons]
    by_cases hw : jsGet s0.color r = some Color.white
    · rw [if_pos hw]
      obtain ⟨C1, h1⟩ := (dfs5_cycles_mono adj fuel).1 s0 r
      obtain ⟨C2, h2⟩ := ihr (dfsVisit adj fuel s0 r)
      exact ⟨C1 ++ C2, by rw [h2, h1, List.append_assoc]⟩
    · rw [if_neg hw]
      exact ihr s0

/-- A full root sweep of the color DFS that reports no cycle produces a black
ranking covering every root. -/
theorem dfs5_roots_complete (adj : List (TaskId × List TaskId))
    (U : List TaskId)
    (hUclose : ∀ u, ∀ n ∈ (jsGet adj u).getD [], n ∈ U) (fuel : Nat)
    (hfuel : U.length + 1 ≤ fuel) :
    ∀ (roots : List TaskId), (∀ r ∈ roots, r ∈ U) →
    ∀ (s0 : DfsState) (F0 : List TaskId),
      s0.currentPath = [] →
      (∀ u, jsGet s0.color u = some Color.gray ↔ u ∈ s0.currentPath) →
      (∀ u, jsGet s0.color u = some Color.black ↔ u ∈ F0) →
      (∀ u ∈ U, jsGet s0.color u ≠ none) →
      F0.Nodup →
      (∀ u ∈ F0, ∀ n ∈ (jsGet adj u).getD [],
        n ∈ F0 ∧ F0.indexOf n < F0.indexOf u) →
      ((roots.foldl
        (fun s t => if jsGet s.color t = some Color.white then
          dfsVisit adj fuel s t else s) s0).cycles = s0.cycles) →
      ∃ F : List TaskId, F.Nodup ∧
        (∀ u ∈ F0, u ∈ F) ∧
        (∀ u ∈ F, ∀ n ∈ (jsGet adj u).getD [],
          n ∈ F ∧ F.indexOf n < F.indexOf u) ∧
        (∀ r ∈ roots, r ∈ F) := by
  intro roots
  induction roots with
  | nil =>
    intro _ s0 F0 _ _ _ _ hF0nd hF0rank _
    exact ⟨F0, hF0nd, fun u hu => hu, hF0rank, by simp⟩
  | cons r roots ihr =>
    intro hroots s0 F0 hpath h_g h_b h_some hF0nd hF0rank hHC
    simp only [List.foldl_cons] at hHC
    by_cases hw : jsGet s0.color r = some Color.white
    · rw [if_pos hw] at hHC
      obtain ⟨C1, hC1⟩ := (dfs5_cycles_mono adj fuel).1 s0 r
      obtain ⟨C2, hC2⟩ := dfs5Roots_cycles_mono adj fuel roots
        (dfsVisit adj fuel s0 r)
      have hC1nil : (dfsVisit adj fuel s0 r).cycles = s0.cycles := by
        rw [hC2, hC1] at hHC
        have hlen := congrArg List.length hHC
        simp [List.length_append] at hlen
        rw [hC1, hlen.1, List.append_nil]
      obtain ⟨Δf, a1, a2, a3, a4, a5, a6, a7⟩ :=
        dfs5_complete_aux adj U hUclose fuel s0 r F0 h_g h_b h_some
          (by rw [hpath]; exact List.nodup_nil)
          (by rw [hpath]; intro u hu; simp at hu)
          hF0nd hF0rank hw (hroots r (List.mem_cons_self _ _))
          (by rw [hpath]; simpa using hfuel)
          hC1nil
      obtain ⟨F, hFnd, hFsup, hFrank, hFroots⟩ :=
        ihr (fun x hx => hroots x (List.mem_cons_of_mem _ hx))
          (dfsVisit adj fuel s0 r) (F0 ++ Δf)
          (a1.trans hpath)
          (by intro u; rw [a1]; exact a2 u)
          a3 a4 a5 a6
          (by rw [hC1nil]; exact hHC)
      refine ⟨F, hFnd, fun u hu => hFsup u (List.mem_append_left _ hu),
        hFrank, ?_⟩
      intro x hx
      rcases List.mem_cons.1 hx with rfl | hx2
      · exact hFsup x (List.mem_append_right _ a7)
      · exact hFroots x hx2
    · rw [if_neg hw] at hHC
      have hrF0 : r ∈ F0 := by
        cases hc : jsGet s0.color r with
        | none => exact absurd hc (h_some r (hroots r (List.mem_cons_self _ _)))
        | some c =>
          cases c with
          | white => exact absurd hc hw
          | gray =>
            exfalso
            have := (h_g r).1 hc
            rw [hpath] at this
            simp at this
          | black => exact (h_b r).1 hc
      obtain ⟨F, hFnd, hFsup, hFrank, hFroots⟩ :=
        ihr (fun x hx => hroots x (List.mem_cons_of_mem _ hx)) s0 F0 hpath h_g
          h_b h_some hF0nd hF0rank hHC
      refine ⟨F, hFnd, hFsup, hFrank, ?_⟩
      intro x hx
      rcases List.mem_cons.1 hx with rfl | hx2
      · exact hFsup x hrF0
      · exact hFroots x hx2

theorem stepRel_adjStep (ts : List TaskId) (E : List Dep)
    (hval : ∀ e ∈ E, e.task_id ∈ ts ∧ e.depends_on_task_id ∈ ts)
    (a b : TaskId) (h : stepRel E a b) : adjStep (buildAdjacency ts E) a b := by
  rcases h with ⟨e, he, hdep, htask⟩
  subst hdep
  subst htask
  show e.task_id ∈ (jsGet (buildAdjacency ts E) e.depends_on_task_id).getD []
  rw [buildAdjacency_get ts E (fun e2 he2 => (hval e2 he2).2),
    if_pos (hval e he).2]
  simp only [Option.getD_some]
  exact List.mem_map.2 ⟨e, List.mem_filter.2 ⟨he, by simp⟩, rfl⟩

/-- Completeness of analyzeGraph's cycle detection: on duplicate-free, fully
declared input, a cyclic dependency set always produces at least one reported
cycle. -/
theorem analyzeDfs_complete (ts : List TaskId) (E : List Dep) (hnd : ts.Nodup)
    (hval : ∀ e ∈ E, e.task_id ∈ ts ∧ e.depends_on_task_id ∈ ts)
    (h0 : (analyzeDfs ts E).cycles = []) : ¬ HasCycle E := by
  intro hcyc
  unfold analyzeDfs at h0
  dsimp only at h0
  rw [jsUnique_eq_self ts hnd] at h0
  have hUclose : ∀ u, ∀ n ∈ (jsGet (buildAdjacency ts E) u).getD [], n ∈ ts := by
    intro u n hn
    rw [buildAdjacency_get ts E (fun e2 he2 => (hval e2 he2).2)] at hn
    by_cases hu : u ∈ ts
    · rw [if_pos hu] at hn
      simp only [Option.getD_some] at hn
      exact dependentsOf_subset E ts hval u n hn
    · rw [if_neg hu] at hn
      simp at hn
  obtain ⟨F, hFnd, _, hFrank, hFroots⟩ :=
    dfs5_roots_complete (buildAdjacency ts E) ts hUclose (ts.length + 1)
      (by omega) ts (fun r hr => hr)
      { color := ts.foldl (fun m t => jsSet m t Color.white) [],
        cycles := [], currentPath := [] } []
      rfl
      (by
        intro u
        dsimp only
        rw [jsGet_foldl_set_const]
        constructor
        · intro hc
          by_cases hu : u ∈ ts
          · rw [if_pos hu] at hc
            exact absurd (Option.some.inj hc) (by simp)
          · rw [if_neg hu] at hc
            exact Option.noConfusion hc
        · intro hc
          simp at hc)
      (by
        intro u
        dsimp only
        rw [jsGet_foldl_set_const]
        constructor
        · intro hc
          by_cases hu : u ∈ ts
          · rw [if_pos hu] at hc
            exact absurd (Option.some.inj hc) (by simp)
          · rw [if_neg hu] at hc
            exact Option.noConfusion hc
        · intro hc
          simp at hc)
      (by
        intro u hu
        dsimp only
        rw [jsGet_foldl_set_const, if_pos hu]
        simp)
      List.nodup_nil
      (by intro u hu; simp at hu)
      h0
  obtain ⟨v, l, hch⟩ := hcyc
  have hv_ts : v ∈ ts := by
    have hstep1 : ∃ y, stepRel E v y := by
      cases l with
      | nil => exact ⟨v, (List.chain_cons.1 hch).1⟩
      | cons x l2 => exact ⟨x, (List.chain_cons.1 hch).1⟩
    obtain ⟨y, hy⟩ := hstep1
    rcases hy with ⟨e, he, hdep, _⟩
    exact hdep ▸ (hval e he).2
  have hch2 : List.Chain (adjStep (buildAdjacency ts E)) v (l ++ [v]) :=
    hch.imp (fun a b hab => stepRel_adjStep ts E hval a b hab)
  exact no_cycle_of_ranked (buildAdjacency ts E) F hFrank v l
    (hFroots v hv_ts) hch2

/-- Soundness of createGraph's entry-checking DFS: provided the recursion
stack stays inside the chained path argument and the caller's edge into the
entered task holds, every recorded cycle is a closed adjacency chain, and
the recursion stack is restored. -/
theorem dfsEntry_sound (adj : List (TaskId × List TaskId)) : ∀ (fuel : Nat)
    (s : SetDfsState) (task : TaskId) (path : List TaskId),
    (∀ c ∈ s.cycles, CycShape adj c) →
    List.Chain' (adjStep adj) path →
    (∀ u ∈ s.recStack, u ∈ path) →
    (∀ y, path.getLast? = some y → adjStep adj y task) →
    (∀ c ∈ (dfsEntry adj fuel s task path).cycles, CycShape adj c) ∧
      (dfsEntry adj fuel s task path).recStack = s.recStack := by
  intro fuel
  induction fuel with
  | zero =>
    intro s task path hs _ _ _
    rw [dfsEntry]
    exact ⟨hs, rfl⟩
  | succ fuel ih =>
    intro s task path hs hchain hrsub hlaststep
    rw [dfsEntry]
    by_cases hr : task ∈ s.recStack
    · rw [if_pos hr]
      have hmem : task ∈ path := hrsub task hr
      have hne : path ≠ [] := fun hc => by
        rw [hc] at hmem
        simp at hmem
      have hy : ∃ y, path.getLast? = some y := by
        cases hl : path.getLast? with
        | none => exact absurd (List.getLast?_eq_none_iff.1 hl) hne
        | some y => exact ⟨y, rfl⟩
      obtain ⟨y, hy2⟩ := hy
      refine ⟨?_, rfl⟩
      intro c hc
      rcases List.mem_append.1 hc with hc | hc
      · exact hs c hc
      · simp only [List.mem_singleton] at hc
        subst hc
        exact cycle_extract adj path task y hchain hmem hy2 (hlaststep y hy2)
    · rw [if_neg hr]
      by_cases hv : task ∈ s.visited
      · rw [if_pos hv]
        exact ⟨hs, rfl⟩
      · rw [if_neg hv]
        dsimp only
        have hchain2 : List.Chain' (adjStep adj) (path ++ [task]) := by
          rw [List.chain'_append]
          refine ⟨hchain, List.chain'_singleton task, ?_⟩
          intro x hx y hy
          simp only [Option.mem_def] at hx
          simp only [List.head?_cons, Option.mem_def, Option.some.injEq] at hy
          subst hy
          exact hlaststep x hx
        have hfold : ∀ (ns : List TaskId), (∀ n ∈ ns, adjStep adj task n) →
            ∀ (st : SetDfsState),
            (∀ c ∈ st.cycles, CycShape adj c) →
            (∀ u ∈ st.recStack, u ∈ path ++ [task]) →
            (∀ c ∈ (ns.foldl
              (fun st dep => dfsEntry adj fuel st dep (path ++ [task]))
              st).cycles, CycShape adj c) ∧
            ((ns.foldl
              (fun st dep => dfsEntry adj fuel st dep (path ++ [task]))
              st).recStack = st.recStack) := by
          intro ns
          induction ns with
          | nil => intro _ st hst _; exact ⟨hst, rfl⟩
          | cons n rest ihn =>
            intro hns st hst hstr
            simp only [List.foldl_cons]
            obtain ⟨h1, h2⟩ := ih st n (path ++ [task]) hst hchain2 hstr
              (fun y hy => by
                rw [List.getLast?_concat] at hy
                simp only [Option.mem_def, Option.some.injEq] at hy
                exact hy ▸ hns n (List.mem_cons_self _ _))
            obtain ⟨h3, h4⟩ := ihn (fun m hm => hns m (List.mem_cons_of_mem _ hm))
              (dfsEntry adj fuel st n (path ++ [task])) h1
              (by rw [h2]; exact hstr)
            exact ⟨h3, h4.trans h2⟩
        obtain ⟨h1, h2⟩ := hfold ((jsGet adj task).getD []) (fun n hn => hn)
          { visited := jsInsert s.visited task,
            recStack := jsInsert s.recStack task, cycles := s.cycles }
          hs
          (by
            dsimp only
            intro u hu
            rcases (mem_jsInsert s.recStack task u).1 hu with hu | rfl
            · exact List.mem_append_left _ (hrsub u hu)
            · exact List.mem_append_right _ (List.mem_singleton.2 rfl))
        refine ⟨h1, ?_⟩
        dsimp only
        rw [h2]
        dsimp only
        have hins : jsInsert s.recStack task = s.recStack ++ [task] := by
          unfold jsInsert
          rw [if_neg hr]
        rw [hins, List.erase_append_right _ hr, List.erase_cons_head,
          List.append_nil]

theorem dfsEntryRoots_sound (adj : List (TaskId × List TaskId)) (fuel : Nat) :
    ∀ (roots : List TaskId) (s0 : SetDfsState),
      (∀ c ∈ s0.cycles, CycShape adj c) →
      s0.recStack = [] →
      (∀ c ∈ (roots.foldl
        (fun s t => if t ∉ s.visited then dfsEntry adj fuel s t [] else s)
        s0).cycles, CycShape adj c) := by
  intro roots
  induction roots with
  | nil => intro s0 hs _; exact hs
  | cons r roots ihr =>
    intro s0 hs hr0
    simp only [List.foldl_cons]
    by_cases hv : r ∉ s0.visited
    · rw [if_pos hv]
      obtain ⟨h1, h2⟩ := dfsEntry_sound adj fuel s0 r [] hs List.chain'_nil
        (by rw [hr0]; intro u hu; simp at hu)
        (by intro y hy; simp at hy)
      exact ihr (dfsEntry adj fuel s0 r []) h1 (h2.trans hr0)
    · rw [if_neg hv]
      exact ihr s0 hs hr0

theorem adjStep_dependsOnMapOf (tasks : List (TaskId × List TaskId))
    (hnd : (tasks.map (fun t => t.1)).Nodup) (a b : TaskId)
    (h : adjStep (dependsOnMapOf tasks) a b) :
    stepRel (allDependenciesOf tasks) b a := by
  have hy2 : b ∈ (jsGet (dependsOnMapOf tasks) a).getD [] := h
  by_cases ha : a ∈ tasks.map (fun t => t.1)
  · rcases List.mem_map.1 ha with ⟨r, hr, rfl⟩
    rw [jsGet_dependsOnMapOf tasks hnd r hr] at hy2
    simp only [Option.getD_some] at hy2
    rw [← prereqsOf_allDeps tasks hnd r hr] at hy2
    exact stepRel_of_mem_prereqsOf _ b r.1 hy2
  · rw [jsGet_dependsOnMapOf_none tasks a ha] at hy2
    simp at hy2

/-- Soundness of createGraph's cycle detection on duplicate-free input: a
reported cycle implies a genuine dependency cycle. -/
theorem hasCycle_of_detectCyclesCreate (tasks : List (TaskId × List TaskId))
    (hnd : (tasks.map (fun t => t.1)).Nodup)
    (hne : (detectCyclesCreate (tasks.map (fun t => t.1))
      (dependsOnMapOf tasks)).2 ≠ []) :
    HasCycle (allDependenciesOf tasks) := by
  unfold detectCyclesCreate at hne
  dsimp only at hne
  cases hc : ((tasks.map (fun t => t.1)).foldl
      (fun s t => if t ∉ s.visited then
        dfsEntry (dependsOnMapOf tasks)
          (dfsFuel (tasks.map (fun t => t.1)) (dependsOnMapOf tasks)) s t []
        else s)
      { visited := [], recStack := [], cycles := [] }).cycles with
  | nil => exact absurd hc hne
  | cons c cs =>
    have hshape := dfsEntryRoots_sound (dependsOnMapOf tasks)
      (dfsFuel (tasks.map (fun t => t.1)) (dependsOnMapOf tasks))
      (tasks.map (fun t => t.1))
      { visited := [], recStack := [], cycles := [] }
      (by intro x hx; simp at hx) rfl c (by rw [hc]; simp)
    rcases hshape with ⟨v, m, _, hchain⟩
    rcases hasCycle_flip
      (fun a b hab => adjStep_dependsOnMapOf tasks hnd a b hab) v m hchain with
      ⟨w, mm, hc2⟩
    exact ⟨w, mm, hc2⟩

/-- C8.  On duplicate-free input whose dependency rows reference only
declared tasks, the dependent-to-prerequisite DFS of createGraph, the
prerequisite-to-dependent DFS of analyzeGraph, and the
dependent-to-prerequisite DFS of updateGraph agree on whether the graph
contains a cycle: the resulting has-cycles booleans are equal (each is true
exactly when a dependency cycle exists). -/
theorem cycle_detection_direction_agree (tasks : List (TaskId × List TaskId))
    (hnd : (tasks.map (fun t => t.1)).Nodup)
    (hval : ∀ e ∈ allDependenciesOf tasks,
      e.task_id ∈ tasks.map (fun t => t.1) ∧
      e.depends_on_task_id ∈ tasks.map (fun t => t.1)) :
    ((detectCyclesCreate (tasks.map (fun t => t.1)) (dependsOnMapOf tasks)).1 =
      (analyzeGraph (tasks.map (fun t => t.1))
        (allDependenciesOf tasks)).has_cycles) ∧
    (decide ((detectCyclesUpdate (tasks.map (fun t => t.1))
        (allDependenciesOf tasks)).length > 0) =
      (analyzeGraph (tasks.map (fun t => t.1))
        (allDependenciesOf tasks)).has_cycles) := by
  have hA : (analyzeGraph (tasks.map (fun t => t.1))
      (allDependenciesOf tasks)).has_cycles = true ↔
      HasCycle (allDependenciesOf tasks) := by
    have hiff : (analyzeGraph (tasks.map (fun t => t.1))
        (allDependenciesOf tasks)).has_cycles = true ↔
        (analyzeDfs (tasks.map (fun t => t.1))
          (allDependenciesOf tasks)).cycles ≠ [] := by
      unfold analyzeGraph
      dsimp only
      by_cases h : (analyzeDfs (tasks.map (fun t => t.1))
          (allDependenciesOf tasks)).cycles.length > 0
      · rw [if_pos h]
        constructor
        · intro _ hc
          rw [hc] at h
          simp at h
        · intro _
          rfl
      · rw [if_neg h]
        constructor
        · intro hc
          exact Bool.noConfusion hc
        · intro hc
          exfalso
          apply hc
          have h2 : (analyzeDfs (tasks.map (fun t => t.1))
              (allDependenciesOf tasks)).cycles.length = 0 := by omega
          exact List.length_eq_zero.1 h2
    rw [hiff]
    constructor
    · intro hne
      by_contra hacyc
      exact hne (analyzeDfs_no_cycles _ _ (fun e he => (hval e he).2) hacyc)
    · intro hcyc hnil
      exact analyzeDfs_complete _ _ hnd hval hnil hcyc
  have hC : (detectCyclesCreate (tasks.map (fun t => t.1))
      (dependsOnMapOf tasks)).1 = true ↔
      HasCycle (allDependenciesOf tasks) := by
    have hiff : (detectCyclesCreate (tasks.map (fun t => t.1))
        (dependsOnMapOf tasks)).1 = true ↔
        (detectCyclesCreate (tasks.map (fun t => t.1))
          (dependsOnMapOf tasks)).2 ≠ [] := by
      unfold detectCyclesCreate
      dsimp only
      simp only [decide_eq_true_eq]
      rw [gt_iff_lt, List.length_pos]
    rw [hiff]
    constructor
    · intro hne
      exact hasCycle_of_detectCyclesCreate tasks hnd hne
    · intro hcyc hnil
      exact detectCyclesCreate_complete tasks hnd hval hnil hcyc
  have hU : decide ((detectCyclesUpdate (tasks.map (fun t => t.1))
      (allDependenciesOf tasks)).length > 0) = true ↔
      HasCycle (allDependenciesOf tasks) := by
    simp only [decide_eq_true_eq]
    rw [gt_iff_lt, List.length_pos]
    constructor
    · intro hne
      exact hasCycle_of_detectCyclesUpdate _ _
        (fun e he => (hval e he).1) hne
    · intro hcyc hnil
      exact detectCyclesUpdate_complete _ _ hval hnil hcyc
  constructor
  · rw [Bool.eq_iff_iff]
    exact hC.trans hA.symm
  · rw [Bool.eq_iff_iff]
    exact hU.trans hA.symm

theorem cycle_detection_direction_agree_witness :
    ((detectCyclesCreate ([("a", ["b"]), ("b", [])].map (fun t => t.1))
      (dependsOnMapOf [("a", ["b"]), ("b", [])])).1 =
      (analyzeGraph ([("a", ["b"]), ("b", [])].map (fun t => t.1))
        (allDependenciesOf [("a", ["b"]), ("b", [])])).has_cycles) ∧
    (decide ((detectCyclesUpdate ([("a", ["b"]), ("b", [])].map (fun t => t.1))
        (allDependenciesOf [("a", ["b"]), ("b", [])])).length > 0) =
      (analyzeGraph ([("a", ["b"]), ("b", [])].map (fun t => t.1))
        (allDependenciesOf [("a", ["b"]), ("b", [])])).has_cycles) :=
  cycle_detection_direction_agree [("a", ["b"]), ("b", [])] (by decide)
    (by decide)
